import Mathlib

/-!
Verification of the mage-rs tree flattener, validator, number decoder and
executor setup against a shallow Lean embedding of the Rust sources
(`src/flatten.rs`, `src/validate.rs`, `src/jit.rs`, `src/execute.rs`).

The embedding mirrors the source function by function.  Mutable state is made
explicit: the Rust functions only ever `push` onto the shared statement chain,
so each embedded function returns the list of statements it emits (in push
order) together with its result and the updated temporary counter; callers
concatenate emissions in call order.  Recursion through the syntax tree is
paid for with an explicit fuel parameter (the family `theFns`); fuel is a
termination artifact only and every out-of-fuel outcome is the distinguished
error `Error.outOfFuel`, which no theorem below ever confuses with a source
error.  Rust byte indices into token text are modelled as character indices,
which agree on the ASCII tokens the grammar produces.  A reachable Rust
`panic!`/`unwrap` failure is modelled as the distinguished error
`Error.panicked`.
-/

namespace Mage

/-- The node kinds the flattener and validator recognise (`NodeKindIDs` in
`src/flatten.rs` and `src/validate.rs`); `other` stands for every kind
identifier outside the recognised set.  The source compares numeric kind ids
obtained from the grammar; distinct names yield distinct ids, which the
constructors model.  The Rust field `variable` is spelled `variable_node`
because `variable` is a Lean keyword. -/
inductive Kind where
  | source_file
  | source
  | statement_chain
  | statement
  | definition
  | expression
  | identifier_chain
  | identifier
  | call
  | definition_operation
  | arithmetic
  | variable_node
  | number
  | string
  | prioritize
  | expression_section
  | other
deriving DecidableEq, Repr

/-- A concrete syntax tree node: its kind id, the slice
`code[start_byte..end_byte]` of the source text it spans, and its children in
order (tree-sitter `Node`). -/
inductive STree where
  | node (kind : Kind) (text : String) (children : List STree)

def STree.kind : STree → Kind
  | .node k _ _ => k

def STree.text : STree → String
  | .node _ t _ => t

def STree.children : STree → List STree
  | .node _ _ c => c

/-- Model of `FlatDefinitionOperation` from `src/flatten.rs`. -/
inductive FlatDefinitionOperation where
  | Constant
  | Variable
deriving DecidableEq, Repr

/-- Model of `FlatDefinition` from `src/flatten.rs`. -/
structure FlatDefinition where
  name : String
  operation : FlatDefinitionOperation
deriving DecidableEq, Repr

/-- Model of `FlatArithmetic` from `src/flatten.rs` (the source spells `Substract`). -/
inductive FlatArithmetic where
  | Add
  | Substract
  | Multiply
  | Divide
  | Modulo
deriving DecidableEq, Repr

/-- Model of `FlatVariable` from `src/flatten.rs`: token text stored inline by value. -/
inductive FlatVariable where
  | Number (s : String)
  | String (s : String)
  | Identifier (s : String)
deriving DecidableEq, Repr

/-- Model of `FlatExpression` from `src/flatten.rs`: `one` is a bare `FlatVariable`
(not an `Option`), `two` and `arithmetic` are optional. -/
structure FlatExpression where
  one : FlatVariable
  two : Option FlatVariable
  arithmetic : Option FlatArithmetic
deriving DecidableEq, Repr

/-- Model of `FlatStatement` from `src/flatten.rs`. -/
structure FlatStatement where
  definition : Option FlatDefinition
  expression : Option FlatExpression
deriving DecidableEq, Repr

/-- Model of `FlatStatementChain` from `src/flatten.rs`. -/
structure FlatStatementChain where
  statements : List FlatStatement
deriving DecidableEq, Repr

/-- Model of `FlatRoot` from `src/flatten.rs`: a list of statement chains and nothing
else — the type carries no interned pools and no index type. -/
structure FlatRoot where
  statement_chains : List FlatStatementChain
deriving DecidableEq, Repr

/-- Model of `ValidationError` from `src/lib.rs`. -/
inductive ValidationError where
  | InvalidNumberFormat (s : String)
  | EmptyExpression
  | MalformedFunctionCall (s : String)
  | InvalidIdentifierChain (s : String)
  | IncompleteOperatorSequence
  | UnsupportedSourceBlock
deriving DecidableEq, Repr

/-- Model of `Error` from `src/lib.rs`, extended with two artifacts of the embedding:
`panicked` models a reachable Rust `panic!`/`unwrap` failure (the Rust
process aborts; no `Error` value is produced), and `outOfFuel` is the fuel
exhaustion marker of the embedding. -/
inductive Error where
  | ValidationError (e : ValidationError)
  | FlattenError (msg : String)
  | panicked (msg : String)
  | outOfFuel
deriving DecidableEq, Repr

deriving instance DecidableEq for Except

/-- The message of the Rust panic raised by `Option::unwrap` on `None`. -/
def unwrapMsg : String := "called Option::unwrap() on a None value"

/-! ## Pure helpers of `src/flatten.rs` -/

/-- Model of `string_to_arithmetic` (flatten.rs:116). -/
def string_to_arithmetic (op : String) : Option FlatArithmetic :=
  if op = "+" then some .Add
  else if op = "-" then some .Substract
  else if op = "*" then some .Multiply
  else if op = "/" then some .Divide
  else if op = "%" then some .Modulo
  else none

/-- Model of `create_variable_expression` (flatten.rs:128). -/
def create_variable_expression (v : FlatVariable) : FlatExpression :=
  { one := v, two := none, arithmetic := none }

/-- Model of `create_binary_expression` (flatten.rs:137). -/
def create_binary_expression (left : FlatVariable) (op : FlatArithmetic)
    (right : FlatVariable) : FlatExpression :=
  { one := left, two := some right, arithmetic := some op }

/-- Rust `str::starts_with` on character lists. -/
def starts_withL : List Char → List Char → Bool
  | _, [] => true
  | [], _ :: _ => false
  | c :: cs, p :: ps => c == p && starts_withL cs ps

/-- Rust `str::ends_with` on character lists. -/
def ends_withL (l p : List Char) : Bool :=
  starts_withL l.reverse p.reverse

/-- Rust `str::contains(char)`. -/
def contains_char (s : String) (c : Char) : Bool :=
  s.data.any (fun d => d == c)

/-- Model of `string_to_variable` (flatten.rs:150): first character an ASCII digit, or
leading `0`, makes a number; surrounding double quotes make a string;
anything else is an identifier. -/
def string_to_variable (s : String) : FlatVariable :=
  if (s.data.head?.map Char.isDigit).getD false || starts_withL s.data ['0'] then
    .Number s
  else if starts_withL s.data ['"'] && ends_withL s.data ['"'] then
    .String s
  else
    .Identifier s

/-- The operator spelling used by `expression_to_string_simple`
(flatten.rs:179). -/
def arithmetic_to_string : FlatArithmetic → String
  | .Add => "+"
  | .Substract => "-"
  | .Multiply => "*"
  | .Divide => "/"
  | .Modulo => "%"

def variable_to_string : FlatVariable → String
  | .Number n => n
  | .String s => s
  | .Identifier i => i

/-- Model of `expression_to_string_simple` (flatten.rs:176). -/
def expression_to_string_simple (e : FlatExpression) : String :=
  match e.two, e.arithmetic with
  | some right, some op =>
      variable_to_string e.one ++ " " ++ arithmetic_to_string op ++ " " ++
        variable_to_string right
  | _, _ => variable_to_string e.one

/-- Model of `expression_to_string` (flatten.rs:524) forwards to the simple form. -/
def expression_to_string (e : FlatExpression) : String :=
  expression_to_string_simple e

/-- Split a character list at its first space, when one exists. -/
def break_at_space : List Char → List Char × Option (List Char)
  | [] => ([], none)
  | c :: cs =>
    if c = ' ' then ([], some cs)
    else
      let (pre, post) := break_at_space cs
      (c :: pre, post)

/-- Rust `str::splitn(2, ' ')`: at most one split, at the first space. -/
def splitn2 (s : String) : List String :=
  match break_at_space s.data with
  | (_, none) => [s]
  | (pre, some post) => [pre.asString, post.asString]

/-- The position of the first occurrence of `pat` in `l` (Rust
`str::find`). -/
def find_substr_pos : List Char → List Char → Option Nat
  | [], pat => if pat.isEmpty then some 0 else none
  | c :: rest, pat =>
    if starts_withL (c :: rest) pat then some 0
    else (find_substr_pos rest pat).map (· + 1)

/-- Rust `str::contains(pattern)` for a multi-character pattern. -/
def contains_substr (s pat : String) : Bool :=
  (find_substr_pos s.data pat.data).isSome

/-- The statement literal pushed at every temporary-definition site of
`src/flatten.rs` (a `Constant` definition holding one expression). -/
def mkTemp (name : String) (e : FlatExpression) : FlatStatement :=
  { definition := some { name := name, operation := .Constant },
    expression := some e }

/-- Indexing `v[i]` on a Rust `Vec`: out of bounds panics. -/
def getIdx {α : Type} (l : List α) (i : Nat) : Except Error α :=
  match l.get? i with
  | some x => .ok x
  | none => .error (.panicked "index out of bounds")

/-- Model of `Option::unwrap`. -/
def optUnwrap {α : Type} : Option α → Except Error α
  | some x => .ok x
  | none => .error (.panicked unwrapMsg)

/-- Model of `find_high_precedence_operation` (flatten.rs:1193). -/
def find_high_precedence_operation (operators : List String) : Option Nat :=
  operators.findIdx? (fun op => op = "*" || op = "/")

/-- Model of `should_extract_high_precedence` (flatten.rs:1197). -/
def should_extract_high_precedence (operators : List String) : Bool :=
  operators.any (fun op => op = "+" || op = "-")

/-! ## `process_expression_parts` (flatten.rs:1036) and its two loops

The function receives the already-collected section parts and works only on
strings and lists; it never recurses into the tree, so it needs no fuel.  The
two `while` loops shrink the operator list by one element per iteration; they
are written with an explicit iteration budget that call sites set to the
operator count, which the loop guard can never exceed. -/

/-- Conversion of the first section part into initial operand/operator lists
(flatten.rs:1067): a `String` part of the form `"op rest"` contributes the
implicit `"0"` operand. -/
def first_part_ops (p : FlatExpression) : List String × List String :=
  match p.one with
  | .String s =>
      match splitn2 s with
      | [a, b] => (["0", b], [a])
      | _ => ([expression_to_string p], [])
  | _ => ([expression_to_string p], [])

/-- Conversion of the remaining section parts (flatten.rs:1087): each
`String` part `"op rest"` contributes one operator and one operand; any other
part contributes nothing. -/
def parts_to_ops : List FlatExpression → List String × List String
  | [] => ([], [])
  | part :: rest =>
      let (os, ops) := parts_to_ops rest
      match part.one with
      | .String s =>
          match splitn2 s with
          | [a, b] => (b :: os, a :: ops)
          | _ => (os, ops)
      | _ => (os, ops)

/-- The high-precedence extraction loop (flatten.rs:1098): while a `*` or `/`
is present and a `+` or `-` is also present, extract the high-precedence
operation into a fresh temporary. `n` bounds the iterations; call sites pass
the operator count, which dominates the loop's trip count. -/
def extract_high_go : Nat → List String → List String → String → Nat →
    Except Error (List String × List String × Nat × List FlatStatement)
  | 0, operands, operators, _, ctr => .ok (operands, operators, ctr, [])
  | n + 1, operands, operators, base_name, ctr =>
    match find_high_precedence_operation operators with
    | none => .ok (operands, operators, ctr, [])
    | some pos =>
      if should_extract_high_precedence operators then
        let temporary_name := base_name ++ "_" ++ toString ctr
        match getIdx operands pos with
        | .error e => .error e
        | .ok left =>
          match getIdx operators pos with
          | .error e => .error e
          | .ok operator =>
            match getIdx operands (pos + 1) with
            | .error e => .error e
            | .ok right =>
              match string_to_arithmetic operator with
              | some op =>
                let stmt := mkTemp temporary_name
                  (create_binary_expression (string_to_variable left) op
                    (string_to_variable right))
                match extract_high_go n ((operands.set pos temporary_name).eraseIdx (pos + 1))
                    (operators.eraseIdx pos) base_name (ctr + 1) with
                | .error e => .error e
                | .ok (a, b, c, em) => .ok (a, b, c, stmt :: em)
              | none => .error (.FlattenError ("Unknown operator: " ++ operator))
      else .ok (operands, operators, ctr, [])

/-- The left-to-right reduction loop (flatten.rs:1137): while more than one
operator remains, fold the two leftmost operands into a temporary. -/
def left_to_right_go : Nat → List String → List String → String → Nat →
    Except Error (List String × List String × Nat × List FlatStatement)
  | 0, operands, operators, _, ctr => .ok (operands, operators, ctr, [])
  | n + 1, operands, operators, base_name, ctr =>
    if operators.length > 1 then
      let temporary_name := base_name ++ "_" ++ toString ctr
      match getIdx operands 0 with
      | .error e => .error e
      | .ok left =>
        match getIdx operators 0 with
        | .error e => .error e
        | .ok operator =>
          match getIdx operands 1 with
          | .error e => .error e
          | .ok right =>
            match string_to_arithmetic operator with
            | some op =>
              let stmt := mkTemp temporary_name
                (create_binary_expression (string_to_variable left) op
                  (string_to_variable right))
              match left_to_right_go n ((operands.set 0 temporary_name).eraseIdx 1)
                  (operators.eraseIdx 0) base_name (ctr + 1) with
              | .error e => .error e
              | .ok (a, b, c, em) => .ok (a, b, c, stmt :: em)
            | none => .error (.FlattenError ("Unknown operator: " ++ operator))
    else .ok (operands, operators, ctr, [])

/-- Model of `process_expression_parts` (flatten.rs:1036).  With fewer than two parts
the Rust code unwraps the first element — a panic on the empty vector — and
rewrites a lone `"op rest"` string part into a binary with the implicit
`"0"` left operand.  With two or more parts it builds operand/operator lists,
runs the two loops, and finishes with the last binary (or a lone operand). -/
def process_expression_parts (parts : List FlatExpression) (base_name : String)
    (ctr : Nat) : Except Error (FlatExpression × Nat × List FlatStatement) :=
  if parts.length < 2 then
    match parts with
    | [] => .error (.panicked unwrapMsg)
    | single_part :: _ =>
      match single_part.one with
      | .String s =>
        match splitn2 s with
        | [a, b] =>
          match string_to_arithmetic a with
          | some op =>
              .ok (create_binary_expression (.Number "0") op (string_to_variable b),
                ctr, [])
          | none => .ok (single_part, ctr, [])
        | _ => .ok (single_part, ctr, [])
      | _ => .ok (single_part, ctr, [])
  else
    match parts with
    | [] => .error (.panicked unwrapMsg)
    | p :: rest =>
      let (o1, k1) := first_part_ops p
      let (o2, k2) := parts_to_ops rest
      let operands := o1 ++ o2
      let operators := k1 ++ k2
      match extract_high_go operators.length operands operators base_name ctr with
      | .error e => .error e
      | .ok (operands1, operators1, ctr1, em1) =>
        match left_to_right_go operators1.length operands1 operators1 base_name ctr1 with
        | .error e => .error e
        | .ok (operands2, operators2, ctr2, em2) =>
          match operators2 with
          | [operator] =>
            (match getIdx operands2 0 with
            | .error e => .error e
            | .ok left =>
              match getIdx operands2 1 with
              | .error e => .error e
              | .ok right =>
                match string_to_arithmetic operator with
                | some op =>
                    .ok (create_binary_expression (string_to_variable left) op
                      (string_to_variable right), ctr2, em1 ++ em2)
                | none => .error (.FlattenError ("Unknown operator: " ++ operator)))
          | _ =>
            match getIdx operands2 0 with
            | .error e => .error e
            | .ok o => .ok (create_variable_expression (.Identifier o), ctr2, em1 ++ em2)

/-! ## Tree-recursive flattening core

`FlattenFns` packages the mutually recursive processors of `src/flatten.rs`;
`stepFns` is one layer of their call graph, every cross-call descending one
fuel level, and `theFns fuel` ties the knot.  The `for` loops over a node's
children become the structural list functions below, parameterised by the
processors they invoke on matching children. -/

/-- The mutually recursive expression processors of `src/flatten.rs`.  Each
returns its result, the updated `temporary_counter`, and the statements it
pushed onto the enclosing statement chain, in push order. -/
structure FlattenFns where
  process_expression_section :
    STree → String → Nat → Bool → Except Error (FlatExpression × Nat × List FlatStatement)
  process_variable :
    STree → String → Nat → Bool → Except Error (FlatExpression × Nat × List FlatStatement)
  process_identifier_chain :
    STree → String → Nat → Bool → Except Error (FlatExpression × Nat × List FlatStatement)
  process_identifier_part_with_calls :
    STree → String → Nat → Bool → Except Error (String × Nat × List FlatStatement)
  process_call_with_arguments :
    STree → String → Nat → Bool → Except Error (String × Nat × List FlatStatement)
  process_call_node :
    STree → String → Nat → Except Error (String × Nat × List FlatStatement)
  process_call_argument :
    STree → String → Nat → Except Error (String × Nat × List FlatStatement)

/-- Model of `has_call_in_identifier` (flatten.rs:778): any direct child of kind
`call`. -/
def has_call_in_identifier (node : STree) : Bool :=
  node.children.any (fun c => c.kind = .call)

/-- Model of `has_nested_calls_in_single_identifier` (flatten.rs:791): the node's text
contains the two-character pattern. -/
def has_nested_calls_in_single_identifier (node : STree) : Bool :=
  contains_substr node.text ")("

/-- Model of `process_nested_call` (flatten.rs:802): split the identifier text at the
first occurrence of the pattern, bind the first half to a temporary, and
return the temporary applied to the second half. -/
def process_nested_call (node : STree) (base_name : String) (ctr : Nat) :
    Except Error (FlatExpression × Nat × List FlatStatement) :=
  let id_text := node.text
  if contains_substr id_text ")(" then
    let split_pos := (find_substr_pos id_text.data [')', '(']).getD 0
    let first_part := (id_text.data.take (split_pos + 1)).asString
    let second_part := (id_text.data.drop (split_pos + 1)).asString
    let temporary_name := base_name ++ "_" ++ toString ctr
    .ok (create_variable_expression (.Identifier (temporary_name ++ second_part)),
      ctr + 1,
      [mkTemp temporary_name (create_variable_expression (.Identifier first_part))])
  else
    .ok (create_variable_expression (.Identifier id_text), ctr, [])

/-- The loop of `collect_expression_sections` (flatten.rs:351): process every
child of kind `expression_section` with `pes`, accumulating parts and
emissions in order. -/
def collect_sections_listF
    (pes : STree → String → Nat → Bool → Except Error (FlatExpression × Nat × List FlatStatement)) :
    List STree → String → Nat → Bool →
    Except Error (List FlatExpression × Nat × List FlatStatement)
  | [], _, ctr, _ => .ok ([], ctr, [])
  | c :: rest, base_name, ctr, force =>
    if c.kind = .expression_section then
      match pes c base_name ctr force with
      | .error e => .error e
      | .ok (part, ctr1, em1) =>
        match collect_sections_listF pes rest base_name ctr1 force with
        | .error e => .error e
        | .ok (parts, ctr2, em2) => .ok (part :: parts, ctr2, em1 ++ em2)
    else collect_sections_listF pes rest base_name ctr force

/-- The child loop of `process_expression_section` (flatten.rs:391):
`arithmetic` children append their text to the operator list, `variable`
children become the (last-written) operand via `pv`. -/
def section_children_loopF
    (pv : STree → String → Nat → Bool → Except Error (FlatExpression × Nat × List FlatStatement)) :
    List STree → String → Nat → Bool → List String → Option FlatExpression →
    Except Error (List String × Option FlatExpression × Nat × List FlatStatement)
  | [], _, ctr, _, operators, operand => .ok (operators, operand, ctr, [])
  | c :: rest, base_name, ctr, force, operators, operand =>
    if c.kind = .arithmetic then
      section_children_loopF pv rest base_name ctr force (operators ++ [c.text]) operand
    else if c.kind = .variable_node then
      match pv c base_name ctr force with
      | .error e => .error e
      | .ok (v, ctr1, em1) =>
        match section_children_loopF pv rest base_name ctr1 force operators (some v) with
        | .error e => .error e
        | .ok (ops, opnd, ctr2, em2) => .ok (ops, opnd, ctr2, em1 ++ em2)
    else section_children_loopF pv rest base_name ctr force operators operand

/-- The right-to-left unary chain of `process_expression_section`
(flatten.rs:452): one temporary `0 op current` per operator, threading the
temporary's name as the next operand. -/
def unary_temp_loop : List String → String → Nat → String →
    Except Error (String × Nat × List FlatStatement)
  | [], _, ctr, current => .ok (current, ctr, [])
  | op :: rest, base_name, ctr, current =>
    let temp_name := base_name ++ "_" ++ toString ctr
    match string_to_arithmetic op with
    | some a =>
      match unary_temp_loop rest base_name (ctr + 1) temp_name with
      | .error e => .error e
      | .ok (cur, ctr1, em) =>
          .ok (cur, ctr1,
            mkTemp temp_name
              (create_binary_expression (.Number "0") a (string_to_variable current)) :: em)
    | none => .error (.FlattenError ("Unknown operator: " ++ op))

/-- The inner loop of the `prioritize` arm of `process_variable`
(flatten.rs:569): the first child of kind `expression` is collected (forcing
call extraction), flattened, bound to the already-named temporary and
returned; `none` reports that no expression child was found. -/
def prioritize_innerF
    (pes : STree → String → Nat → Bool → Except Error (FlatExpression × Nat × List FlatStatement)) :
    List STree → String → Nat → String →
    Except Error (Option (FlatExpression × Nat × List FlatStatement))
  | [], _, _, _ => .ok none
  | ic :: rest, base_name, ctr, temporary_name =>
    if ic.kind = .expression then
      match collect_sections_listF pes ic.children base_name ctr true with
      | .error e => .error e
      | .ok (inner_parts, ctr1, em1) =>
        match inner_parts with
        | [p] =>
            .ok (some (create_variable_expression (.Identifier temporary_name), ctr1,
              em1 ++ [mkTemp temporary_name p]))
        | _ =>
          match process_expression_parts inner_parts base_name ctr1 with
          | .error e => .error e
          | .ok (flattened_inner, ctr2, em2) =>
              .ok (some (create_variable_expression (.Identifier temporary_name), ctr2,
                em1 ++ em2 ++ [mkTemp temporary_name flattened_inner]))
    else prioritize_innerF pes rest base_name ctr temporary_name

/-- The child loop of `process_variable` (flatten.rs:538): the first
recognised child decides the result; a `prioritize` child without an inner
expression falls through to the remaining children with the counter already
advanced; no recognised child is the hard error. -/
def pv_loopF
    (pic : STree → String → Nat → Bool → Except Error (FlatExpression × Nat × List FlatStatement))
    (pes : STree → String → Nat → Bool → Except Error (FlatExpression × Nat × List FlatStatement)) :
    List STree → String → Nat → Bool →
    Except Error (FlatExpression × Nat × List FlatStatement)
  | [], _, _, _ => .error (.FlattenError "Unknown variable type")
  | c :: rest, base_name, ctr, force =>
    if c.kind = .number then
      .ok (create_variable_expression (.Number c.text), ctr, [])
    else if c.kind = .identifier_chain then
      pic c base_name ctr force
    else if c.kind = .string then
      .ok (create_variable_expression (.String c.text), ctr, [])
    else if c.kind = .prioritize then
      let temporary_name := base_name ++ "_" ++ toString ctr
      match prioritize_innerF pes c.children base_name (ctr + 1) temporary_name with
      | .error e => .error e
      | .ok (some result) => .ok result
      | .ok none => pv_loopF pic pes rest base_name (ctr + 1) force
    else pv_loopF pic pes rest base_name ctr force

/-- The suffix loop of `process_identifier_chain` (flatten.rs:699): process
each remaining identifier part, collecting the resulting text pieces. -/
def suffix_loopF
    (pipwc : STree → String → Nat → Bool → Except Error (String × Nat × List FlatStatement)) :
    List STree → String → Nat → Bool →
    Except Error (List String × Nat × List FlatStatement)
  | [], _, ctr, _ => .ok ([], ctr, [])
  | c :: rest, base_name, ctr, force =>
    match pipwc c base_name ctr force with
    | .error e => .error e
    | .ok (part, ctr1, em1) =>
      match suffix_loopF pipwc rest base_name ctr1 force with
      | .error e => .error e
      | .ok (parts, ctr2, em2) => .ok (part :: parts, ctr2, em1 ++ em2)

/-- The child loop of `process_call_node` (flatten.rs:910): an `identifier`
child (re)binds the call identifier with forced extraction; an `expression`
child appends a processed argument. -/
def call_node_loopF
    (pipwc : STree → String → Nat → Bool → Except Error (String × Nat × List FlatStatement))
    (pca : STree → String → Nat → Except Error (String × Nat × List FlatStatement)) :
    List STree → String → Nat → String → Bool → List String →
    Except Error (String × Bool × List String × Nat × List FlatStatement)
  | [], _, ctr, call_identifier, found, args => .ok (call_identifier, found, args, ctr, [])
  | c :: rest, base_name, ctr, call_identifier, found, args =>
    if c.kind = .identifier then
      match pipwc c base_name ctr true with
      | .error e => .error e
      | .ok (ci, ctr1, em1) =>
        match call_node_loopF pipwc pca rest base_name ctr1 ci true args with
        | .error e => .error e
        | .ok (r1, r2, r3, r4, em2) => .ok (r1, r2, r3, r4, em1 ++ em2)
    else if c.kind = .expression then
      match pca c base_name ctr with
      | .error e => .error e
      | .ok (arg, ctr1, em1) =>
        match call_node_loopF pipwc pca rest base_name ctr1 call_identifier found
            (args ++ [arg]) with
        | .error e => .error e
        | .ok (r1, r2, r3, r4, em2) => .ok (r1, r2, r3, r4, em1 ++ em2)
    else call_node_loopF pipwc pca rest base_name ctr call_identifier found args

/-- The processors with every recursion exhausted: each call reports
`outOfFuel`. -/
def bottomFns : FlattenFns where
  process_expression_section := fun _ _ _ _ => .error .outOfFuel
  process_variable := fun _ _ _ _ => .error .outOfFuel
  process_identifier_chain := fun _ _ _ _ => .error .outOfFuel
  process_identifier_part_with_calls := fun _ _ _ _ => .error .outOfFuel
  process_call_with_arguments := fun _ _ _ _ => .error .outOfFuel
  process_call_node := fun _ _ _ => .error .outOfFuel
  process_call_argument := fun _ _ _ => .error .outOfFuel

/-- One layer of the mutually recursive processors of `src/flatten.rs`; every
recursive call goes through `prev`. -/
def stepFns (prev : FlattenFns) : FlattenFns where
  process_expression_section := fun node base_name ctr force =>
    -- flatten.rs:379 `process_expression_section`
    match section_children_loopF prev.process_variable node.children base_name ctr force
        [] none with
    | .error e => .error e
    | .ok (operators, operand, ctr1, em0) =>
      match operators with
      | [] =>
        (match operand with
        | some o => .ok (o, ctr1, em0)
        | none => .error (.FlattenError "No operand found in expression section"))
      | [op0] =>
        -- single operator (flatten.rs:512)
        (match optUnwrap operand with
        | .error e => .error e
        | .ok o =>
            .ok (create_variable_expression
              (.String (op0 ++ " " ++ expression_to_string_simple o)), ctr1, em0))
      | op0 :: u0 :: uRest =>
        -- more than one operator (flatten.rs:420)
        match optUnwrap operand with
        | .error e => .error e
        | .ok operand_unwrapped =>
          let temporary_name := base_name ++ "_" ++ toString ctr1
          let ctr2 := ctr1 + 1
          match uRest with
          | [] =>
            -- a single unary operator (flatten.rs:430)
            (match string_to_arithmetic u0 with
            | some op =>
                .ok (create_variable_expression
                  (.String (op0 ++ " " ++ temporary_name)), ctr2,
                  em0 ++ [mkTemp temporary_name
                    (create_binary_expression (.Number "0") op
                      (string_to_variable (expression_to_string operand_unwrapped)))])
            | none => .error (.FlattenError ("Unknown operator: " ++ u0)))
          | _ =>
            -- several unary operators, processed right to left (flatten.rs:446)
            let operators_rev := (u0 :: uRest).reverse
            match unary_temp_loop operators_rev.dropLast base_name ctr2
                (expression_to_string operand_unwrapped) with
            | .error e => .error e
            | .ok (current, ctr3, emU) =>
              match operators_rev.getLast? with
              | none => .error (.panicked unwrapMsg)
              | some lastOp =>
                match string_to_arithmetic lastOp with
                | some op =>
                    .ok (create_variable_expression
                      (.String (op0 ++ " " ++ temporary_name)), ctr3,
                      em0 ++ emU ++ [mkTemp temporary_name
                        (create_binary_expression (.Number "0") op
                          (string_to_variable current))])
                | none => .error (.FlattenError ("Unknown operator: " ++ lastOp))
  process_variable := fun node base_name ctr force =>
    -- flatten.rs:529 `process_variable`
    pv_loopF prev.process_identifier_chain prev.process_expression_section
      node.children base_name ctr force
  process_identifier_chain := fun node base_name ctr force =>
    -- flatten.rs:618 `process_identifier_chain`
    let chain_parts := node.children.filter (fun c => c.kind = .identifier)
    match chain_parts with
    | [] => .error (.FlattenError "Empty identifier chain")
    | [single] =>
      if has_nested_calls_in_single_identifier single then
        process_nested_call single base_name ctr
      else if force && has_call_in_identifier single then
        match prev.process_call_with_arguments single base_name ctr force with
        | .error e => .error e
        | .ok (processed_call, ctr1, em1) =>
          let temporary_name := base_name ++ "_" ++ toString ctr1
          .ok (create_variable_expression (.Identifier temporary_name), ctr1 + 1,
            em1 ++ [mkTemp temporary_name
              (create_variable_expression (.Identifier processed_call))])
      else .ok (create_variable_expression (.Identifier node.text), ctr, [])
    | _ =>
      match chain_parts.findIdx? has_call_in_identifier with
      | none => .ok (create_variable_expression (.Identifier node.text), ctr, [])
      | some call_index =>
        let temporary_name := base_name ++ "_" ++ toString ctr
        match getIdx chain_parts call_index with
        | .error e => .error e
        | .ok target =>
          match prev.process_call_with_arguments target base_name (ctr + 1) force with
          | .error e => .error e
          | .ok (processed_call, ctr2, em2) =>
            let prefix_parts := (chain_parts.take call_index).map STree.text
            let call_expression :=
              String.intercalate "." (prefix_parts ++ [processed_call])
            let tempStmt := mkTemp temporary_name
              (create_variable_expression (.Identifier call_expression))
            match chain_parts.drop (call_index + 1) with
            | [] =>
                .ok (create_variable_expression (.Identifier temporary_name), ctr2,
                  em2 ++ [tempStmt])
            | remaining =>
              match suffix_loopF prev.process_identifier_part_with_calls remaining
                  base_name ctr2 force with
              | .error e => .error e
              | .ok (suffix_parts, ctr3, em3) =>
                  .ok (create_variable_expression
                    (.Identifier (temporary_name ++ "." ++
                      String.intercalate "." suffix_parts)), ctr3,
                    em2 ++ [tempStmt] ++ em3)
  process_identifier_part_with_calls := fun node base_name ctr force =>
    -- flatten.rs:844
    if has_call_in_identifier node then
      prev.process_call_with_arguments node base_name ctr force
    else .ok (node.text, ctr, [])
  process_call_with_arguments := fun node base_name ctr _force =>
    -- flatten.rs:869 (the force flag is unused in the source)
    match node.children.find? (fun c => c.kind = .call) with
    | some callChild => prev.process_call_node callChild base_name ctr
    | none => .ok (node.text, ctr, [])
  process_call_node := fun node base_name ctr =>
    -- flatten.rs:897
    match call_node_loopF prev.process_identifier_part_with_calls
        prev.process_call_argument node.children base_name ctr "" false [] with
    | .error e => .error e
    | .ok (call_identifier, found, args, ctr1, em1) =>
      if found then
        match args with
        | [] => .ok (call_identifier ++ "()", ctr1, em1)
        | _ =>
            .ok (call_identifier ++ "(" ++ String.intercalate ", " args ++ ")",
              ctr1, em1)
      else .error (.FlattenError "Call without identifier")
  process_call_argument := fun node base_name ctr =>
    -- flatten.rs:954
    match collect_sections_listF prev.process_expression_section node.children
        base_name ctr true with
    | .error e => .error e
    | .ok (expression_parts, ctr1, em1) =>
      match expression_parts with
      | [] => .error (.FlattenError "Empty expression in call argument")
      | [arg_expr] =>
        (match arg_expr.one with
        | .Identifier id =>
          if contains_char id '(' && contains_char id ')' then
            let temp_name := base_name ++ "_" ++ toString ctr1
            .ok (temp_name, ctr1 + 1, em1 ++ [mkTemp temp_name arg_expr])
          else .ok (id, ctr1, em1)
        | _ => .ok (expression_to_string_simple arg_expr, ctr1, em1))
      | _ =>
        match process_expression_parts expression_parts base_name ctr1 with
        | .error e => .error e
        | .ok (flattened, ctr2, em2) =>
          let temp_name := base_name ++ "_" ++ toString ctr2
          .ok (temp_name, ctr2 + 1, em1 ++ em2 ++ [mkTemp temp_name flattened])

/-- The processor family at a given recursion depth. -/
def theFns : Nat → FlattenFns
  | 0 => bottomFns
  | n + 1 => stepFns (theFns n)

/-! ## Statement-level flattening (flatten.rs:197-348) -/

/-- The child fold of `flatten_definition` (flatten.rs:277): the
`identifier_chain` text becomes the name, a `definition_operation` text of
`":"` or `"="` selects the operation. -/
def flatten_definition_children : List STree → FlatDefinition → FlatDefinition
  | [], d => d
  | c :: rest, d =>
    let text := c.text
    let d :=
      if c.kind = .identifier_chain then { d with name := text }
      else if c.kind = .definition_operation then
        let d := if text = ":" then { d with operation := .Constant } else d
        if text = "=" then { d with operation := .Variable } else d
      else d
    flatten_definition_children rest d

/-- Model of `flatten_definition` (flatten.rs:265); the source signature returns a
`Result` but the body never errs. -/
def flatten_definition (node : STree) (statement : FlatStatement) : FlatStatement :=
  { statement with
    definition := some (flatten_definition_children node.children
      { name := "", operation := .Constant }) }

/-- Model of `flatten_expression` (flatten.rs:300): name the temporaries after the
statement's definition (or `"temporary"`), force call extraction when there
is more than one section, collect the sections, then fold them into one
expression. -/
def flatten_expression (fuel : Nat) (node : STree) (statement : FlatStatement) :
    Except Error (FlatStatement × List FlatStatement) :=
  let name :=
    match statement.definition with
    | some d => d.name
    | none => "temporary"
  let section_count :=
    (node.children.filter (fun c => c.kind = .expression_section)).length
  let force_call_extraction := section_count > 1
  match collect_sections_listF (theFns fuel).process_expression_section node.children
      name 1 force_call_extraction with
  | .error e => .error e
  | .ok (expression_parts, ctr1, em1) =>
    match process_expression_parts expression_parts name ctr1 with
    | .error e => .error e
    | .ok (flattened_expr, _, em2) =>
        .ok ({ statement with expression := some flattened_expr }, em1 ++ em2)

/-- The child loop of `flatten_statement` (flatten.rs:249): `definition`
children update the statement, `expression` children update it and emit
temporaries, all other kinds are skipped. -/
def stmt_children_loopF
    (fe : STree → FlatStatement → Except Error (FlatStatement × List FlatStatement)) :
    List STree → FlatStatement → Except Error (FlatStatement × List FlatStatement)
  | [], statement => .ok (statement, [])
  | c :: rest, statement =>
    if c.kind = .definition then
      stmt_children_loopF fe rest (flatten_definition c statement)
    else if c.kind = .expression then
      match fe c statement with
      | .error e => .error e
      | .ok (statement1, em1) =>
        match stmt_children_loopF fe rest statement1 with
        | .error e => .error e
        | .ok (statement2, em2) => .ok (statement2, em1 ++ em2)
    else stmt_children_loopF fe rest statement

/-- Model of `flatten_statement` (flatten.rs:238): process the children (which may
push temporaries), then push the statement itself — always last. -/
def flatten_statement (fuel : Nat) (node : STree) : Except Error (List FlatStatement) :=
  match stmt_children_loopF (flatten_expression fuel) node.children
      { definition := none, expression := none } with
  | .error e => .error e
  | .ok (statement, em) => .ok (em ++ [statement])

/-- The child loop of `flatten_statement_chain` (flatten.rs:228). -/
def statement_listF (fs : STree → Except Error (List FlatStatement)) :
    List STree → Except Error (List FlatStatement)
  | [] => .ok []
  | c :: rest =>
    if c.kind = .statement then
      match fs c with
      | .error e => .error e
      | .ok em1 =>
        match statement_listF fs rest with
        | .error e => .error e
        | .ok em2 => .ok (em1 ++ em2)
    else statement_listF fs rest

/-- Model of `flatten_statement_chain` (flatten.rs:218). -/
def flatten_statement_chain (fuel : Nat) (node : STree)
    (root : List FlatStatementChain) : Except Error (List FlatStatementChain) :=
  match statement_listF (flatten_statement fuel) node.children with
  | .error e => .error e
  | .ok stmts => .ok (root ++ [{ statements := stmts }])

/-- The child loop of `flatten_node` (flatten.rs:208). -/
def chain_listF (fsc : STree → List FlatStatementChain → Except Error (List FlatStatementChain)) :
    List STree → List FlatStatementChain → Except Error (List FlatStatementChain)
  | [], root => .ok root
  | c :: rest, root =>
    if c.kind = .statement_chain then
      match fsc c root with
      | .error e => .error e
      | .ok root1 => chain_listF fsc rest root1
    else chain_listF fsc rest root

/-- Model of `flatten_node` (flatten.rs:202): only `source_file` and `source` roots
are walked; every other kind yields the empty root with no error. -/
def flatten_node (fuel : Nat) (node : STree) : Except Error FlatRoot :=
  if node.kind = .source_file ∨ node.kind = .source then
    match chain_listF (flatten_statement_chain fuel) node.children [] with
    | .error e => .error e
    | .ok chains => .ok { statement_chains := chains }
  else .ok { statement_chains := [] }

/-- Model of `flatten_tree` (flatten.rs:197). -/
def flatten_tree (fuel : Nat) (tree : STree) : Except Error FlatRoot :=
  flatten_node fuel tree

/-! ## Token collectors over the produced IR and over trees -/

/-- The number-token occurrences stored inline in a `FlatVariable`. -/
def variableNumberTokens : FlatVariable → List String
  | .Number s => [s]
  | _ => []

/-- The number-token occurrences stored inline in a `FlatExpression`. -/
def expressionNumberTokens (e : FlatExpression) : List String :=
  variableNumberTokens e.one ++
    (match e.two with
     | some v => variableNumberTokens v
     | none => [])

def statementNumberTokens (s : FlatStatement) : List String :=
  match s.expression with
  | some e => expressionNumberTokens e
  | none => []

def chainNumberTokens (c : FlatStatementChain) : List String :=
  (c.statements.map statementNumberTokens).flatten

/-- Every number-token occurrence stored in a `FlatRoot`, in order. -/
def rootNumberTokens (r : FlatRoot) : List String :=
  (r.statement_chains.map chainNumberTokens).flatten

/-- The texts of all `number`-kind nodes of a tree (fuel-bounded walk). -/
def treeNumberTexts : Nat → STree → List String
  | 0, _ => []
  | fuel + 1, .node k t cs =>
      (if k = .number then [t] else []) ++ (cs.map (treeNumberTexts fuel)).flatten

/-! ## Concrete parse trees used by the claims

The trees follow the grammar shape the flattener walks:
`source_file → statement_chain → statement → definition / expression`,
expressions split into `expression_section`s holding `arithmetic` operators
and `variable` operands. -/

/-- The parse tree of `y : 0d2 * 0d2;` — the same number token occurs
twice. -/
def dupTree : STree :=
  .node .source_file "y : 0d2 * 0d2;" [
    .node .statement_chain "y : 0d2 * 0d2;" [
      .node .statement "y : 0d2 * 0d2;" [
        .node .definition "y :" [
          .node .identifier_chain "y" [.node .identifier "y" []],
          .node .definition_operation ":" []],
        .node .expression "0d2 * 0d2" [
          .node .expression_section "0d2" [
            .node .variable_node "0d2" [.node .number "0d2" []]],
          .node .expression_section "* 0d2" [
            .node .arithmetic "*" [],
            .node .variable_node "0d2" [.node .number "0d2" []]]]]]]

/-- The parse tree of the unary expression `- 0d1`. -/
def unaryTree : STree :=
  .node .source_file "- 0d1" [
    .node .statement_chain "- 0d1" [
      .node .statement "- 0d1" [
        .node .expression "- 0d1" [
          .node .expression_section "- 0d1" [
            .node .arithmetic "-" [],
            .node .variable_node "0d1" [.node .number "0d1" []]]]]]]

/-- The statement node of `x : 0d10 - [0d10 - 0d5];` — a definition whose
expression holds a bracketed (prioritised) subexpression. -/
def bracketStatementNode : STree :=
  .node .statement "x : 0d10 - [0d10 - 0d5];" [
    .node .definition "x :" [
      .node .identifier_chain "x" [.node .identifier "x" []],
      .node .definition_operation ":" []],
    .node .expression "0d10 - [0d10 - 0d5]" [
      .node .expression_section "0d10" [
        .node .variable_node "0d10" [.node .number "0d10" []]],
      .node .expression_section "- [0d10 - 0d5]" [
        .node .arithmetic "-" [],
        .node .variable_node "[0d10 - 0d5]" [
          .node .prioritize "[0d10 - 0d5]" [
            .node .expression "0d10 - 0d5" [
              .node .expression_section "0d10" [
                .node .variable_node "0d10" [.node .number "0d10" []]],
              .node .expression_section "- 0d5" [
                .node .arithmetic "-" [],
                .node .variable_node "0d5" [.node .number "0d5" []]]]]]]]]

/-- The parse tree of `x : 0d10 - [0d10 - 0d5];`. -/
def bracketTree : STree :=
  .node .source_file "x : 0d10 - [0d10 - 0d5];" [
    .node .statement_chain "x : 0d10 - [0d10 - 0d5];" [bracketStatementNode]]

/-- The parse tree of `x : [];` — a prioritised expression with no inner
expression. -/
def emptyPrioritizeTree : STree :=
  .node .source_file "x : [];" [
    .node .statement_chain "x : [];" [
      .node .statement "x : [];" [
        .node .definition "x :" [
          .node .identifier_chain "x" [.node .identifier "x" []],
          .node .definition_operation ":" []],
        .node .expression "[]" [
          .node .expression_section "[]" [
            .node .variable_node "[]" [
              .node .prioritize "[]" []]]]]]]

/-- A tree whose expression node carries no `expression_section` children —
the shape validation rejects but `flatten_tree` can be handed directly. -/
def sectionlessTree : STree :=
  .node .source_file "" [
    .node .statement_chain "" [
      .node .statement "" [
        .node .expression "" []]]]

/-! ## The validator (`src/validate.rs`)

Token-level checks work on the token's character list (`String.data`); Rust
byte lengths and byte slices agree with character counts on these
ASCII-prefixed tokens.  The source validators return
`Result<(), ValidationError>` and `validate_tree` wraps the error into
`Error::ValidationError`; the embedding wraps at every level so the fuel
artifact `Error.outOfFuel` has somewhere to live. -/

/-- Rust `char::is_ascii_hexdigit`. -/
def is_ascii_hexdigit (c : Char) : Bool :=
  c.isDigit || ('a' ≤ c && c ≤ 'f') || ('A' ≤ c && c ≤ 'F')

/-- Model of `validate_binary_number` (validate.rs:259). -/
def validate_binary_number (number : List Char) : Except Error Unit :=
  if number.length ≤ 2 then
    .error (.ValidationError (.InvalidNumberFormat number.asString))
  else
    let digits := number.drop 2
    if digits.isEmpty || !(digits.all fun c => c == '0' || c == '1') then
      .error (.ValidationError (.InvalidNumberFormat number.asString))
    else .ok ()

/-- Model of `validate_octal_number` (validate.rs:272). -/
def validate_octal_number (number : List Char) : Except Error Unit :=
  if number.length ≤ 2 then
    .error (.ValidationError (.InvalidNumberFormat number.asString))
  else
    let digits := number.drop 2
    if digits.isEmpty || !(digits.all fun c => c.isDigit && c ≤ '7') then
      .error (.ValidationError (.InvalidNumberFormat number.asString))
    else .ok ()

/-- Model of `validate_decimal_number` (validate.rs:285). -/
def validate_decimal_number (number : List Char) : Except Error Unit :=
  if number.length ≤ 2 then
    .error (.ValidationError (.InvalidNumberFormat number.asString))
  else
    let digits := number.drop 2
    if digits.isEmpty || !(digits.all Char.isDigit) then
      .error (.ValidationError (.InvalidNumberFormat number.asString))
    else .ok ()

/-- Model of `validate_hex_number` (validate.rs:298). -/
def validate_hex_number (number : List Char) : Except Error Unit :=
  if number.length ≤ 2 then
    .error (.ValidationError (.InvalidNumberFormat number.asString))
  else
    let digits := number.drop 2
    if digits.isEmpty || !(digits.all is_ascii_hexdigit) then
      .error (.ValidationError (.InvalidNumberFormat number.asString))
    else .ok ()

/-- Model of `validate_number_format` (validate.rs:233): the bare token `0` is always
valid; recognised radix prefixes dispatch to their digit validators; any
other token starting with `0` is rejected; every remaining token falls
through to `Ok`. -/
def validate_number_format (number_text : List Char) : Except Error Unit :=
  if number_text = ['0'] then .ok ()
  else if starts_withL number_text ['0', 'b'] || starts_withL number_text ['0', 'B'] then
    validate_binary_number number_text
  else if starts_withL number_text ['0', 'o'] || starts_withL number_text ['0', 'O'] then
    validate_octal_number number_text
  else if starts_withL number_text ['0', 'd'] || starts_withL number_text ['0', 'D'] then
    validate_decimal_number number_text
  else if starts_withL number_text ['0', 'x'] || starts_withL number_text ['0', 'X'] then
    validate_hex_number number_text
  else if starts_withL number_text ['0'] && number_text.length > 1 then
    .error (.ValidationError (.InvalidNumberFormat number_text.asString))
  else .ok ()

/-- Model of `validate_arithmetic_operator` (validate.rs:201). -/
def validate_arithmetic_operator (op : String) : Except Error Unit :=
  if op = "+" || op = "-" || op = "*" || op = "/" || op = "%" then .ok ()
  else .error (.ValidationError .IncompleteOperatorSequence)

/-- Model of `validate_string` (validate.rs:311). -/
def validate_string (text : String) : Except Error Unit :=
  if !(starts_withL text.data ['"']) || !(ends_withL text.data ['"']) then
    .error (.ValidationError (.MalformedFunctionCall ("Invalid string format: " ++ text)))
  else .ok ()

/-- Model of `validate_identifier_as_number` (validate.rs:423): identifiers that look
like radix-prefixed numbers, or start with `0` and a letter other than `b`,
`o`, `x`, are rejected. -/
def validate_identifier_as_number (identifier : List Char) : Except Error Unit :=
  if starts_withL identifier ['0', 'x'] || starts_withL identifier ['0', 'X'] then
    .error (.ValidationError (.InvalidNumberFormat identifier.asString))
  else if starts_withL identifier ['0', 'b'] || starts_withL identifier ['0', 'B'] then
    .error (.ValidationError (.InvalidNumberFormat identifier.asString))
  else if starts_withL identifier ['0', 'o'] || starts_withL identifier ['0', 'O'] then
    .error (.ValidationError (.InvalidNumberFormat identifier.asString))
  else if starts_withL identifier ['0', 'd'] || starts_withL identifier ['0', 'D'] then
    .error (.ValidationError (.InvalidNumberFormat identifier.asString))
  else
    match identifier with
    | '0' :: second :: _ =>
      if second.isAlpha && !(second.toLower == 'b' || second.toLower == 'o' ||
          second.toLower == 'x') then
        .error (.ValidationError (.InvalidNumberFormat identifier.asString))
      else .ok ()
    | _ => .ok ()

/-- The knot of the validator's recursion: every cycle of `src/validate.rs`
passes through `validate_expression`. -/
structure ValidateFns where
  validate_expression : STree → Except Error Unit

/-- The expression-argument loop of `validate_function_call`
(validate.rs:413). -/
def vcall_args_loopF (ve : STree → Except Error Unit) :
    List STree → Except Error Unit
  | [] => .ok ()
  | c :: rest =>
    if c.kind = .expression then
      match ve c with
      | .error e => .error e
      | .ok () => vcall_args_loopF ve rest
    else vcall_args_loopF ve rest

/-- Model of `validate_function_call` (validate.rs:398). -/
def validate_function_callF (ve : STree → Except Error Unit) (node : STree) :
    Except Error Unit :=
  let call_text := node.text
  if contains_char call_text '(' && !(contains_char call_text ')') then
    .error (.ValidationError (.MalformedFunctionCall call_text))
  else vcall_args_loopF ve node.children

/-- The call-child loop of `validate_identifier` (validate.rs:389). -/
def videntifier_calls_loopF (ve : STree → Except Error Unit) :
    List STree → Except Error Unit
  | [] => .ok ()
  | c :: rest =>
    if c.kind = .call then
      match validate_function_callF ve c with
      | .error e => .error e
      | .ok () => videntifier_calls_loopF ve rest
    else videntifier_calls_loopF ve rest

/-- Model of `validate_identifier` (validate.rs:378). -/
def validate_identifierF (ve : STree → Except Error Unit) (node : STree) :
    Except Error Unit :=
  match validate_identifier_as_number node.text.data with
  | .error e => .error e
  | .ok () => videntifier_calls_loopF ve node.children

/-- The identifier-child loop of `validate_identifier_chain`
(validate.rs:369). -/
def vchain_loopF (ve : STree → Except Error Unit) : List STree → Except Error Unit
  | [] => .ok ()
  | c :: rest =>
    if c.kind = .identifier then
      match validate_identifierF ve c with
      | .error e => .error e
      | .ok () => vchain_loopF ve rest
    else vchain_loopF ve rest

/-- Model of `validate_identifier_chain` (validate.rs:347). -/
def validate_identifier_chainF (ve : STree → Except Error Unit) (node : STree) :
    Except Error Unit :=
  let chain_text := node.text
  if ends_withL chain_text.data ['.'] then
    .error (.ValidationError (.InvalidIdentifierChain chain_text))
  else if starts_withL chain_text.data ['.'] then
    .error (.ValidationError (.InvalidIdentifierChain chain_text))
  else vchain_loopF ve node.children

/-- The expression-child loop of `validate_prioritize` (validate.rs:332):
tracks whether any inner expression was seen. -/
def vprioritize_loopF (ve : STree → Except Error Unit) :
    List STree → Bool → Except Error Bool
  | [], has => .ok has
  | c :: rest, has =>
    if c.kind = .expression then
      match ve c with
      | .error e => .error e
      | .ok () => vprioritize_loopF ve rest true
    else vprioritize_loopF ve rest has

/-- Model of `validate_prioritize` (validate.rs:325): empty brackets are
`EmptyExpression`. -/
def validate_prioritizeF (ve : STree → Except Error Unit) (node : STree) :
    Except Error Unit :=
  match vprioritize_loopF ve node.children false with
  | .error e => .error e
  | .ok true => .ok ()
  | .ok false => .error (.ValidationError .EmptyExpression)

/-- The child loop of `validate_variable` (validate.rs:213). -/
def vvariable_loopF (ve : STree → Except Error Unit) : List STree → Except Error Unit
  | [] => .ok ()
  | c :: rest =>
    if c.kind = .number then
      match validate_number_format c.text.data with
      | .error e => .error e
      | .ok () => vvariable_loopF ve rest
    else if c.kind = .identifier_chain then
      match validate_identifier_chainF ve c with
      | .error e => .error e
      | .ok () => vvariable_loopF ve rest
    else if c.kind = .string then
      match validate_string c.text with
      | .error e => .error e
      | .ok () => vvariable_loopF ve rest
    else if c.kind = .prioritize then
      match validate_prioritizeF ve c with
      | .error e => .error e
      | .ok () => vvariable_loopF ve rest
    else vvariable_loopF ve rest

/-- Model of `validate_variable` (validate.rs:208). -/
def validate_variableF (ve : STree → Except Error Unit) (node : STree) :
    Except Error Unit :=
  vvariable_loopF ve node.children

/-- The child loop of `validate_expression_section` (validate.rs:176):
counts operators and records whether an operand was seen. -/
def vsection_loopF (ve : STree → Except Error Unit) :
    List STree → Nat → Bool → Except Error (Nat × Bool)
  | [], opCount, has => .ok (opCount, has)
  | c :: rest, opCount, has =>
    if c.kind = .arithmetic then
      match validate_arithmetic_operator c.text with
      | .error e => .error e
      | .ok () => vsection_loopF ve rest (opCount + 1) has
    else if c.kind = .variable_node then
      match validate_variableF ve c with
      | .error e => .error e
      | .ok () => vsection_loopF ve rest opCount true
    else vsection_loopF ve rest opCount has

/-- Model of `validate_expression_section` (validate.rs:168): operators without any
operand are an incomplete operator sequence. -/
def validate_expression_sectionF (ve : STree → Except Error Unit) (node : STree) :
    Except Error Unit :=
  match vsection_loopF ve node.children 0 false with
  | .error e => .error e
  | .ok (opCount, has) =>
    if opCount > 0 && !has then
      .error (.ValidationError .IncompleteOperatorSequence)
    else .ok ()

/-- The section loop of `validate_expression` (validate.rs:154). -/
def vexpression_loopF (ve : STree → Except Error Unit) :
    List STree → Bool → Except Error Bool
  | [], has => .ok has
  | c :: rest, has =>
    if c.kind = .expression_section then
      match validate_expression_sectionF ve c with
      | .error e => .error e
      | .ok () => vexpression_loopF ve rest true
    else vexpression_loopF ve rest has

/-- Model of `validate_expression` (validate.rs:147): an expression with no section is
empty. -/
def validate_expressionF (ve : STree → Except Error Unit) (node : STree) :
    Except Error Unit :=
  match vexpression_loopF ve node.children false with
  | .error e => .error e
  | .ok true => .ok ()
  | .ok false => .error (.ValidationError .EmptyExpression)

/-- One recursion layer of the validator. -/
def vstep (prev : ValidateFns) : ValidateFns where
  validate_expression := fun node => validate_expressionF prev.validate_expression node

/-- The validator family at a given recursion depth. -/
def vFns : Nat → ValidateFns
  | 0 => { validate_expression := fun _ => .error .outOfFuel }
  | n + 1 => vstep (vFns n)

/-- Model of `validate_expression` at a given fuel. -/
def validate_expression (fuel : Nat) : STree → Except Error Unit :=
  (vFns fuel).validate_expression

/-- The child loop of `validate_definition` (validate.rs:125): tracks the
presence of a name and an operation. -/
def vdefinition_loopF (ve : STree → Except Error Unit) :
    List STree → Bool → Bool → Except Error (Bool × Bool)
  | [], hasName, hasOp => .ok (hasName, hasOp)
  | c :: rest, hasName, hasOp =>
    if c.kind = .identifier_chain then
      match validate_identifier_chainF ve c with
      | .error e => .error e
      | .ok () => vdefinition_loopF ve rest true hasOp
    else if c.kind = .definition_operation then
      vdefinition_loopF ve rest hasName true
    else vdefinition_loopF ve rest hasName hasOp

/-- Model of `validate_definition` (validate.rs:117). -/
def validate_definitionF (ve : STree → Except Error Unit) (node : STree) :
    Except Error Unit :=
  match vdefinition_loopF ve node.children false false with
  | .error e => .error e
  | .ok (hasName, hasOp) =>
    if !hasName || !hasOp then
      .error (.ValidationError
        (.MalformedFunctionCall "Definition missing name or operation"))
    else .ok ()

/-- The child loop of `validate_statement` (validate.rs:96). -/
def vstatement_loopF (ve : STree → Except Error Unit) :
    List STree → Bool → Except Error Bool
  | [], has => .ok has
  | c :: rest, has =>
    if c.kind = .definition then
      match validate_definitionF ve c with
      | .error e => .error e
      | .ok () => vstatement_loopF ve rest has
    else if c.kind = .expression then
      match ve c with
      | .error e => .error e
      | .ok () => vstatement_loopF ve rest true
    else vstatement_loopF ve rest has

/-- Model of `validate_statement` (validate.rs:89): a statement without an expression
is an empty expression. -/
def validate_statement (fuel : Nat) (node : STree) : Except Error Unit :=
  match vstatement_loopF (validate_expression fuel) node.children false with
  | .error e => .error e
  | .ok true => .ok ()
  | .ok false => .error (.ValidationError .EmptyExpression)

/-- The child loop of `validate_statement_chain` (validate.rs:81). -/
def vchainstmt_loopF (vs : STree → Except Error Unit) : List STree → Except Error Unit
  | [] => .ok ()
  | c :: rest =>
    if c.kind = .statement then
      match vs c with
      | .error e => .error e
      | .ok () => vchainstmt_loopF vs rest
    else vchainstmt_loopF vs rest

/-- Model of `validate_statement_chain` (validate.rs:76). -/
def validate_statement_chain (fuel : Nat) (node : STree) : Except Error Unit :=
  vchainstmt_loopF (validate_statement fuel) node.children

/-- The child loop of `validate_node` (validate.rs:64): `statement_chain`
children are validated, a `source` child is unsupported. -/
def vnode_loopF (vsc : STree → Except Error Unit) : List STree → Except Error Unit
  | [] => .ok ()
  | c :: rest =>
    if c.kind = .statement_chain then
      match vsc c with
      | .error e => .error e
      | .ok () => vnode_loopF vsc rest
    else if c.kind = .source then
      .error (.ValidationError .UnsupportedSourceBlock)
    else vnode_loopF vsc rest

/-- Model of `validate_node` (validate.rs:53): a `source` root is unsupported, a
`source_file` root is walked, anything else passes. -/
def validate_node (fuel : Nat) (node : STree) : Except Error Unit :=
  if node.kind = .source then
    .error (.ValidationError .UnsupportedSourceBlock)
  else if node.kind = .source_file then
    vnode_loopF (validate_statement_chain fuel) node.children
  else .ok ()

/-- Model of `validate_tree` (validate.rs:48). -/
def validate_tree (fuel : Nat) (tree : STree) : Except Error Unit :=
  validate_node fuel tree

/-- Model of `process_tree` (lib.rs:30): validate first, then flatten. -/
def process_tree (fuel : Nat) (tree : STree) : Except Error FlatRoot :=
  match validate_tree fuel tree with
  | .error e => .error e
  | .ok () => flatten_tree fuel tree

/-! ## Number decoding (`src/jit.rs`)

`parse_number` receives the grammar-classified token (`ASTNumber` in
`src/virtual_machine.rs`), drops the two prefix characters and decodes the
rest with `i64::from_str_radix` (the `Decimal` arm uses `str::parse::<i64>`,
which is base-10 `from_str_radix`).  `from_str_radix` is modelled faithfully:
optional sign, per-character `char::to_digit`, and checked 64-bit signed
arithmetic. -/

/-- Model of `ASTNumber` from `src/virtual_machine.rs`; tokens are carried as
character lists. -/
inductive ASTNumber where
  | Zero
  | Binary (s : List Char)
  | Octal (s : List Char)
  | Decimal (s : List Char)
  | Hex (s : List Char)
deriving DecidableEq, Repr

/-- Model of `char::to_digit`: `0`-`9`, then letters case-insensitively, provided the
value is below the radix. -/
def to_digit (radix : Nat) (c : Char) : Option Nat :=
  let v :=
    if c.isDigit then some (c.toNat - '0'.toNat)
    else if 'a' ≤ c && c ≤ 'z' then some (c.toNat - 'a'.toNat + 10)
    else if 'A' ≤ c && c ≤ 'Z' then some (c.toNat - 'A'.toNat + 10)
    else none
  match v with
  | some d => if d < radix then some d else none
  | none => none

/-- The largest `i64`. -/
def i64_max : Nat := 2 ^ 63 - 1

/-- The magnitude of the smallest `i64`. -/
def i64_min_abs : Nat := 2 ^ 63

/-- The digit fold of `i64::from_str_radix` on a non-negative result:
checked multiply-and-add against `i64::MAX`. -/
def from_str_radix_digits_pos (radix : Nat) (acc : Nat) : List Char → Option Nat
  | [] => some acc
  | c :: cs =>
    match to_digit radix c with
    | none => none
    | some d =>
      let acc1 := acc * radix + d
      if acc1 ≤ i64_max then from_str_radix_digits_pos radix acc1 cs else none

/-- The digit fold of `i64::from_str_radix` on a negative result, tracked by
magnitude: checked multiply-and-subtract against `i64::MIN`. -/
def from_str_radix_digits_neg (radix : Nat) (acc : Nat) : List Char → Option Nat
  | [] => some acc
  | c :: cs =>
    match to_digit radix c with
    | none => none
    | some d =>
      let acc1 := acc * radix + d
      if acc1 ≤ i64_min_abs then from_str_radix_digits_neg radix acc1 cs else none

/-- Model of `i64::from_str_radix`: empty input and sign-only input fail; one leading
`+`/`-` is allowed; every other character must be a digit of the radix; the
value must fit in an `i64`. -/
def from_str_radix (radix : Nat) (s : List Char) : Option Int :=
  match s with
  | [] => none
  | c :: rest =>
    if c = '+' then
      if rest.isEmpty then none
      else (from_str_radix_digits_pos radix 0 rest).map Int.ofNat
    else if c = '-' then
      if rest.isEmpty then none
      else (from_str_radix_digits_neg radix 0 rest).map (fun m => -(Int.ofNat m))
    else (from_str_radix_digits_pos radix 0 (c :: rest)).map Int.ofNat

/-- Model of `parse_number` (jit.rs:392): `Zero` is `0`; the other variants drop their
two prefix characters and decode in the variant's radix; the error carries
the variant's message (the inner parse-error display is omitted). -/
def parse_number : ASTNumber → Except String Int
  | .Zero => .ok 0
  | .Binary s =>
    match from_str_radix 2 (s.drop 2) with
    | some v => .ok v
    | none => .error "Invalid binary number"
  | .Octal s =>
    match from_str_radix 8 (s.drop 2) with
    | some v => .ok v
    | none => .error "Invalid octal number"
  | .Decimal s =>
    match from_str_radix 10 (s.drop 2) with
    | some v => .ok v
    | none => .error "Invalid decimal number"
  | .Hex s =>
    match from_str_radix 16 (s.drop 2) with
    | some v => .ok v
    | none => .error "Invalid hex number"

/-- The integer value of a digit string in a radix (the reference value the
claims speak about). -/
def digitsVal (radix : Nat) (ds : List Char) : Nat :=
  ds.foldl (fun a c => a * radix + ((to_digit radix c).getD 0)) 0

/-! ## Executor setup (`src/execute.rs`)

`execute_bytecode` performs raw-memory work; the embedding threads the
abstract base addresses chosen by the two memory maps and the host string,
and records every value the source computes before transferring control.
The machine-code transfer itself is outside the embedding.  The `Bytecode`
struct is not part of `src/`; its `code` and `main` fields are taken from
their uses in `execute.rs`, the remaining offsets from the spec. -/

/-- Modelled from the spec: `Bytecode` (not under `src/`) — a contiguous
byte vector plus the labelled offsets `main`, `registers_swap`,
`registers_exit`; `execute.rs` reads `code` and `main`. -/
structure Bytecode where
  code : List Nat
  main : Nat
  registers_swap : Nat
  registers_exit : Nat
deriving DecidableEq, Repr

/-- Model of `Coroutine` (execute.rs:8): eight machine words. -/
structure Coroutine where
  registers : List Nat
deriving DecidableEq, Repr

/-- Model of `InterfaceType` (execute.rs:32). -/
inductive InterfaceType where
  | Void
  | Number
deriving DecidableEq, Repr

/-- Model of `Interface` (execute.rs:25). -/
structure Interface where
  interface_type : InterfaceType
  interface_data : Nat
deriving DecidableEq, Repr

/-- Model of `Main` (execute.rs:13): the host frame — buffer pointer and length,
then the result slot. -/
structure MainFrame where
  vector_pointer : Nat
  vector_length : Nat
  result : Interface
deriving DecidableEq, Repr

/-- Everything `execute_bytecode` (execute.rs:37) sets up before invoking
the generated code. -/
structure ExecuteSetup where
  executable_len : Nat
  executable_bytes : List Nat
  stack_size : Nat
  stack_word_addr : Nat
  stack_word_value : Nat
  old : Coroutine
  new : Coroutine
  entry_addr : Nat
  main_frame : MainFrame
deriving DecidableEq, Repr

/-- The host buffer written by the current entry point. -/
def helloText : String := "Hello world!\n"

/-- The setup steps of `execute_bytecode` (execute.rs:37-85), with the map
base addresses and the host string address abstract: allocate and fill the
executable map; allocate the 64 KiB stack map; write the absolute address of
`main` eight bytes below the stack's end; build the zeroed `old` coroutine
and the `new` coroutine whose slot 7 (`RSP`) holds that word's address;
build the host frame; control enters at the executable map's first byte. -/
def execute_setup (bytecode : Bytecode) (exec_base stack_base hello_ptr : Nat) :
    ExecuteSetup :=
  let stack_map_size := 64 * 1024
  let stack_end := stack_map_size - 8
  let stack_ptr := stack_base + stack_end
  { executable_len := bytecode.code.length
    executable_bytes := bytecode.code
    stack_size := stack_map_size
    stack_word_addr := stack_ptr
    stack_word_value := exec_base + bytecode.main
    old := { registers := List.replicate 8 0 }
    new := { registers := [0, 0, 0, 0, 0, 0, 0, stack_ptr] }
    entry_addr := exec_base
    main_frame :=
      { vector_pointer := hello_ptr
        vector_length := helloText.length
        result := { interface_type := .Void, interface_data := 0 } } }

/-! ## Spec-side predicates

These definitions are written from the specification's words, not from the
source; they exist to be compared with the source-derived definitions
above. -/

/-- Modelled from the spec (§4.3/§7 of `spec.md`): a radix-prefixed number
token — `0b`/`0o`/`0d`/`0x` with a case-insensitive prefix letter and a
non-empty digit part valid for that radix. -/
def spec_radix_token_valid (l : List Char) : Bool :=
  match l with
  | c0 :: p :: digits =>
    c0 == '0' && !digits.isEmpty &&
      ((p == 'b' || p == 'B') && digits.all (fun c => c == '0' || c == '1') ||
       (p == 'o' || p == 'O') && digits.all (fun c => c.isDigit && c ≤ '7') ||
       (p == 'd' || p == 'D') && digits.all Char.isDigit ||
       (p == 'x' || p == 'X') && digits.all is_ascii_hexdigit)
  | _ => false

/-! ## Shape predicates over emitted statements -/

/-- A compiler-generated temporary: a `Constant` definition together with an
expression — the exact shape of every statement `src/flatten.rs` pushes on
behalf of a subexpression. -/
def isTempStmt : FlatStatement → Bool
  | { definition := some { name := _, operation := .Constant }, expression := some _ } => true
  | _ => false

/-- Every processor of a `FlattenFns` family emits only compiler-generated
temporaries. -/
def FnsEmitTemps (F : FlattenFns) : Prop :=
  (∀ n b c f x c2 em, F.process_expression_section n b c f = .ok (x, c2, em) →
    em.all isTempStmt = true) ∧
  (∀ n b c f x c2 em, F.process_variable n b c f = .ok (x, c2, em) →
    em.all isTempStmt = true) ∧
  (∀ n b c f x c2 em, F.process_identifier_chain n b c f = .ok (x, c2, em) →
    em.all isTempStmt = true) ∧
  (∀ n b c f x c2 em, F.process_identifier_part_with_calls n b c f = .ok (x, c2, em) →
    em.all isTempStmt = true) ∧
  (∀ n b c f x c2 em, F.process_call_with_arguments n b c f = .ok (x, c2, em) →
    em.all isTempStmt = true) ∧
  (∀ n b c x c2 em, F.process_call_node n b c = .ok (x, c2, em) →
    em.all isTempStmt = true) ∧
  (∀ n b c x c2 em, F.process_call_argument n b c = .ok (x, c2, em) →
    em.all isTempStmt = true)

/-! ## Expected flattening results of the concrete trees -/

/-- The flattening of `dupTree`: one statement whose expression stores the
token `0d2` twice, inline. -/
def dupRoot : FlatRoot :=
  { statement_chains := [
    { statements := [
      { definition := some { name := "y", operation := .Constant },
        expression := some
          { one := .Number "0d2", two := some (.Number "0d2"),
            arithmetic := some .Multiply } }] }] }

/-- The flattening of `unaryTree`: the unary minus becomes a binary whose
left operand is the synthetic literal `0`. -/
def unaryRoot : FlatRoot :=
  { statement_chains := [
    { statements := [
      { definition := none,
        expression := some
          { one := .Number "0", two := some (.Number "0d1"),
            arithmetic := some .Substract } }] }] }

/-- The compiler-generated temporary that `bracketTree`'s brackets become. -/
def x1TempStmt : FlatStatement :=
  { definition := some { name := "x_1", operation := .Constant },
    expression := some
      { one := .Number "0d10", two := some (.Number "0d5"),
        arithmetic := some .Substract } }

/-- The user statement of `bracketTree`, referencing the temporary. -/
def xMainStmt : FlatStatement :=
  { definition := some { name := "x", operation := .Constant },
    expression := some
      { one := .Number "0d10", two := some (.Identifier "x_1"),
        arithmetic := some .Substract } }

/-- The flattening of `bracketTree`: the bracket temporary precedes the user
statement in the same chain. -/
def bracketRoot : FlatRoot :=
  { statement_chains := [{ statements := [x1TempStmt, xMainStmt] }] }

/-! ## Reference and definition tokens for the dependency-ordering claim

A temporary's uses are plain name strings embedded in `FlatVariable`
payloads (`x_1`, `x_1.tail`, `x_1(a, b)`, `- x_1`, …).  The tokeniser below
recovers the candidate names of a payload as its maximal runs of identifier
characters, dropping runs that start with a digit: digit-initial strings
are classified as `Number` by `string_to_variable` and denote literals,
never references. -/

/-- Characters that can be part of a name. -/
def isNameChar (c : Char) : Bool := c.isAlphanum || c == '_'

/-- Close the current token run of the tokeniser. -/
def flushTok (acc : List Char) : List String :=
  match acc with
  | [] => []
  | _ => [acc.reverse.asString]

/-- Worker of the payload tokeniser: maximal runs of name characters. -/
def nameTokensGo : List Char → List Char → List String
  | [], acc => flushTok acc
  | c :: rest, acc =>
    if isNameChar c then nameTokensGo rest (c :: acc)
    else flushTok acc ++ nameTokensGo rest []

/-- The maximal name-character runs of a character list. -/
def nameTokens (l : List Char) : List String := nameTokensGo l []

/-- A token that can stand for a reference: one that does not start with a
digit (digit-initial tokens are number literals in the flat
representation). -/
def isRefTok (s : String) : Bool :=
  match s.data with
  | c :: _ => !c.isDigit
  | [] => false

/-- The candidate reference names of a payload string. -/
def refTokens (l : List Char) : List String := (nameTokensGo l []).filter isRefTok

/-- The candidate reference names of a list of operand strings. -/
def strTokens (ss : List String) : List String :=
  (ss.map (fun s => refTokens s.data)).flatten

/-- The candidate reference names of a `FlatVariable`, read off its string
rendering. -/
def varRefs (v : FlatVariable) : List String := refTokens (variable_to_string v).data

/-- The candidate reference names of a `FlatExpression`. -/
def exprRefs (e : FlatExpression) : List String :=
  varRefs e.one ++
    (match e.two with
     | some v => varRefs v
     | none => [])

/-- The candidate reference names of a statement's expression. -/
def stmtRefs (st : FlatStatement) : List String :=
  match st.expression with
  | some e => exprRefs e
  | none => []

/-- The name tokens a statement defines. -/
def stmtDefTokens (st : FlatStatement) : List String :=
  match st.definition with
  | some d => nameTokens d.name.data
  | none => []

/-- The name tokens defined by a statement list, in order. -/
def defTokens (em : List FlatStatement) : List String :=
  (em.map stmtDefTokens).flatten

/-- Backward-reference discipline of a statement list: every statement's
candidate references are either available beforehand (`A`) or defined by an
earlier statement of the list — never by a later one. -/
def ChainOk (A : String → Prop) : List FlatStatement → Prop
  | [] => True
  | st :: rest =>
      (∀ s ∈ stmtRefs st, A s) ∧
      ChainOk (fun s => A s ∨ s ∈ stmtDefTokens st) rest

/-- A name token occurring in some node text of a parse tree.  A referenced
name with `¬ TokenIn` cannot stem from the source: it was made up by the
flattener. -/
inductive TokenIn : String → STree → Prop where
  | here {s : String} {k : Kind} {t : String} {cs : List STree} :
      s ∈ refTokens t.data → TokenIn s (.node k t cs)
  | child {s : String} {c : STree} {k : Kind} {t : String} {cs : List STree} :
      c ∈ cs → TokenIn s c → TokenIn s (.node k t cs)

/-- The processor-family invariant behind the dependency-ordering claim:
emissions obey `ChainOk` over the processed node's source tokens, and the
returned piece references only source tokens or names the emitted
statements define. -/
def FnsRefsOk (F : FlattenFns) : Prop :=
  (∀ n b c f x c2 em, F.process_expression_section n b c f = .ok (x, c2, em) →
    ChainOk (TokenIn · n) em ∧ ∀ s ∈ exprRefs x, TokenIn s n ∨ s ∈ defTokens em) ∧
  (∀ n b c f x c2 em, F.process_variable n b c f = .ok (x, c2, em) →
    ChainOk (TokenIn · n) em ∧ ∀ s ∈ exprRefs x, TokenIn s n ∨ s ∈ defTokens em) ∧
  (∀ n b c f x c2 em, F.process_identifier_chain n b c f = .ok (x, c2, em) →
    ChainOk (TokenIn · n) em ∧ ∀ s ∈ exprRefs x, TokenIn s n ∨ s ∈ defTokens em) ∧
  (∀ n b c f x c2 em, F.process_identifier_part_with_calls n b c f = .ok (x, c2, em) →
    ChainOk (TokenIn · n) em ∧ ∀ s ∈ refTokens x.data, TokenIn s n ∨ s ∈ defTokens em) ∧
  (∀ n b c f x c2 em, F.process_call_with_arguments n b c f = .ok (x, c2, em) →
    ChainOk (TokenIn · n) em ∧ ∀ s ∈ refTokens x.data, TokenIn s n ∨ s ∈ defTokens em) ∧
  (∀ n b c x c2 em, F.process_call_node n b c = .ok (x, c2, em) →
    ChainOk (TokenIn · n) em ∧ ∀ s ∈ refTokens x.data, TokenIn s n ∨ s ∈ defTokens em) ∧
  (∀ n b c x c2 em, F.process_call_argument n b c = .ok (x, c2, em) →
    ChainOk (TokenIn · n) em ∧ ∀ s ∈ refTokens x.data, TokenIn s n ∨ s ∈ defTokens em)

/-! # Theorems -/

theorem mkTemp_isTemp (name : String) (e : FlatExpression) :
    isTempStmt (mkTemp name e) = true := rfl

/-! ## Tokeniser and `ChainOk` infrastructure -/

theorem nameTokensGo_append_sep {c : Char} (hc : isNameChar c = false) :
    ∀ (l1 acc l2 : List Char),
      nameTokensGo (l1 ++ c :: l2) acc = nameTokensGo l1 acc ++ nameTokensGo l2 [] := by
  intro l1
  induction l1 with
  | nil =>
    intro acc l2
    simp [nameTokensGo, hc]
  | cons a l1 ih =>
    intro acc l2
    simp only [List.cons_append, nameTokensGo]
    by_cases ha : isNameChar a
    · simp [ha, ih]
    · simp [ha, ih, List.append_assoc]

theorem refTokens_append_sep {c : Char} (hc : isNameChar c = false) (l1 l2 : List Char) :
    refTokens (l1 ++ c :: l2) = refTokens l1 ++ refTokens l2 := by
  simp [refTokens, nameTokensGo_append_sep hc, List.filter_append]

theorem refTokens_cons_sep {c : Char} (hc : isNameChar c = false) (l : List Char) :
    refTokens (c :: l) = refTokens l := by
  simpa using refTokens_append_sep hc [] l

theorem refTokens_append_end_sep {c : Char} (hc : isNameChar c = false) (l : List Char) :
    refTokens (l ++ [c]) = refTokens l := by
  have h := refTokens_append_sep hc l []
  simpa [show refTokens [] = [] from rfl] using h

theorem refTokens_seps_pre (m : List Char) (hall : ∀ c ∈ m, isNameChar c = false) :
    ∀ l : List Char, refTokens (m ++ l) = refTokens l := by
  induction m with
  | nil => intro l; rfl
  | cons c m ih =>
    intro l
    rw [List.cons_append, refTokens_cons_sep (hall c (by simp)),
      ih (fun d hd => hall d (by simp [hd]))]

theorem refTokens_append_seps (m : List Char) (hm : m ≠ [])
    (hall : ∀ c ∈ m, isNameChar c = false) (l1 l2 : List Char) :
    refTokens (l1 ++ (m ++ l2)) = refTokens l1 ++ refTokens l2 := by
  match m with
  | [] => exact absurd rfl hm
  | c :: m =>
    rw [List.cons_append, refTokens_append_sep (hall c (by simp)),
      refTokens_seps_pre m (fun d hd => hall d (by simp [hd]))]

theorem refTokens_sub_nameTokens (l : List Char) : refTokens l ⊆ nameTokens l :=
  fun _ hs => List.mem_of_mem_filter hs

theorem defTokens_nil : defTokens [] = [] := rfl

theorem defTokens_cons (st : FlatStatement) (em : List FlatStatement) :
    defTokens (st :: em) = stmtDefTokens st ++ defTokens em := rfl

theorem defTokens_append (em1 em2 : List FlatStatement) :
    defTokens (em1 ++ em2) = defTokens em1 ++ defTokens em2 := by
  simp [defTokens]

theorem chainOk_nil (A : String → Prop) : ChainOk A [] := trivial

theorem chainOk_mono : ∀ (em : List FlatStatement) (A B : String → Prop),
    (∀ s, A s → B s) → ChainOk A em → ChainOk B em := by
  intro em
  induction em with
  | nil => intro A B _ _; trivial
  | cons st rest ih =>
    intro A B hAB h
    obtain ⟨h1, h2⟩ := h
    exact ⟨fun s hs => hAB s (h1 s hs),
      ih _ _ (fun s hs => hs.elim (fun hx => Or.inl (hAB s hx)) Or.inr) h2⟩

theorem chainOk_append : ∀ (em1 em2 : List FlatStatement) (A : String → Prop),
    ChainOk A em1 → ChainOk (fun s => A s ∨ s ∈ defTokens em1) em2 →
    ChainOk A (em1 ++ em2) := by
  intro em1
  induction em1 with
  | nil =>
    intro em2 A _ h2
    simpa using chainOk_mono em2 _ A
      (fun s hs => hs.elim id (fun hx => absurd hx (by simp [defTokens]))) h2
  | cons st rest ih =>
    intro em2 A h1 h2
    obtain ⟨ha, hb⟩ := h1
    refine ⟨ha, ih em2 _ hb (chainOk_mono em2 _ _ ?_ h2)⟩
    intro s hs
    rcases hs with hx | hx
    · exact Or.inl (Or.inl hx)
    · rw [defTokens_cons, List.mem_append] at hx
      rcases hx with hx | hx
      · exact Or.inl (Or.inr hx)
      · exact Or.inr hx

theorem chainOk_single (A : String → Prop) (st : FlatStatement)
    (h : ∀ s ∈ stmtRefs st, A s) : ChainOk A [st] := ⟨h, trivial⟩

theorem chainOk_get : ∀ (em : List FlatStatement) (A : String → Prop),
    ChainOk A em → ∀ i (hi : i < em.length), ∀ s ∈ stmtRefs (em.get ⟨i, hi⟩),
      A s ∨ s ∈ defTokens (em.take i) := by
  intro em
  induction em with
  | nil => intro A _ i hi; simp at hi
  | cons st rest ih =>
    intro A h i hi s hs
    obtain ⟨h1, h2⟩ := h
    cases i with
    | zero => exact Or.inl (h1 s hs)
    | succ j =>
      have hr := ih _ h2 j (by simpa using hi) s (by simpa using hs)
      rcases hr with (hx | hx) | hx
      · exact Or.inl hx
      · exact Or.inr (by
          simp only [List.take_succ_cons, defTokens_cons, List.mem_append]
          exact Or.inl hx)
      · exact Or.inr (by
          simp only [List.take_succ_cons, defTokens_cons, List.mem_append]
          exact Or.inr hx)

theorem tokenIn_text {s : String} (t : STree) (h : s ∈ refTokens t.text.data) :
    TokenIn s t := by
  cases t with
  | node k txt cs => exact .here h

theorem tokenIn_child {s : String} {c : STree} (t : STree) (hc : c ∈ t.children)
    (h : TokenIn s c) : TokenIn s t := by
  cases t with
  | node k txt cs => exact .child hc h

theorem getIdx_mem {α : Type} {l : List α} {i : Nat} {x : α}
    (h : getIdx l i = .ok x) : x ∈ l := by
  simp only [getIdx] at h
  split at h
  · rename_i y hy
    simp only [Except.ok.injEq] at h
    subst h
    exact List.get?_mem hy
  · exact Except.noConfusion h

theorem optUnwrap_eq_some {α : Type} {o : Option α} {x : α}
    (h : optUnwrap o = .ok x) : o = some x := by
  cases o <;> simp_all [optUnwrap]

theorem strTokens_mem {x : String} {l : List String} (hx : x ∈ l) :
    ∀ s ∈ refTokens x.data, s ∈ strTokens l := by
  intro s hs
  simp only [strTokens, List.mem_flatten, List.mem_map]
  exact ⟨refTokens x.data, ⟨x, hx, rfl⟩, hs⟩

theorem strTokens_append (l1 l2 : List String) :
    strTokens (l1 ++ l2) = strTokens l1 ++ strTokens l2 := by
  simp [strTokens]

theorem strTokens_mem_sub {l : List String} {s : String}
    (h : s ∈ strTokens l) : ∃ x ∈ l, s ∈ refTokens x.data := by
  simp only [strTokens, List.mem_flatten, List.mem_map] at h
  obtain ⟨_, ⟨x, hx, rfl⟩, hs⟩ := h
  exact ⟨x, hx, hs⟩

theorem strTokens_set_eraseIdx {l : List String} {i j : Nat} {a s : String}
    (h : s ∈ strTokens ((l.set i a).eraseIdx j)) :
    s ∈ strTokens l ∨ s ∈ refTokens a.data := by
  obtain ⟨x, hx, hs⟩ := strTokens_mem_sub h
  have hx1 : x ∈ l.set i a := List.mem_of_mem_eraseIdx hx
  rcases List.mem_or_eq_of_mem_set hx1 with h1 | h1
  · exact Or.inl (strTokens_mem h1 s hs)
  · subst h1
    exact Or.inr hs

theorem varRefs_string_to_variable (s : String) :
    varRefs (string_to_variable s) = refTokens s.data := by
  unfold string_to_variable
  repeat' split
  all_goals rfl

theorem varRefs_identifier (s : String) : varRefs (.Identifier s) = refTokens s.data := rfl

theorem varRefs_zero : varRefs (.Number "0") = [] := by decide

theorem refTokens_arith (a : FlatArithmetic) :
    refTokens (arithmetic_to_string a).data = [] := by
  cases a <;> decide

theorem exprRefs_create_variable (v : FlatVariable) :
    exprRefs (create_variable_expression v) = varRefs v := by
  simp [exprRefs, create_variable_expression]

theorem exprRefs_create_binary (l : FlatVariable) (op : FlatArithmetic) (r : FlatVariable) :
    exprRefs (create_binary_expression l op r) = varRefs l ++ varRefs r := rfl

theorem stmtRefs_mkTemp (name : String) (e : FlatExpression) :
    stmtRefs (mkTemp name e) = exprRefs e := rfl

theorem stmtDefTokens_mkTemp (name : String) (e : FlatExpression) :
    stmtDefTokens (mkTemp name e) = nameTokens name.data := rfl

theorem space_not_name : isNameChar ' ' = false := by decide

theorem refTokens_ets_simple (e : FlatExpression) :
    ∀ s ∈ refTokens (expression_to_string_simple e).data, s ∈ exprRefs e := by
  intro s hs
  unfold expression_to_string_simple at hs
  split at hs
  · rename_i right op h1 h2
    have hdata : (variable_to_string e.one ++ " " ++ arithmetic_to_string op ++ " " ++
        variable_to_string right).data
        = (variable_to_string e.one).data ++ ' ' ::
          ((arithmetic_to_string op).data ++ ' ' :: (variable_to_string right).data) := by
      simp [String.data_append, show (" " : String).data = [' '] from rfl]
    rw [hdata, refTokens_append_sep space_not_name] at hs
    rw [show ((arithmetic_to_string op).data ++ ' ' :: (variable_to_string right).data)
        = (arithmetic_to_string op).data ++ ([' '] ++ (variable_to_string right).data)
        from rfl] at hs
    rw [refTokens_append_seps [' '] (by simp)
        (fun c hc => by simp at hc; subst hc; exact space_not_name),
      refTokens_arith] at hs
    simp only [List.nil_append, List.mem_append] at hs
    simp only [exprRefs, h1, List.mem_append]
    exact hs
  · simp only [exprRefs, List.mem_append]
    exact Or.inl hs

theorem refTokens_ets (e : FlatExpression) :
    ∀ s ∈ refTokens (expression_to_string e).data, s ∈ exprRefs e :=
  refTokens_ets_simple e

theorem break_at_space_eq : ∀ (l pre post : List Char),
    break_at_space l = (pre, some post) → l = pre ++ ' ' :: post := by
  intro l
  induction l with
  | nil =>
    intro pre post h
    simp [break_at_space] at h
  | cons c cs ih =>
    intro pre post h
    simp only [break_at_space] at h
    split at h
    · rename_i hc
      simp only [Prod.mk.injEq] at h
      obtain ⟨rfl, hp⟩ := h
      simp only [Option.some.injEq] at hp
      subst hp
      simp [hc]
    · rename_i hc
      cases hb : break_at_space cs with
      | mk a b =>
        rw [hb] at h
        simp only [Prod.mk.injEq] at h
        obtain ⟨rfl, rfl⟩ := h
        rw [List.cons_append]
        rw [ih a post hb]

theorem splitn2_eq {s a b : String} (h : splitn2 s = [a, b]) :
    s.data = a.data ++ ' ' :: b.data := by
  unfold splitn2 at h
  split at h
  · simp at h
  · rename_i pre post hb
    simp only [List.cons.injEq, and_true] at h
    obtain ⟨rfl, rfl⟩ := h
    exact break_at_space_eq _ _ _ hb

theorem find_substr_pos_starts : ∀ (l pat : List Char) (p : Nat),
    find_substr_pos l pat = some p → starts_withL (l.drop p) pat = true := by
  intro l
  induction l with
  | nil =>
    intro pat p h
    simp only [find_substr_pos] at h
    split at h
    · rename_i hpat
      simp only [Option.some.injEq] at h
      subst h
      rw [List.isEmpty_iff] at hpat
      subst hpat
      rfl
    · exact Option.noConfusion h
  | cons c rest ih =>
    intro pat p h
    simp only [find_substr_pos] at h
    split at h
    · rename_i hst
      simp only [Option.some.injEq] at h
      subst h
      exact hst
    · cases hf : find_substr_pos rest pat with
      | none => rw [hf] at h; exact Option.noConfusion h
      | some q =>
        rw [hf] at h
        simp only [Option.map_some', Option.some.injEq] at h
        subst h
        exact ih pat q hf

theorem starts_withL_pair {l : List Char} {c1 c2 : Char}
    (h : starts_withL l [c1, c2] = true) : ∃ rest, l = c1 :: c2 :: rest := by
  match l with
  | [] => exact absurd h (by simp [starts_withL])
  | [x] => exact absurd h (by simp [starts_withL])
  | x :: y :: rest =>
    simp only [starts_withL, Bool.and_eq_true, beq_iff_eq, and_true] at h
    obtain ⟨h1, h2⟩ := h
    exact ⟨rest, by rw [h1, h2]⟩

theorem refTokens_intercalate_go (sep : String) (hm : sep.data ≠ [])
    (hall : ∀ c ∈ sep.data, isNameChar c = false) :
    ∀ (as : List String) (acc : String), ∀ s,
      s ∈ refTokens (String.intercalate.go acc sep as).data →
      s ∈ refTokens acc.data ∨ s ∈ strTokens as := by
  intro as
  induction as with
  | nil =>
    intro acc s hs
    exact Or.inl hs
  | cons a as ih =>
    intro acc s hs
    rw [String.intercalate.go] at hs
    rcases ih _ s hs with h | h
    · rw [show (acc ++ sep ++ a).data = acc.data ++ (sep.data ++ a.data) from by
        simp [String.data_append], refTokens_append_seps sep.data hm hall] at h
      rcases List.mem_append.mp h with h | h
      · exact Or.inl h
      · exact Or.inr (strTokens_mem (by simp) s h)
    · exact Or.inr (by
        rw [show (a :: as : List String) = [a] ++ as from rfl, strTokens_append]
        exact List.mem_append_right _ h)

theorem refTokens_intercalate (sep : String) (hm : sep.data ≠ [])
    (hall : ∀ c ∈ sep.data, isNameChar c = false) (l : List String) :
    ∀ s ∈ refTokens (String.intercalate sep l).data, s ∈ strTokens l := by
  intro s hs
  match l with
  | [] => exact absurd hs (by simp [String.intercalate, refTokens, nameTokensGo, flushTok])
  | a :: as =>
    rw [String.intercalate] at hs
    rcases refTokens_intercalate_go sep hm hall as a s hs with h | h
    · exact strTokens_mem (by simp) s h
    · rw [show (a :: as : List String) = [a] ++ as from rfl, strTokens_append]
      exact List.mem_append_right _ h

theorem dot_not_name : isNameChar '.' = false := by decide

theorem strTokens_nil : strTokens [] = [] := rfl

/-! ## Backward-reference invariants of the emitting helpers -/

theorem unary_temp_loop_refs :
    ∀ (ops : List String) (base current : String) (ctr : Nat)
      (A : String → Prop) (cur : String) (ctr1 : Nat) (em : List FlatStatement),
      (∀ s ∈ refTokens current.data, A s) →
      unary_temp_loop ops base ctr current = .ok (cur, ctr1, em) →
      ChainOk A em ∧ ∀ s ∈ refTokens cur.data, A s ∨ s ∈ defTokens em := by
  intro ops
  induction ops with
  | nil =>
    intro base current ctr A cur ctr1 em hcur h
    simp only [unary_temp_loop, Except.ok.injEq, Prod.mk.injEq] at h
    obtain ⟨rfl, -, rfl⟩ := h
    exact ⟨trivial, fun s hs => Or.inl (hcur s hs)⟩
  | cons op rest ih =>
    intro base current ctr A cur ctr1 em hcur h
    simp only [unary_temp_loop] at h
    split at h
    · rename_i a ha
      split at h
      · exact Except.noConfusion h
      · rename_i cur0 ctr0 em0 heq
        simp only [Except.ok.injEq, Prod.mk.injEq] at h
        obtain ⟨rfl, rfl, rfl⟩ := h
        have hrec := ih base (base ++ "_" ++ toString ctr) (ctr + 1)
          (fun s => A s ∨ s ∈ nameTokens (base ++ "_" ++ toString ctr).data)
          cur0 ctr0 em0
          (fun s hs => Or.inr (refTokens_sub_nameTokens _ hs))
          heq
        constructor
        · refine ⟨?_, ?_⟩
          · intro s hs
            rw [stmtRefs_mkTemp, exprRefs_create_binary, varRefs_zero,
              varRefs_string_to_variable] at hs
            exact hcur s (by simpa using hs)
          · exact chainOk_mono _ _ _
              (fun s hs => hs.imp id (fun hx => by rwa [stmtDefTokens_mkTemp])) hrec.1
        · intro s hs
          rcases hrec.2 s hs with (hx | hx) | hx
          · exact Or.inl hx
          · exact Or.inr (by
              rw [defTokens_cons, stmtDefTokens_mkTemp]
              exact List.mem_append_left _ hx)
          · exact Or.inr (by rw [defTokens_cons]; exact List.mem_append_right _ hx)
    · exact Except.noConfusion h

theorem refTokens_zero_str : refTokens ("0" : String).data = [] := by decide

theorem lparen_not_name : isNameChar '(' = false := by decide

theorem rparen_not_name : isNameChar ')' = false := by decide

theorem parts_to_ops_refs :
    ∀ (parts : List FlatExpression) (os ops : List String),
      parts_to_ops parts = (os, ops) →
      ∀ s ∈ strTokens os, ∃ p ∈ parts, s ∈ exprRefs p := by
  intro parts
  induction parts with
  | nil =>
    intro os ops h s hs
    simp only [parts_to_ops, Prod.mk.injEq] at h
    obtain ⟨rfl, -⟩ := h
    exact absurd hs (by simp [strTokens_nil])
  | cons part rest ih =>
    intro os ops h s hs
    simp only [parts_to_ops] at h
    cases hpr : parts_to_ops rest with
    | mk os0 ops0 =>
      rw [hpr] at h
      split at h
      · rename_i str hone
        split at h
        · rename_i a b hsplit
          simp only [Prod.mk.injEq] at h
          obtain ⟨rfl, -⟩ := h
          rw [show (b :: os0 : List String) = [b] ++ os0 from rfl, strTokens_append] at hs
          rcases List.mem_append.mp hs with hx | hx
          · refine ⟨part, by simp, ?_⟩
            have hb : s ∈ refTokens b.data := by simpa [strTokens] using hx
            have hstr : s ∈ refTokens str.data := by
              rw [splitn2_eq hsplit, refTokens_append_sep space_not_name]
              exact List.mem_append_right _ hb
            exact List.mem_append_left _ (by
              rw [show varRefs part.one = refTokens str.data from by rw [hone]; rfl]
              exact hstr)
          · obtain ⟨p, hp, hps⟩ := ih os0 ops0 hpr s hx
            exact ⟨p, by simp [hp], hps⟩
        · simp only [Prod.mk.injEq] at h
          obtain ⟨rfl, -⟩ := h
          obtain ⟨p, hp, hps⟩ := ih os0 ops0 hpr s hs
          exact ⟨p, by simp [hp], hps⟩
      · simp only [Prod.mk.injEq] at h
        obtain ⟨rfl, -⟩ := h
        obtain ⟨p, hp, hps⟩ := ih os0 ops0 hpr s hs
        exact ⟨p, by simp [hp], hps⟩

theorem first_part_ops_refs :
    ∀ (p : FlatExpression) (o1 k1 : List String),
      first_part_ops p = (o1, k1) →
      ∀ s ∈ strTokens o1, s ∈ exprRefs p := by
  intro p o1 k1 h s hs
  simp only [first_part_ops] at h
  split at h
  · rename_i str hone
    split at h
    · rename_i a b hsplit
      simp only [Prod.mk.injEq] at h
      obtain ⟨rfl, -⟩ := h
      rw [show (["0", b] : List String) = ["0"] ++ [b] from rfl, strTokens_append] at hs
      rcases List.mem_append.mp hs with hx | hx
      · have hz : s ∈ refTokens ['0'] := by simpa [strTokens] using hx
        rw [show refTokens ['0'] = ([] : List String) from by decide] at hz
        exact absurd hz (by simp)
      · have hb : s ∈ refTokens b.data := by simpa [strTokens] using hx
        have hstr : s ∈ refTokens str.data := by
          rw [splitn2_eq hsplit, refTokens_append_sep space_not_name]
          exact List.mem_append_right _ hb
        exact List.mem_append_left _ (by
          rw [show varRefs p.one = refTokens str.data from by rw [hone]; rfl]
          exact hstr)
    · simp only [Prod.mk.injEq] at h
      obtain ⟨rfl, -⟩ := h
      have : s ∈ refTokens (expression_to_string p).data := by simpa [strTokens] using hs
      exact refTokens_ets p s this
  · simp only [Prod.mk.injEq] at h
    obtain ⟨rfl, -⟩ := h
    have : s ∈ refTokens (expression_to_string p).data := by simpa [strTokens] using hs
    exact refTokens_ets p s this

theorem extract_high_go_refs :
    ∀ (n : Nat) (operands operators : List String) (base : String) (ctr : Nat)
      (A : String → Prop) (a b : List String) (c : Nat) (em : List FlatStatement),
      (∀ s ∈ strTokens operands, A s) →
      extract_high_go n operands operators base ctr = .ok (a, b, c, em) →
      ChainOk A em ∧ ∀ s ∈ strTokens a, A s ∨ s ∈ defTokens em := by
  intro n
  induction n with
  | zero =>
    intro operands operators base ctr A a b c em hop h
    simp only [extract_high_go, Except.ok.injEq, Prod.mk.injEq] at h
    obtain ⟨rfl, -, -, rfl⟩ := h
    exact ⟨trivial, fun s hs => Or.inl (hop s hs)⟩
  | succ n ih =>
    intro operands operators base ctr A a b c em hop h
    simp only [extract_high_go] at h
    split at h
    · simp only [Except.ok.injEq, Prod.mk.injEq] at h
      obtain ⟨rfl, -, -, rfl⟩ := h
      exact ⟨trivial, fun s hs => Or.inl (hop s hs)⟩
    · rename_i pos hpos
      split at h
      · split at h
        · exact Except.noConfusion h
        · rename_i left hleft
          split at h
          · exact Except.noConfusion h
          · rename_i operator hoperator
            split at h
            · exact Except.noConfusion h
            · rename_i right hright
              split at h
              · rename_i opa hopa
                split at h
                · exact Except.noConfusion h
                · rename_i a0 b0 c0 em0 heq
                  simp only [Except.ok.injEq, Prod.mk.injEq] at h
                  obtain ⟨rfl, rfl, rfl, rfl⟩ := h
                  have hrec := ih _ _ base (ctr + 1)
                    (fun s => A s ∨ s ∈ nameTokens (base ++ "_" ++ toString ctr).data)
                    a0 b0 c0 em0
                    (fun s hs => by
                      rcases strTokens_set_eraseIdx hs with hx | hx
                      · exact Or.inl (hop s hx)
                      · exact Or.inr (refTokens_sub_nameTokens _ hx))
                    heq
                  constructor
                  · refine ⟨?_, ?_⟩
                    · intro s hs
                      rw [stmtRefs_mkTemp, exprRefs_create_binary,
                        varRefs_string_to_variable, varRefs_string_to_variable] at hs
                      rcases List.mem_append.mp hs with hx | hx
                      · exact hop s (strTokens_mem (getIdx_mem hleft) s hx)
                      · exact hop s (strTokens_mem (getIdx_mem hright) s hx)
                    · exact chainOk_mono _ _ _
                        (fun s hs => hs.imp id (fun hx => by rwa [stmtDefTokens_mkTemp]))
                        hrec.1
                  · intro s hs
                    rcases hrec.2 s hs with (hx | hx) | hx
                    · exact Or.inl hx
                    · exact Or.inr (by
                        rw [defTokens_cons, stmtDefTokens_mkTemp]
                        exact List.mem_append_left _ hx)
                    · exact Or.inr (by
                        rw [defTokens_cons]
                        exact List.mem_append_right _ hx)
              · exact Except.noConfusion h
      · simp only [Except.ok.injEq, Prod.mk.injEq] at h
        obtain ⟨rfl, -, -, rfl⟩ := h
        exact ⟨trivial, fun s hs => Or.inl (hop s hs)⟩

theorem left_to_right_go_refs :
    ∀ (n : Nat) (operands operators : List String) (base : String) (ctr : Nat)
      (A : String → Prop) (a b : List String) (c : Nat) (em : List FlatStatement),
      (∀ s ∈ strTokens operands, A s) →
      left_to_right_go n operands operators base ctr = .ok (a, b, c, em) →
      ChainOk A em ∧ ∀ s ∈ strTokens a, A s ∨ s ∈ defTokens em := by
  intro n
  induction n with
  | zero =>
    intro operands operators base ctr A a b c em hop h
    simp only [left_to_right_go, Except.ok.injEq, Prod.mk.injEq] at h
    obtain ⟨rfl, -, -, rfl⟩ := h
    exact ⟨trivial, fun s hs => Or.inl (hop s hs)⟩
  | succ n ih =>
    intro operands operators base ctr A a b c em hop h
    simp only [left_to_right_go] at h
    split at h
    · split at h
      · exact Except.noConfusion h
      · rename_i left hleft
        split at h
        · exact Except.noConfusion h
        · rename_i operator hoperator
          split at h
          · exact Except.noConfusion h
          · rename_i right hright
            split at h
            · rename_i opa hopa
              split at h
              · exact Except.noConfusion h
              · rename_i a0 b0 c0 em0 heq
                simp only [Except.ok.injEq, Prod.mk.injEq] at h
                obtain ⟨rfl, rfl, rfl, rfl⟩ := h
                have hrec := ih _ _ base (ctr + 1)
                  (fun s => A s ∨ s ∈ nameTokens (base ++ "_" ++ toString ctr).data)
                  a0 b0 c0 em0
                  (fun s hs => by
                    rcases strTokens_set_eraseIdx hs with hx | hx
                    · exact Or.inl (hop s hx)
                    · exact Or.inr (refTokens_sub_nameTokens _ hx))
                  heq
                constructor
                · refine ⟨?_, ?_⟩
                  · intro s hs
                    rw [stmtRefs_mkTemp, exprRefs_create_binary,
                      varRefs_string_to_variable, varRefs_string_to_variable] at hs
                    rcases List.mem_append.mp hs with hx | hx
                    · exact hop s (strTokens_mem (getIdx_mem hleft) s hx)
                    · exact hop s (strTokens_mem (getIdx_mem hright) s hx)
                  · exact chainOk_mono _ _ _
                      (fun s hs => hs.imp id (fun hx => by rwa [stmtDefTokens_mkTemp]))
                      hrec.1
                · intro s hs
                  rcases hrec.2 s hs with (hx | hx) | hx
                  · exact Or.inl hx
                  · exact Or.inr (by
                      rw [defTokens_cons, stmtDefTokens_mkTemp]
                      exact List.mem_append_left _ hx)
                  · exact Or.inr (by
                      rw [defTokens_cons]
                      exact List.mem_append_right _ hx)
            · exact Except.noConfusion h
    · simp only [Except.ok.injEq, Prod.mk.injEq] at h
      obtain ⟨rfl, -, -, rfl⟩ := h
      exact ⟨trivial, fun s hs => Or.inl (hop s hs)⟩

theorem process_expression_parts_refs :
    ∀ (parts : List FlatExpression) (base : String) (ctr : Nat)
      (A : String → Prop) (x : FlatExpression) (c2 : Nat) (em : List FlatStatement),
      (∀ p ∈ parts, ∀ s ∈ exprRefs p, A s) →
      process_expression_parts parts base ctr = .ok (x, c2, em) →
      ChainOk A em ∧ ∀ s ∈ exprRefs x, A s ∨ s ∈ defTokens em := by
  intro parts base ctr A x c2 em hparts h
  simp only [process_expression_parts] at h
  split at h
  · split at h
    · exact Except.noConfusion h
    · rename_i single stail hlen
      split at h
      · rename_i str hone
        split at h
        · rename_i a b hsplit
          split at h
          · rename_i op hop
            simp only [Except.ok.injEq, Prod.mk.injEq] at h
            obtain ⟨rfl, -, rfl⟩ := h
            refine ⟨trivial, fun s hs => Or.inl ?_⟩
            rw [exprRefs_create_binary, varRefs_zero, varRefs_string_to_variable] at hs
            simp only [List.nil_append] at hs
            have hstr : s ∈ refTokens str.data := by
              rw [splitn2_eq hsplit, refTokens_append_sep space_not_name]
              exact List.mem_append_right _ hs
            refine hparts single (by simp) s (List.mem_append_left _ ?_)
            rw [show varRefs single.one = refTokens str.data from by rw [hone]; rfl]
            exact hstr
          · simp only [Except.ok.injEq, Prod.mk.injEq] at h
            obtain ⟨rfl, -, rfl⟩ := h
            exact ⟨trivial, fun s hs => Or.inl (hparts single (by simp) s hs)⟩
        · simp only [Except.ok.injEq, Prod.mk.injEq] at h
          obtain ⟨rfl, -, rfl⟩ := h
          exact ⟨trivial, fun s hs => Or.inl (hparts single (by simp) s hs)⟩
      · simp only [Except.ok.injEq, Prod.mk.injEq] at h
        obtain ⟨rfl, -, rfl⟩ := h
        exact ⟨trivial, fun s hs => Or.inl (hparts single (by simp) s hs)⟩
  · split at h
    · exact Except.noConfusion h
    · rename_i p0 prest hlen2
      cases hfp : first_part_ops p0 with
      | mk o1 k1 =>
      cases hpo : parts_to_ops prest with
      | mk o2 k2 =>
      rw [hfp, hpo] at h
      dsimp only at h
      split at h
      · exact Except.noConfusion h
      · rename_i operands1 operators1 ctr1 em1 hext
        split at h
        · exact Except.noConfusion h
        · rename_i operands2 operators2 ctr2 em2 hltr
          have hoperands : ∀ s ∈ strTokens (o1 ++ o2), A s := by
            intro s hs
            rw [strTokens_append] at hs
            rcases List.mem_append.mp hs with hx | hx
            · exact hparts p0 (by simp) s (first_part_ops_refs p0 o1 k1 hfp s hx)
            · obtain ⟨q, hq, hqs⟩ := parts_to_ops_refs prest o2 k2 hpo s hx
              exact hparts q (by simp [hq]) s hqs
          have h1 := extract_high_go_refs _ _ _ _ _ A _ _ _ _ hoperands hext
          have h2 := left_to_right_go_refs _ _ _ _ _
            (fun s => A s ∨ s ∈ defTokens em1) _ _ _ _ h1.2 hltr
          have hchain : ChainOk A (em1 ++ em2) := chainOk_append _ _ _ h1.1 h2.1
          have hops2 : ∀ s ∈ strTokens operands2,
              A s ∨ s ∈ defTokens (em1 ++ em2) := by
            intro s hs
            rcases h2.2 s hs with (hx | hx) | hx
            · exact Or.inl hx
            · exact Or.inr (by rw [defTokens_append]; exact List.mem_append_left _ hx)
            · exact Or.inr (by rw [defTokens_append]; exact List.mem_append_right _ hx)
          split at h
          · rename_i operator
            split at h
            · exact Except.noConfusion h
            · rename_i left hleft
              split at h
              · exact Except.noConfusion h
              · rename_i right hright
                split at h
                · rename_i op hop
                  simp only [Except.ok.injEq, Prod.mk.injEq] at h
                  obtain ⟨rfl, -, rfl⟩ := h
                  refine ⟨hchain, fun s hs => ?_⟩
                  rw [exprRefs_create_binary, varRefs_string_to_variable,
                    varRefs_string_to_variable] at hs
                  rcases List.mem_append.mp hs with hx | hx
                  · exact hops2 s (strTokens_mem (getIdx_mem hleft) s hx)
                  · exact hops2 s (strTokens_mem (getIdx_mem hright) s hx)
                · exact Except.noConfusion h
          · split at h
            · exact Except.noConfusion h
            · rename_i o ho
              simp only [Except.ok.injEq, Prod.mk.injEq] at h
              obtain ⟨rfl, -, rfl⟩ := h
              refine ⟨hchain, fun s hs => ?_⟩
              rw [exprRefs_create_variable, varRefs_identifier] at hs
              exact hops2 s (strTokens_mem (getIdx_mem ho) s hs)

theorem mem_defTokens_last {s : String}
    (em : List FlatStatement) (st : FlatStatement) (h : s ∈ stmtDefTokens st) :
    s ∈ defTokens (em ++ [st]) := by
  rw [defTokens_append, defTokens_cons]
  exact List.mem_append_right _ (List.mem_append_left _ h)

theorem process_nested_call_refs :
    ∀ (node : STree) (base : String) (ctr : Nat) (x : FlatExpression) (c2 : Nat)
      (em : List FlatStatement),
      process_nested_call node base ctr = .ok (x, c2, em) →
      ChainOk (TokenIn · node) em ∧
        ∀ s ∈ exprRefs x, TokenIn s node ∨ s ∈ defTokens em := by
  intro node base ctr x c2 em h
  simp only [process_nested_call] at h
  split at h
  · rename_i hcont
    have hfind : ∃ pos, find_substr_pos node.text.data [')', '('] = some pos := by
      rw [contains_substr, show (")(" : String).data = [')', '('] from rfl,
        Option.isSome_iff_exists] at hcont
      exact hcont
    obtain ⟨pos, hpos⟩ := hfind
    rw [hpos] at h
    simp only [Option.getD_some, Except.ok.injEq, Prod.mk.injEq] at h
    obtain ⟨rfl, -, rfl⟩ := h
    obtain ⟨rest, hdrop⟩ := starts_withL_pair (find_substr_pos_starts _ _ _ hpos)
    have hget : node.text.data[pos]? = some ')' := by
      have hd := List.getElem?_drop node.text.data pos 0
      rw [hdrop] at hd
      simpa using hd.symm
    have htake1 : node.text.data.take (pos + 1) = node.text.data.take pos ++ [')'] := by
      rw [List.take_succ, hget]
      rfl
    have hdrop1 : node.text.data.drop (pos + 1) = '(' :: rest := by
      have hdd : node.text.data.drop (pos + 1) = (node.text.data.drop pos).drop 1 := by
        rw [List.drop_drop]
      rw [hdd, hdrop]
      rfl
    have hdecomp : refTokens node.text.data
        = refTokens (node.text.data.take pos) ++ refTokens rest := by
      conv_lhs => rw [← List.take_append_drop pos node.text.data, hdrop]
      rw [refTokens_append_sep rparen_not_name, refTokens_cons_sep lparen_not_name]
    have hfirst : ∀ s ∈ refTokens (node.text.data.take (pos + 1)),
        TokenIn s node := by
      intro s hs
      rw [htake1, refTokens_append_end_sep rparen_not_name] at hs
      exact tokenIn_text node (by rw [hdecomp]; exact List.mem_append_left _ hs)
    constructor
    · refine chainOk_single _ _ ?_
      intro s hs
      rw [stmtRefs_mkTemp, exprRefs_create_variable, varRefs_identifier] at hs
      exact hfirst s hs
    · intro s hs
      rw [exprRefs_create_variable, varRefs_identifier] at hs
      rw [show ((base ++ "_" ++ toString ctr ++
          (node.text.data.drop (pos + 1)).asString : String)).data
          = (base ++ "_" ++ toString ctr : String).data ++
            node.text.data.drop (pos + 1) from by
              simp only [String.data_append]
              rfl] at hs
      rw [hdrop1, refTokens_append_sep lparen_not_name] at hs
      rcases List.mem_append.mp hs with hx | hx
      · refine Or.inr ?_
        rw [show defTokens [mkTemp (base ++ "_" ++ toString ctr)
            (create_variable_expression
              (.Identifier (node.text.data.take (pos + 1)).asString))]
            = nameTokens (base ++ "_" ++ toString ctr : String).data ++ [] from rfl]
        exact List.mem_append_left _ (refTokens_sub_nameTokens _ hx)
      · exact Or.inl (tokenIn_text node (by
          rw [hdecomp]
          exact List.mem_append_right _ hx))
  · simp only [Except.ok.injEq, Prod.mk.injEq] at h
    obtain ⟨rfl, -, rfl⟩ := h
    exact ⟨trivial, fun s hs => Or.inl (tokenIn_text node (by
      rw [exprRefs_create_variable, varRefs_identifier] at hs
      exact hs))⟩

theorem collect_sections_listF_refs
    (pes : STree → String → Nat → Bool →
      Except Error (FlatExpression × Nat × List FlatStatement))
    (hpes : ∀ n b c f x c2 em, pes n b c f = .ok (x, c2, em) →
      ChainOk (TokenIn · n) em ∧ ∀ s ∈ exprRefs x, TokenIn s n ∨ s ∈ defTokens em) :
    ∀ (cs : List STree) (b : String) (ctr : Nat) (f : Bool) (A : String → Prop)
      (parts : List FlatExpression) (c2 : Nat) (em : List FlatStatement),
      (∀ s c', c' ∈ cs → TokenIn s c' → A s) →
      collect_sections_listF pes cs b ctr f = .ok (parts, c2, em) →
      ChainOk A em ∧ ∀ p ∈ parts, ∀ s ∈ exprRefs p, A s ∨ s ∈ defTokens em := by
  intro cs
  induction cs with
  | nil =>
    intro b ctr f A parts c2 em hsub h
    simp only [collect_sections_listF, Except.ok.injEq, Prod.mk.injEq] at h
    obtain ⟨rfl, -, rfl⟩ := h
    exact ⟨trivial, by simp⟩
  | cons c rest ih =>
    intro b ctr f A parts c2 em hsub h
    simp only [collect_sections_listF] at h
    split at h
    · split at h
      · exact Except.noConfusion h
      · rename_i part ctr1 em1 hpart
        split at h
        · exact Except.noConfusion h
        · rename_i parts2 ctr2 em2 hrest
          simp only [Except.ok.injEq, Prod.mk.injEq] at h
          obtain ⟨rfl, -, rfl⟩ := h
          have h1 := hpes c b ctr f part ctr1 em1 hpart
          have hAc : ∀ s, TokenIn s c → A s := fun s hx => hsub s c (by simp) hx
          have h2 := ih b ctr1 f (fun s => A s ∨ s ∈ defTokens em1) parts2 ctr2 em2
            (fun s c' hc' hx => Or.inl (hsub s c' (by simp [hc']) hx)) hrest
          refine ⟨chainOk_append _ _ _ (chainOk_mono _ _ _ hAc h1.1) h2.1, ?_⟩
          intro p hp s hs
          rcases List.mem_cons.mp hp with rfl | hp2
          · rcases h1.2 s hs with hx | hx
            · exact Or.inl (hAc s hx)
            · exact Or.inr (by rw [defTokens_append]; exact List.mem_append_left _ hx)
          · rcases h2.2 p hp2 s hs with (hx | hx) | hx
            · exact Or.inl hx
            · exact Or.inr (by rw [defTokens_append]; exact List.mem_append_left _ hx)
            · exact Or.inr (by rw [defTokens_append]; exact List.mem_append_right _ hx)
    · exact ih b ctr f A parts c2 em
        (fun s c' hc' hx => hsub s c' (by simp [hc']) hx) h

theorem section_children_loopF_refs
    (pv : STree → String → Nat → Bool →
      Except Error (FlatExpression × Nat × List FlatStatement))
    (hpv : ∀ n b c f x c2 em, pv n b c f = .ok (x, c2, em) →
      ChainOk (TokenIn · n) em ∧ ∀ s ∈ exprRefs x, TokenIn s n ∨ s ∈ defTokens em) :
    ∀ (cs : List STree) (b : String) (ctr : Nat) (f : Bool) (operators : List String)
      (operand : Option FlatExpression) (A : String → Prop)
      (ops' : List String) (opnd' : Option FlatExpression) (c2 : Nat)
      (em : List FlatStatement),
      (∀ s c', c' ∈ cs → TokenIn s c' → A s) →
      (∀ s ∈ strTokens operators, A s) →
      (∀ x, operand = some x → ∀ s ∈ exprRefs x, A s) →
      section_children_loopF pv cs b ctr f operators operand = .ok (ops', opnd', c2, em) →
      ChainOk A em ∧ (∀ s ∈ strTokens ops', A s ∨ s ∈ defTokens em) ∧
        (∀ x, opnd' = some x → ∀ s ∈ exprRefs x, A s ∨ s ∈ defTokens em) := by
  intro cs
  induction cs with
  | nil =>
    intro b ctr f operators operand A ops' opnd' c2 em hsub hops hopnd h
    simp only [section_children_loopF, Except.ok.injEq, Prod.mk.injEq] at h
    obtain ⟨rfl, rfl, -, rfl⟩ := h
    exact ⟨trivial, fun s hs => Or.inl (hops s hs),
      fun x hx s hs => Or.inl (hopnd x hx s hs)⟩
  | cons c rest ih =>
    intro b ctr f operators operand A ops' opnd' c2 em hsub hops hopnd h
    simp only [section_children_loopF] at h
    split at h
    · refine ih b ctr f _ operand A ops' opnd' c2 em
        (fun s c' hc' hx => hsub s c' (by simp [hc']) hx) ?_ hopnd h
      intro s hs
      rw [strTokens_append] at hs
      rcases List.mem_append.mp hs with hx | hx
      · exact hops s hx
      · refine hsub s c (by simp) (tokenIn_text c ?_)
        simpa [strTokens] using hx
    · split at h
      · split at h
        · exact Except.noConfusion h
        · rename_i v ctr1 em1 hv
          split at h
          · exact Except.noConfusion h
          · rename_i ops2 opnd2 ctr2 em2 hrest
            simp only [Except.ok.injEq, Prod.mk.injEq] at h
            obtain ⟨rfl, rfl, -, rfl⟩ := h
            have h1 := hpv c b ctr f v ctr1 em1 hv
            have hAc : ∀ s, TokenIn s c → A s := fun s hx => hsub s c (by simp) hx
            have h2 := ih b ctr1 f operators (some v)
              (fun s => A s ∨ s ∈ defTokens em1) _ _ _ _
              (fun s c' hc' hx => Or.inl (hsub s c' (by simp [hc']) hx))
              (fun s hs => Or.inl (hops s hs))
              (fun x hx s hs => by
                rw [Option.some.injEq] at hx
                subst hx
                rcases h1.2 s hs with hy | hy
                · exact Or.inl (hAc s hy)
                · exact Or.inr hy)
              hrest
            refine ⟨chainOk_append _ _ _ (chainOk_mono _ _ _ hAc h1.1) h2.1, ?_, ?_⟩
            · intro s hs
              rcases h2.2.1 s hs with (hx | hx) | hx
              · exact Or.inl hx
              · exact Or.inr (by rw [defTokens_append]; exact List.mem_append_left _ hx)
              · exact Or.inr (by rw [defTokens_append]; exact List.mem_append_right _ hx)
            · intro x hx s hs
              rcases h2.2.2 x hx s hs with (hy | hy) | hy
              · exact Or.inl hy
              · exact Or.inr (by rw [defTokens_append]; exact List.mem_append_left _ hy)
              · exact Or.inr (by rw [defTokens_append]; exact List.mem_append_right _ hy)
      · exact ih b ctr f operators operand A ops' opnd' c2 em
          (fun s c' hc' hx => hsub s c' (by simp [hc']) hx) hops hopnd h

theorem prioritize_innerF_refs
    (pes : STree → String → Nat → Bool →
      Except Error (FlatExpression × Nat × List FlatStatement))
    (hpes : ∀ n b c f x c2 em, pes n b c f = .ok (x, c2, em) →
      ChainOk (TokenIn · n) em ∧ ∀ s ∈ exprRefs x, TokenIn s n ∨ s ∈ defTokens em) :
    ∀ (cs : List STree) (b : String) (ctr : Nat) (tname : String) (A : String → Prop)
      (x : FlatExpression) (c1 : Nat) (em : List FlatStatement),
      (∀ s c', c' ∈ cs → TokenIn s c' → A s) →
      prioritize_innerF pes cs b ctr tname = .ok (some (x, c1, em)) →
      ChainOk A em ∧ ∀ s ∈ exprRefs x, A s ∨ s ∈ defTokens em := by
  intro cs
  induction cs with
  | nil =>
    intro b ctr tname A x c1 em hsub h
    simp only [prioritize_innerF] at h
    exact absurd h (by simp)
  | cons ic rest ih =>
    intro b ctr tname A x c1 em hsub h
    simp only [prioritize_innerF] at h
    split at h
    · split at h
      · exact Except.noConfusion h
      · rename_i inner_parts ctr1 em1 hinner
        have hsubin : ∀ s c', c' ∈ ic.children → TokenIn s c' → A s :=
          fun s c' hc' hx => hsub s ic (by simp) (tokenIn_child ic hc' hx)
        have hcoll := collect_sections_listF_refs pes hpes ic.children b ctr true A
          inner_parts ctr1 em1 hsubin hinner
        split at h
        · rename_i p
          simp only [Except.ok.injEq, Option.some.injEq, Prod.mk.injEq] at h
          obtain ⟨rfl, -, rfl⟩ := h
          constructor
          · refine chainOk_append _ _ _ hcoll.1 (chainOk_single _ _ ?_)
            intro s hs
            rw [stmtRefs_mkTemp] at hs
            exact hcoll.2 p (by simp) s hs
          · intro s hs
            rw [exprRefs_create_variable, varRefs_identifier] at hs
            exact Or.inr (mem_defTokens_last em1 _
              (by rw [stmtDefTokens_mkTemp]; exact refTokens_sub_nameTokens _ hs))
        · split at h
          · exact Except.noConfusion h
          · rename_i flattened ctr2 em2 hpep
            simp only [Except.ok.injEq, Option.some.injEq, Prod.mk.injEq] at h
            obtain ⟨rfl, -, rfl⟩ := h
            have hfl := process_expression_parts_refs inner_parts b ctr1
              (fun s => A s ∨ s ∈ defTokens em1) flattened ctr2 em2
              (fun p hp s hs => hcoll.2 p hp s hs) hpep
            constructor
            · refine chainOk_append _ _ _
                (chainOk_append _ _ _ hcoll.1 hfl.1) (chainOk_single _ _ ?_)
              intro s hs
              rw [stmtRefs_mkTemp] at hs
              rcases hfl.2 s hs with (hx | hx) | hx
              · exact Or.inl hx
              · exact Or.inr (by rw [defTokens_append]; exact List.mem_append_left _ hx)
              · exact Or.inr (by rw [defTokens_append]; exact List.mem_append_right _ hx)
            · intro s hs
              rw [exprRefs_create_variable, varRefs_identifier] at hs
              exact Or.inr (mem_defTokens_last (em1 ++ em2) _
                (by rw [stmtDefTokens_mkTemp]; exact refTokens_sub_nameTokens _ hs))
    · exact ih b ctr tname A x c1 em
        (fun s c' hc' hx => hsub s c' (by simp [hc']) hx) h

theorem pv_loopF_refs
    (pic pes : STree → String → Nat → Bool →
      Except Error (FlatExpression × Nat × List FlatStatement))
    (hpic : ∀ n b c f x c2 em, pic n b c f = .ok (x, c2, em) →
      ChainOk (TokenIn · n) em ∧ ∀ s ∈ exprRefs x, TokenIn s n ∨ s ∈ defTokens em)
    (hpes : ∀ n b c f x c2 em, pes n b c f = .ok (x, c2, em) →
      ChainOk (TokenIn · n) em ∧ ∀ s ∈ exprRefs x, TokenIn s n ∨ s ∈ defTokens em) :
    ∀ (cs : List STree) (b : String) (ctr : Nat) (f : Bool) (A : String → Prop)
      (x : FlatExpression) (c2 : Nat) (em : List FlatStatement),
      (∀ s c', c' ∈ cs → TokenIn s c' → A s) →
      pv_loopF pic pes cs b ctr f = .ok (x, c2, em) →
      ChainOk A em ∧ ∀ s ∈ exprRefs x, A s ∨ s ∈ defTokens em := by
  intro cs
  induction cs with
  | nil =>
    intro b ctr f A x c2 em hsub h
    exact Except.noConfusion h
  | cons c rest ih =>
    intro b ctr f A x c2 em hsub h
    simp only [pv_loopF] at h
    have hAc : ∀ s, TokenIn s c → A s := fun s hx => hsub s c (by simp) hx
    split at h
    · simp only [Except.ok.injEq, Prod.mk.injEq] at h
      obtain ⟨rfl, -, rfl⟩ := h
      refine ⟨trivial, fun s hs => Or.inl (hAc s (tokenIn_text c ?_))⟩
      rw [exprRefs_create_variable] at hs
      exact hs
    · split at h
      · have h1 := hpic c b ctr f x c2 em h
        exact ⟨chainOk_mono _ _ _ hAc h1.1,
          fun s hs => (h1.2 s hs).imp (hAc s) id⟩
      · split at h
        · simp only [Except.ok.injEq, Prod.mk.injEq] at h
          obtain ⟨rfl, -, rfl⟩ := h
          refine ⟨trivial, fun s hs => Or.inl (hAc s (tokenIn_text c ?_))⟩
          rw [exprRefs_create_variable] at hs
          exact hs
        · split at h
          · split at h
            · exact Except.noConfusion h
            · rename_i result heq
              obtain ⟨rx, rc, rem⟩ := result
              simp only [Except.ok.injEq, Prod.mk.injEq] at h
              obtain ⟨rfl, rfl, rfl⟩ := h
              exact prioritize_innerF_refs pes hpes c.children b (ctr + 1) _ A _ _ _
                (fun s c' hc' hx => hsub s c (by simp) (tokenIn_child c hc' hx)) heq
            · exact ih b (ctr + 1) f A x c2 em
                (fun s c' hc' hx => hsub s c' (by simp [hc']) hx) h
          · exact ih b ctr f A x c2 em
              (fun s c' hc' hx => hsub s c' (by simp [hc']) hx) h

theorem suffix_loopF_refs
    (pipwc : STree → String → Nat → Bool →
      Except Error (String × Nat × List FlatStatement))
    (hpipwc : ∀ n b c f x c2 em, pipwc n b c f = .ok (x, c2, em) →
      ChainOk (TokenIn · n) em ∧ ∀ s ∈ refTokens x.data, TokenIn s n ∨ s ∈ defTokens em) :
    ∀ (cs : List STree) (b : String) (ctr : Nat) (f : Bool) (A : String → Prop)
      (parts : List String) (c2 : Nat) (em : List FlatStatement),
      (∀ s c', c' ∈ cs → TokenIn s c' → A s) →
      suffix_loopF pipwc cs b ctr f = .ok (parts, c2, em) →
      ChainOk A em ∧ ∀ s ∈ strTokens parts, A s ∨ s ∈ defTokens em := by
  intro cs
  induction cs with
  | nil =>
    intro b ctr f A parts c2 em hsub h
    simp only [suffix_loopF, Except.ok.injEq, Prod.mk.injEq] at h
    obtain ⟨rfl, -, rfl⟩ := h
    exact ⟨trivial, by simp [strTokens_nil]⟩
  | cons c rest ih =>
    intro b ctr f A parts c2 em hsub h
    simp only [suffix_loopF] at h
    split at h
    · exact Except.noConfusion h
    · rename_i part ctr1 em1 hpart
      split at h
      · exact Except.noConfusion h
      · rename_i parts2 ctr2 em2 hrest
        simp only [Except.ok.injEq, Prod.mk.injEq] at h
        obtain ⟨rfl, -, rfl⟩ := h
        have h1 := hpipwc c b ctr f part ctr1 em1 hpart
        have hAc : ∀ s, TokenIn s c → A s := fun s hx => hsub s c (by simp) hx
        have h2 := ih b ctr1 f (fun s => A s ∨ s ∈ defTokens em1) parts2 ctr2 em2
          (fun s c' hc' hx => Or.inl (hsub s c' (by simp [hc']) hx)) hrest
        refine ⟨chainOk_append _ _ _ (chainOk_mono _ _ _ hAc h1.1) h2.1, ?_⟩
        intro s hs
        rw [show (part :: parts2 : List String) = [part] ++ parts2 from rfl,
          strTokens_append] at hs
        rcases List.mem_append.mp hs with hx | hx
        · rcases h1.2 s (by simpa [strTokens] using hx) with hy | hy
          · exact Or.inl (hAc s hy)
          · exact Or.inr (by rw [defTokens_append]; exact List.mem_append_left _ hy)
        · rcases h2.2 s hx with (hy | hy) | hy
          · exact Or.inl hy
          · exact Or.inr (by rw [defTokens_append]; exact List.mem_append_left _ hy)
          · exact Or.inr (by rw [defTokens_append]; exact List.mem_append_right _ hy)

theorem call_node_loopF_refs
    (pipwc : STree → String → Nat → Bool →
      Except Error (String × Nat × List FlatStatement))
    (pca : STree → String → Nat → Except Error (String × Nat × List FlatStatement))
    (hpipwc : ∀ n b c f x c2 em, pipwc n b c f = .ok (x, c2, em) →
      ChainOk (TokenIn · n) em ∧ ∀ s ∈ refTokens x.data, TokenIn s n ∨ s ∈ defTokens em)
    (hpca : ∀ n b c x c2 em, pca n b c = .ok (x, c2, em) →
      ChainOk (TokenIn · n) em ∧ ∀ s ∈ refTokens x.data, TokenIn s n ∨ s ∈ defTokens em) :
    ∀ (cs : List STree) (b : String) (ctr : Nat) (ci : String) (fd : Bool)
      (args : List String) (A : String → Prop) (ci' : String) (fd' : Bool)
      (args' : List String) (c2 : Nat) (em : List FlatStatement),
      (∀ s c', c' ∈ cs → TokenIn s c' → A s) →
      (∀ s ∈ refTokens ci.data, A s) →
      (∀ s ∈ strTokens args, A s) →
      call_node_loopF pipwc pca cs b ctr ci fd args = .ok (ci', fd', args', c2, em) →
      ChainOk A em ∧ (∀ s ∈ refTokens ci'.data, A s ∨ s ∈ defTokens em) ∧
        (∀ s ∈ strTokens args', A s ∨ s ∈ defTokens em) := by
  intro cs
  induction cs with
  | nil =>
    intro b ctr ci fd args A ci' fd' args' c2 em hsub hci hargs h
    simp only [call_node_loopF, Except.ok.injEq, Prod.mk.injEq] at h
    obtain ⟨rfl, -, rfl, -, rfl⟩ := h
    exact ⟨trivial, fun s hs => Or.inl (hci s hs), fun s hs => Or.inl (hargs s hs)⟩
  | cons c rest ih =>
    intro b ctr ci fd args A ci' fd' args' c2 em hsub hci hargs h
    simp only [call_node_loopF] at h
    have hAc : ∀ s, TokenIn s c → A s := fun s hx => hsub s c (by simp) hx
    split at h
    · split at h
      · exact Except.noConfusion h
      · rename_i ci1 ctr1 em1 hci1
        split at h
        · exact Except.noConfusion h
        · rename_i r1 r2 r3 r4 em2 hrest
          simp only [Except.ok.injEq, Prod.mk.injEq] at h
          obtain ⟨rfl, rfl, rfl, -, rfl⟩ := h
          have h1 := hpipwc c b ctr true ci1 ctr1 em1 hci1
          have h2 := ih b ctr1 ci1 true args
            (fun s => A s ∨ s ∈ defTokens em1) _ _ _ _ _
            (fun s c' hc' hx => Or.inl (hsub s c' (by simp [hc']) hx))
            (fun s hs => (h1.2 s hs).imp (hAc s) id)
            (fun s hs => Or.inl (hargs s hs)) hrest
          refine ⟨chainOk_append _ _ _ (chainOk_mono _ _ _ hAc h1.1) h2.1, ?_, ?_⟩
          · intro s hs
            rcases h2.2.1 s hs with (hx | hx) | hx
            · exact Or.inl hx
            · exact Or.inr (by rw [defTokens_append]; exact List.mem_append_left _ hx)
            · exact Or.inr (by rw [defTokens_append]; exact List.mem_append_right _ hx)
          · intro s hs
            rcases h2.2.2 s hs with (hx | hx) | hx
            · exact Or.inl hx
            · exact Or.inr (by rw [defTokens_append]; exact List.mem_append_left _ hx)
            · exact Or.inr (by rw [defTokens_append]; exact List.mem_append_right _ hx)
    · split at h
      · split at h
        · exact Except.noConfusion h
        · rename_i arg ctr1 em1 harg
          split at h
          · exact Except.noConfusion h
          · rename_i r1 r2 r3 r4 em2 hrest
            simp only [Except.ok.injEq, Prod.mk.injEq] at h
            obtain ⟨rfl, rfl, rfl, -, rfl⟩ := h
            have h1 := hpca c b ctr arg ctr1 em1 harg
            have h2 := ih b ctr1 ci fd (args ++ [arg])
              (fun s => A s ∨ s ∈ defTokens em1) _ _ _ _ _
              (fun s c' hc' hx => Or.inl (hsub s c' (by simp [hc']) hx))
              (fun s hs => Or.inl (hci s hs))
              (fun s hs => by
                rw [strTokens_append] at hs
                rcases List.mem_append.mp hs with hx | hx
                · exact Or.inl (hargs s hx)
                · exact (h1.2 s (by simpa [strTokens] using hx)).imp (hAc s) id)
              hrest
            refine ⟨chainOk_append _ _ _ (chainOk_mono _ _ _ hAc h1.1) h2.1, ?_, ?_⟩
            · intro s hs
              rcases h2.2.1 s hs with (hx | hx) | hx
              · exact Or.inl hx
              · exact Or.inr (by rw [defTokens_append]; exact List.mem_append_left _ hx)
              · exact Or.inr (by rw [defTokens_append]; exact List.mem_append_right _ hx)
            · intro s hs
              rcases h2.2.2 s hs with (hx | hx) | hx
              · exact Or.inl hx
              · exact Or.inr (by rw [defTokens_append]; exact List.mem_append_left _ hx)
              · exact Or.inr (by rw [defTokens_append]; exact List.mem_append_right _ hx)
      · exact ih b ctr ci fd args A ci' fd' args' c2 em
          (fun s c' hc' hx => hsub s c' (by simp [hc']) hx) hci hargs h

/-- The high-precedence loop emits only temporaries. -/
theorem extract_high_go_temps :
    ∀ n operands operators base_name ctr a b c em,
      extract_high_go n operands operators base_name ctr = .ok (a, b, c, em) →
      em.all isTempStmt = true := by
  intro n
  induction n with
  | zero =>
    intro operands operators base_name ctr a b c em h
    simp only [extract_high_go, Except.ok.injEq, Prod.mk.injEq] at h
    obtain ⟨-, -, -, hem⟩ := h
    subst hem
    rfl
  | succ n ih =>
    intro operands operators base_name ctr a b c em h
    simp only [extract_high_go] at h
    repeat' split at h
    all_goals try exact Except.noConfusion h
    all_goals simp only [Except.ok.injEq, Prod.mk.injEq] at h
    all_goals obtain ⟨-, -, -, hem⟩ := h
    all_goals subst hem
    all_goals
      first
      | rfl
      | (simp only [List.all_cons, mkTemp_isTemp, Bool.true_and]
         exact ih _ _ _ _ _ _ _ _ (by assumption))

/-- The left-to-right reduction loop emits only temporaries. -/
theorem left_to_right_go_temps :
    ∀ n operands operators base_name ctr a b c em,
      left_to_right_go n operands operators base_name ctr = .ok (a, b, c, em) →
      em.all isTempStmt = true := by
  intro n
  induction n with
  | zero =>
    intro operands operators base_name ctr a b c em h
    simp only [left_to_right_go, Except.ok.injEq, Prod.mk.injEq] at h
    obtain ⟨-, -, -, hem⟩ := h
    subst hem
    rfl
  | succ n ih =>
    intro operands operators base_name ctr a b c em h
    simp only [left_to_right_go] at h
    repeat' split at h
    all_goals try exact Except.noConfusion h
    all_goals simp only [Except.ok.injEq, Prod.mk.injEq] at h
    all_goals obtain ⟨-, -, -, hem⟩ := h
    all_goals subst hem
    all_goals
      first
      | rfl
      | (simp only [List.all_cons, mkTemp_isTemp, Bool.true_and]
         exact ih _ _ _ _ _ _ _ _ (by assumption))

/-- Model of `process_expression_parts` emits only temporaries. -/
theorem process_expression_parts_temps :
    ∀ parts base_name ctr x c2 em,
      process_expression_parts parts base_name ctr = .ok (x, c2, em) →
      em.all isTempStmt = true := by
  intro parts base_name ctr x c2 em h
  simp only [process_expression_parts] at h
  repeat' split at h
  all_goals try exact Except.noConfusion h
  all_goals simp only [Except.ok.injEq, Prod.mk.injEq] at h
  all_goals obtain ⟨-, -, hem⟩ := h
  all_goals subst hem
  all_goals
    first
    | rfl
    | (simp only [List.all_append, Bool.and_eq_true]
       exact ⟨extract_high_go_temps _ _ _ _ _ _ _ _ _ (by assumption),
         left_to_right_go_temps _ _ _ _ _ _ _ _ _ (by assumption)⟩)

/-- The unary chain loop emits only temporaries. -/
theorem unary_temp_loop_temps :
    ∀ ops base_name ctr current x c2 em,
      unary_temp_loop ops base_name ctr current = .ok (x, c2, em) →
      em.all isTempStmt = true := by
  intro ops
  induction ops with
  | nil =>
    intro base_name ctr current x c2 em h
    simp only [unary_temp_loop, Except.ok.injEq, Prod.mk.injEq] at h
    obtain ⟨-, -, hem⟩ := h
    subst hem
    rfl
  | cons op rest ih =>
    intro base_name ctr current x c2 em h
    simp only [unary_temp_loop] at h
    repeat' split at h
    all_goals try exact Except.noConfusion h
    all_goals simp only [Except.ok.injEq, Prod.mk.injEq] at h
    all_goals obtain ⟨-, -, hem⟩ := h
    all_goals subst hem
    all_goals
      simp only [List.all_cons, mkTemp_isTemp, Bool.true_and]
    all_goals exact ih _ _ _ _ _ _ (by assumption)

/-- Model of `process_nested_call` emits only temporaries. -/
theorem process_nested_call_temps :
    ∀ node base_name ctr x c2 em,
      process_nested_call node base_name ctr = .ok (x, c2, em) →
      em.all isTempStmt = true := by
  intro node base_name ctr x c2 em h
  simp only [process_nested_call] at h
  split at h
  all_goals simp only [Except.ok.injEq, Prod.mk.injEq] at h
  all_goals obtain ⟨-, -, hem⟩ := h
  all_goals subst hem
  all_goals rfl

/-- The section-collection loop emits only temporaries when its section
processor does. -/
theorem collect_sections_listF_temps
    (pes : STree → String → Nat → Bool → Except Error (FlatExpression × Nat × List FlatStatement))
    (hpes : ∀ n b c f x c2 em, pes n b c f = .ok (x, c2, em) → em.all isTempStmt = true) :
    ∀ children b c f x c2 em,
      collect_sections_listF pes children b c f = .ok (x, c2, em) →
      em.all isTempStmt = true := by
  intro children
  induction children with
  | nil =>
    intro b c f x c2 em h
    simp only [collect_sections_listF, Except.ok.injEq, Prod.mk.injEq] at h
    obtain ⟨-, -, hem⟩ := h
    subst hem
    rfl
  | cons child rest ih =>
    intro b c f x c2 em h
    simp only [collect_sections_listF] at h
    repeat' split at h
    all_goals try exact Except.noConfusion h
    all_goals try exact ih _ _ _ _ _ _ h
    all_goals simp only [Except.ok.injEq, Prod.mk.injEq] at h
    all_goals obtain ⟨-, -, hem⟩ := h
    all_goals subst hem
    all_goals simp only [List.all_append, Bool.and_eq_true]
    all_goals
      exact ⟨hpes _ _ _ _ _ _ _ (by assumption), ih _ _ _ _ _ _ (by assumption)⟩

/-- The section-children loop emits only temporaries when its variable
processor does. -/
theorem section_children_loopF_temps
    (pv : STree → String → Nat → Bool → Except Error (FlatExpression × Nat × List FlatStatement))
    (hpv : ∀ n b c f x c2 em, pv n b c f = .ok (x, c2, em) → em.all isTempStmt = true) :
    ∀ children b c f operators operand ops opnd c2 em,
      section_children_loopF pv children b c f operators operand = .ok (ops, opnd, c2, em) →
      em.all isTempStmt = true := by
  intro children
  induction children with
  | nil =>
    intro b c f operators operand ops opnd c2 em h
    simp only [section_children_loopF, Except.ok.injEq, Prod.mk.injEq] at h
    obtain ⟨-, -, -, hem⟩ := h
    subst hem
    rfl
  | cons child rest ih =>
    intro b c f operators operand ops opnd c2 em h
    simp only [section_children_loopF] at h
    repeat' split at h
    all_goals try exact Except.noConfusion h
    all_goals try exact ih _ _ _ _ _ _ _ _ _ h
    all_goals simp only [Except.ok.injEq, Prod.mk.injEq] at h
    all_goals obtain ⟨-, -, -, hem⟩ := h
    all_goals subst hem
    all_goals simp only [List.all_append, Bool.and_eq_true]
    all_goals
      exact ⟨hpv _ _ _ _ _ _ _ (by assumption), ih _ _ _ _ _ _ _ _ _ (by assumption)⟩

/-- The prioritize inner loop emits only temporaries when its section
processor does. -/
theorem prioritize_innerF_temps
    (pes : STree → String → Nat → Bool → Except Error (FlatExpression × Nat × List FlatStatement))
    (hpes : ∀ n b c f x c2 em, pes n b c f = .ok (x, c2, em) → em.all isTempStmt = true) :
    ∀ children b c tname x c2 em,
      prioritize_innerF pes children b c tname = .ok (some (x, c2, em)) →
      em.all isTempStmt = true := by
  intro children
  induction children with
  | nil =>
    intro b c tname x c2 em h
    simp only [prioritize_innerF] at h
    exact Option.noConfusion (Except.ok.inj h)
  | cons child rest ih =>
    intro b c tname x c2 em h
    simp only [prioritize_innerF] at h
    repeat' split at h
    all_goals try exact Except.noConfusion h
    all_goals try exact ih _ _ _ _ _ _ h
    all_goals simp only [Except.ok.injEq, Option.some.injEq, Prod.mk.injEq] at h
    all_goals obtain ⟨-, -, hem⟩ := h
    all_goals subst hem
    all_goals simp only [List.all_append, List.all_cons, mkTemp_isTemp,
      Bool.and_eq_true, and_true, List.all_nil]
    · exact collect_sections_listF_temps pes hpes _ _ _ _ _ _ _ (by assumption)
    · exact ⟨collect_sections_listF_temps pes hpes _ _ _ _ _ _ _ (by assumption),
        process_expression_parts_temps _ _ _ _ _ _ (by assumption)⟩

/-- The variable-children loop emits only temporaries when the identifier
chain and expression section processors do. -/
theorem pv_loopF_temps
    (pic pes : STree → String → Nat → Bool → Except Error (FlatExpression × Nat × List FlatStatement))
    (hpic : ∀ n b c f x c2 em, pic n b c f = .ok (x, c2, em) → em.all isTempStmt = true)
    (hpes : ∀ n b c f x c2 em, pes n b c f = .ok (x, c2, em) → em.all isTempStmt = true) :
    ∀ children b c f x c2 em,
      pv_loopF pic pes children b c f = .ok (x, c2, em) →
      em.all isTempStmt = true := by
  intro children
  induction children with
  | nil =>
    intro b c f x c2 em h
    exact Except.noConfusion h
  | cons child rest ih =>
    intro b c f x c2 em h
    simp only [pv_loopF] at h
    split at h
    · simp only [Except.ok.injEq, Prod.mk.injEq] at h
      obtain ⟨-, -, hem⟩ := h
      subst hem
      rfl
    · split at h
      · exact hpic _ _ _ _ _ _ _ h
      · split at h
        · simp only [Except.ok.injEq, Prod.mk.injEq] at h
          obtain ⟨-, -, hem⟩ := h
          subst hem
          rfl
        · split at h
          · split at h
            · exact Except.noConfusion h
            · rename_i result heq
              obtain ⟨xr, cr, emr⟩ := result
              simp only [Except.ok.injEq, Prod.mk.injEq] at h
              obtain ⟨-, -, hem⟩ := h
              subst hem
              exact prioritize_innerF_temps pes hpes _ _ _ _ _ _ _ heq
            · exact ih _ _ _ _ _ _ h
          · exact ih _ _ _ _ _ _ h

/-- The suffix loop emits only temporaries when its part processor does. -/
theorem suffix_loopF_temps
    (pipwc : STree → String → Nat → Bool → Except Error (String × Nat × List FlatStatement))
    (hp : ∀ n b c f x c2 em, pipwc n b c f = .ok (x, c2, em) → em.all isTempStmt = true) :
    ∀ children b c f x c2 em,
      suffix_loopF pipwc children b c f = .ok (x, c2, em) →
      em.all isTempStmt = true := by
  intro children
  induction children with
  | nil =>
    intro b c f x c2 em h
    simp only [suffix_loopF, Except.ok.injEq, Prod.mk.injEq] at h
    obtain ⟨-, -, hem⟩ := h
    subst hem
    rfl
  | cons child rest ih =>
    intro b c f x c2 em h
    simp only [suffix_loopF] at h
    repeat' split at h
    all_goals try exact Except.noConfusion h
    all_goals simp only [Except.ok.injEq, Prod.mk.injEq] at h
    all_goals obtain ⟨-, -, hem⟩ := h
    all_goals subst hem
    all_goals simp only [List.all_append, Bool.and_eq_true]
    all_goals
      exact ⟨hp _ _ _ _ _ _ _ (by assumption), ih _ _ _ _ _ _ (by assumption)⟩

/-- The call-node loop emits only temporaries when its two processors do. -/
theorem call_node_loopF_temps
    (pipwc : STree → String → Nat → Bool → Except Error (String × Nat × List FlatStatement))
    (pca : STree → String → Nat → Except Error (String × Nat × List FlatStatement))
    (hp1 : ∀ n b c f x c2 em, pipwc n b c f = .ok (x, c2, em) → em.all isTempStmt = true)
    (hp2 : ∀ n b c x c2 em, pca n b c = .ok (x, c2, em) → em.all isTempStmt = true) :
    ∀ children b c ci found args r1 r2 r3 r4 em,
      call_node_loopF pipwc pca children b c ci found args = .ok (r1, r2, r3, r4, em) →
      em.all isTempStmt = true := by
  intro children
  induction children with
  | nil =>
    intro b c ci found args r1 r2 r3 r4 em h
    simp only [call_node_loopF, Except.ok.injEq, Prod.mk.injEq] at h
    obtain ⟨-, -, -, -, hem⟩ := h
    subst hem
    rfl
  | cons child rest ih =>
    intro b c ci found args r1 r2 r3 r4 em h
    simp only [call_node_loopF] at h
    repeat' split at h
    all_goals try exact Except.noConfusion h
    all_goals try exact ih _ _ _ _ _ _ _ _ _ _ h
    all_goals simp only [Except.ok.injEq, Prod.mk.injEq] at h
    all_goals obtain ⟨-, -, -, -, hem⟩ := h
    all_goals subst hem
    all_goals simp only [List.all_append, Bool.and_eq_true]
    · exact ⟨hp1 _ _ _ _ _ _ _ (by assumption), ih _ _ _ _ _ _ _ _ _ _ (by assumption)⟩
    · exact ⟨hp2 _ _ _ _ _ _ (by assumption), ih _ _ _ _ _ _ _ _ _ _ (by assumption)⟩

/-- One recursion layer preserves the only-temporaries emission invariant. -/
theorem stepFns_temps (prev : FlattenFns) (hprev : FnsEmitTemps prev) :
    FnsEmitTemps (stepFns prev) := by
  obtain ⟨h1, h2, h3, h4, h5, h6, h7⟩ := hprev
  refine ⟨?_, ?_, ?_, ?_, ?_, ?_, ?_⟩
  · -- process_expression_section
    intro n b c f x c2 em h
    simp only [stepFns] at h
    repeat' split at h
    all_goals try exact Except.noConfusion h
    all_goals simp only [Except.ok.injEq, Prod.mk.injEq] at h
    all_goals obtain ⟨-, -, hem⟩ := h
    all_goals subst hem
    all_goals
      first
      | exact section_children_loopF_temps _ h2 _ _ _ _ _ _ _ _ _ _ (by assumption)
      | (simp only [List.all_append, List.all_cons, List.all_nil, mkTemp_isTemp,
          Bool.and_eq_true, and_true]
         exact section_children_loopF_temps _ h2 _ _ _ _ _ _ _ _ _ _ (by assumption))
      | (simp only [List.all_append, List.all_cons, List.all_nil, mkTemp_isTemp,
          Bool.and_eq_true, and_true]
         exact ⟨section_children_loopF_temps _ h2 _ _ _ _ _ _ _ _ _ _ (by assumption),
           unary_temp_loop_temps _ _ _ _ _ _ _ (by assumption)⟩)
  · -- process_variable
    intro n b c f x c2 em h
    simp only [stepFns] at h
    exact pv_loopF_temps _ _ h3 h1 _ _ _ _ _ _ _ h
  · -- process_identifier_chain
    intro n b c f x c2 em h
    simp only [stepFns] at h
    repeat' split at h
    all_goals try exact Except.noConfusion h
    all_goals try exact process_nested_call_temps _ _ _ _ _ _ h
    all_goals simp only [Except.ok.injEq, Prod.mk.injEq] at h
    all_goals obtain ⟨-, -, hem⟩ := h
    all_goals subst hem
    all_goals try rfl
    all_goals simp only [List.all_append, List.all_cons, List.all_nil, mkTemp_isTemp,
      Bool.and_eq_true, and_true, true_and]
    all_goals
      first
      | exact h5 _ _ _ _ _ _ _ (by assumption)
      | exact ⟨h5 _ _ _ _ _ _ _ (by assumption),
          suffix_loopF_temps _ h4 _ _ _ _ _ _ _ (by assumption)⟩
  · -- process_identifier_part_with_calls
    intro n b c f x c2 em h
    simp only [stepFns] at h
    split at h
    · exact h5 _ _ _ _ _ _ _ h
    · simp only [Except.ok.injEq, Prod.mk.injEq] at h
      obtain ⟨-, -, hem⟩ := h
      subst hem
      rfl
  · -- process_call_with_arguments
    intro n b c f x c2 em h
    simp only [stepFns] at h
    split at h
    · exact h6 _ _ _ _ _ _ h
    · simp only [Except.ok.injEq, Prod.mk.injEq] at h
      obtain ⟨-, -, hem⟩ := h
      subst hem
      rfl
  · -- process_call_node
    intro n b c x c2 em h
    simp only [stepFns] at h
    repeat' split at h
    all_goals try exact Except.noConfusion h
    all_goals simp only [Except.ok.injEq, Prod.mk.injEq] at h
    all_goals obtain ⟨-, -, hem⟩ := h
    all_goals subst hem
    all_goals exact call_node_loopF_temps _ _ h4 h7 _ _ _ _ _ _ _ _ _ _ _ (by assumption)
  · -- process_call_argument
    intro n b c x c2 em h
    simp only [stepFns] at h
    repeat' split at h
    all_goals try exact Except.noConfusion h
    all_goals simp only [Except.ok.injEq, Prod.mk.injEq] at h
    all_goals obtain ⟨-, -, hem⟩ := h
    all_goals subst hem
    all_goals try simp only [List.all_append, List.all_cons, List.all_nil, mkTemp_isTemp,
      Bool.and_eq_true, and_true, true_and]
    all_goals
      first
      | exact collect_sections_listF_temps _ h1 _ _ _ _ _ _ _ (by assumption)
      | exact ⟨collect_sections_listF_temps _ h1 _ _ _ _ _ _ _ (by assumption),
          process_expression_parts_temps _ _ _ _ _ _ (by assumption)⟩

/-- Every level of the processor family emits only temporaries. -/
theorem theFns_temps : ∀ fuel, FnsEmitTemps (theFns fuel) := by
  intro fuel
  induction fuel with
  | zero =>
    refine ⟨?_, ?_, ?_, ?_, ?_, ?_, ?_⟩ <;>
      intros <;> exact Except.noConfusion (by assumption)
  | succ n ih => exact stepFns_temps _ ih

/-- Model of `flatten_expression` emits only temporaries. -/
theorem flatten_expression_temps :
    ∀ fuel node st st1 em, flatten_expression fuel node st = .ok (st1, em) →
      em.all isTempStmt = true := by
  intro fuel node st st1 em h
  simp only [flatten_expression] at h
  repeat' split at h
  all_goals try exact Except.noConfusion h
  all_goals simp only [Except.ok.injEq, Prod.mk.injEq] at h
  all_goals obtain ⟨-, hem⟩ := h
  all_goals subst hem
  all_goals simp only [List.all_append, Bool.and_eq_true]
  all_goals
    exact ⟨collect_sections_listF_temps _ (theFns_temps fuel).1 _ _ _ _ _ _ _
        (by assumption),
      process_expression_parts_temps _ _ _ _ _ _ (by assumption)⟩

/-- The statement-children loop emits only temporaries when its expression
processor does. -/
theorem stmt_children_loopF_temps
    (fe : STree → FlatStatement → Except Error (FlatStatement × List FlatStatement))
    (hfe : ∀ n st st1 em, fe n st = .ok (st1, em) → em.all isTempStmt = true) :
    ∀ children st st1 em,
      stmt_children_loopF fe children st = .ok (st1, em) →
      em.all isTempStmt = true := by
  intro children
  induction children with
  | nil =>
    intro st st1 em h
    simp only [stmt_children_loopF, Except.ok.injEq, Prod.mk.injEq] at h
    obtain ⟨-, hem⟩ := h
    subst hem
    rfl
  | cons child rest ih =>
    intro st st1 em h
    simp only [stmt_children_loopF] at h
    repeat' split at h
    all_goals try exact Except.noConfusion h
    all_goals try exact ih _ _ _ h
    all_goals simp only [Except.ok.injEq, Prod.mk.injEq] at h
    all_goals obtain ⟨-, hem⟩ := h
    all_goals subst hem
    all_goals simp only [List.all_append, Bool.and_eq_true]
    all_goals exact ⟨hfe _ _ _ _ (by assumption), ih _ _ _ (by assumption)⟩

/-- Model of `chain_listF` skips children that are not statement chains. -/
theorem chain_listF_skip
    (fsc : STree → List FlatStatementChain → Except Error (List FlatStatementChain)) :
    ∀ (cs : List STree) (root : List FlatStatementChain),
      (∀ c ∈ cs, c.kind ≠ .statement_chain) →
      chain_listF fsc cs root = .ok root := by
  intro cs
  induction cs with
  | nil => intro root _; rfl
  | cons c rest ih =>
    intro root hk
    have hc := hk c (List.mem_cons_self c rest)
    simp only [chain_listF, if_neg hc]
    exact ih root (fun d hd => hk d (List.mem_cons_of_mem c hd))

/-- Model of `vprioritize_loopF` leaves its flag untouched when no child is an
expression. -/
theorem vprioritize_loopF_skip (ve : STree → Except Error Unit) :
    ∀ (cs : List STree) (has : Bool),
      (∀ c ∈ cs, c.kind ≠ .expression) →
      vprioritize_loopF ve cs has = .ok has := by
  intro cs
  induction cs with
  | nil => intro has _; rfl
  | cons c rest ih =>
    intro has hk
    have hc := hk c (List.mem_cons_self c rest)
    simp only [vprioritize_loopF, if_neg hc]
    exact ih has (fun d hd => hk d (List.mem_cons_of_mem c hd))

/-- Claim C1 (counterexample): the produced `FlatRoot` does not intern
number tokens.  Flattening the tree of `y : 0d2 * 0d2;` stores the token
`0d2` at two separate positions — the multiset of stored number tokens has a
duplicate, where interning with deduplication would keep a single pool entry
returned by both inserts. -/
theorem C1_counterexample :
    flatten_tree 8 dupTree = .ok dupRoot ∧
    rootNumberTokens dupRoot = ["0d2", "0d2"] ∧
    ¬ (rootNumberTokens dupRoot).Nodup := by
  refine ⟨rfl, rfl, by decide⟩

/-- Claim C1 (amended): `FlatRoot` has no pools and no indices; number,
string and identifier tokens are stored inline by value in each
`FlatVariable` occurrence, duplicated at every occurrence, with the token
bytes preserved exactly — flattening `y : 0d2 * 0d2;` stores two equal
copies of the token `0d2`. -/
theorem C1_inline_token_storage :
    flatten_tree 8 dupTree = .ok dupRoot ∧
    rootNumberTokens dupRoot = ["0d2", "0d2"] := ⟨rfl, rfl⟩

/-- Claim C2 (counterexample): flattening the unary expression `- 0d1` does
not produce an absent left operand — `FlatExpression.one` is not optional —
and it injects a synthetic zero: the result's left operand is the literal
token `0`, which occurs nowhere among the source's number tokens. -/
theorem C2_counterexample :
    flatten_tree 8 unaryTree = .ok unaryRoot ∧
    unaryRoot = { statement_chains := [
      { statements := [
        { definition := none,
          expression := some
            { one := .Number "0", two := some (.Number "0d1"),
              arithmetic := some .Substract } }] }] } ∧
    treeNumberTexts 16 unaryTree = ["0d1"] ∧
    "0" ∉ treeNumberTexts 16 unaryTree := by
  refine ⟨rfl, rfl, rfl, by decide⟩

/-- Claim C2 (amended): a unary source expression is encoded as a binary
expression whose left operand is the synthetic number literal `0`
(`FlatExpression.one` cannot be absent): a lone section part of the form
`"op rest"` becomes `0 op rest`, and `- 0d1` flattens to exactly that. -/
theorem C2_unary_synthetic_zero :
    (∀ (s a bs base : String) (op : FlatArithmetic) (ctr : Nat),
      splitn2 s = [a, bs] → string_to_arithmetic a = some op →
      process_expression_parts [create_variable_expression (.String s)] base ctr =
        .ok (create_binary_expression (.Number "0") op (string_to_variable bs),
          ctr, [])) ∧
    flatten_tree 8 unaryTree = .ok unaryRoot := by
  constructor
  · intro s a bs base op ctr h1 h2
    simp [process_expression_parts, create_variable_expression, h1, h2]
  · rfl

/-- Witness for C2's amended theorem, at the section part of `- 0d1`. -/
theorem C2_unary_synthetic_zero_witness :
    process_expression_parts [create_variable_expression (.String "- 0d1")]
        "temporary" 1 =
      .ok (create_binary_expression (.Number "0") .Substract
        (string_to_variable "0d1"), 1, []) :=
  C2_unary_synthetic_zero.1 "- 0d1" "-" "0d1" "temporary" .Substract 1 rfl rfl

/-- Claim C3 (counterexample): brackets are not transparent.  The single
statement `x : 0d10 - [0d10 - 0d5];` flattens to a chain of two statements —
the flattener adds one extra entry (the temporary holding the bracketed
subexpression) where the claim requires none. -/
theorem C3_counterexample :
    flatten_tree 8 bracketTree = .ok bracketRoot ∧
    (bracketRoot.statement_chains.map fun c => c.statements.length) = [2] := by
  refine ⟨rfl, rfl⟩

/-- Claim C3 (amended): a bracketed (prioritised) subexpression is always
extracted into a compiler-generated `Constant` temporary pushed onto the
statement chain before the enclosing statement, which then references the
temporary by name: `x : 0d10 - [0d10 - 0d5];` flattens to `x_1 : 0d10 - 0d5`
followed by `x : 0d10 - x_1`. -/
theorem C3_bracket_temporary :
    flatten_tree 8 bracketTree = .ok bracketRoot ∧
    bracketRoot.statement_chains = [{ statements := [x1TempStmt, xMainStmt] }] ∧
    isTempStmt x1TempStmt = true := by
  refine ⟨rfl, rfl, rfl⟩

theorem refTokens_opstring (op0 S : String) :
    refTokens (op0 ++ " " ++ S).data = refTokens op0.data ++ refTokens S.data := by
  rw [show (op0 ++ " " ++ S).data = op0.data ++ ' ' :: S.data from by
    simp [String.data_append, show (" " : String).data = [' '] from rfl],
    refTokens_append_sep space_not_name]

theorem dot_sep_ne : ("." : String).data ≠ [] := by decide

theorem dot_sep_nonname : ∀ c ∈ ("." : String).data, isNameChar c = false := by decide

theorem commaspace_ne : (", " : String).data ≠ [] := by decide

theorem commaspace_nonname : ∀ c ∈ (", " : String).data, isNameChar c = false := by decide

theorem stepFns_refs (prev : FlattenFns) (hprev : FnsRefsOk prev) :
    FnsRefsOk (stepFns prev) := by
  obtain ⟨h1, h2, h3, h4, h5, h6, h7⟩ := hprev
  refine ⟨?_, ?_, ?_, ?_, ?_, ?_, ?_⟩
  · -- process_expression_section
    intro n b c f x c2 em h
    simp only [stepFns] at h
    split at h
    · exact Except.noConfusion h
    · rename_i operators operand ctr1 em0 hloop
      have hsec := section_children_loopF_refs prev.process_variable h2
        n.children b c f [] none (TokenIn · n) operators operand ctr1 em0
        (fun s c' hc' hx => tokenIn_child n hc' hx)
        (by intro s hs; exact absurd hs (by simp [strTokens_nil]))
        (fun y hy => Option.noConfusion hy)
        hloop
      split at h
      · -- no operators
        split at h
        · rename_i o
          simp only [Except.ok.injEq, Prod.mk.injEq] at h
          obtain ⟨rfl, -, rfl⟩ := h
          exact ⟨hsec.1, fun s hs => hsec.2.2 _ rfl s hs⟩
        · exact Except.noConfusion h
      · -- one operator
        rename_i op0
        split at h
        · exact Except.noConfusion h
        · rename_i o huw
          simp only [Except.ok.injEq, Prod.mk.injEq] at h
          obtain ⟨rfl, -, rfl⟩ := h
          refine ⟨hsec.1, fun s hs => ?_⟩
          rw [exprRefs_create_variable, show
            varRefs (FlatVariable.String (op0 ++ " " ++ expression_to_string_simple o))
              = refTokens (op0 ++ " " ++ expression_to_string_simple o).data from rfl,
            refTokens_opstring] at hs
          rcases List.mem_append.mp hs with hx | hx
          · exact hsec.2.1 s (strTokens_mem (by simp) s hx)
          · exact hsec.2.2 o (optUnwrap_eq_some huw) s (refTokens_ets_simple o s hx)
      · -- two or more operators
        rename_i op0 u0 uRest
        split at h
        · exact Except.noConfusion h
        · rename_i ou huw
          split at h
          · -- a single unary operator
            split at h
            · rename_i op hop
              simp only [Except.ok.injEq, Prod.mk.injEq] at h
              obtain ⟨rfl, -, rfl⟩ := h
              constructor
              · refine chainOk_append _ _ _ hsec.1 (chainOk_single _ _ ?_)
                intro s hs
                rw [stmtRefs_mkTemp, exprRefs_create_binary, varRefs_zero,
                  varRefs_string_to_variable] at hs
                simp only [List.nil_append] at hs
                exact hsec.2.2 ou (optUnwrap_eq_some huw) s (refTokens_ets ou s hs)
              · intro s hs
                rw [exprRefs_create_variable, show
                  varRefs (FlatVariable.String (op0 ++ " " ++ (b ++ "_" ++ toString ctr1)))
                    = refTokens (op0 ++ " " ++ (b ++ "_" ++ toString ctr1)).data from rfl,
                  refTokens_opstring] at hs
                rcases List.mem_append.mp hs with hx | hx
                · rcases hsec.2.1 s (strTokens_mem (by simp) s hx) with hy | hy
                  · exact Or.inl hy
                  · exact Or.inr (by
                      rw [defTokens_append]
                      exact List.mem_append_left _ hy)
                · exact Or.inr (mem_defTokens_last em0 _
                    (by rw [stmtDefTokens_mkTemp]; exact refTokens_sub_nameTokens _ hx))
            · exact Except.noConfusion h
          · -- several unary operators
            split at h
            · exact Except.noConfusion h
            · rename_i current ctr3 emU hu
              split at h
              · exact Except.noConfusion h
              · rename_i lastOp hlast
                split at h
                · rename_i op hop
                  simp only [Except.ok.injEq, Prod.mk.injEq] at h
                  obtain ⟨rfl, -, rfl⟩ := h
                  have hU := unary_temp_loop_refs _ b (expression_to_string ou) _
                    (fun s => TokenIn s n ∨ s ∈ defTokens em0) current ctr3 emU
                    (fun s hs => hsec.2.2 ou (optUnwrap_eq_some huw) s
                      (refTokens_ets ou s hs))
                    hu
                  constructor
                  · rw [show em0 ++ emU ++ [mkTemp (b ++ "_" ++ toString ctr1)
                        (create_binary_expression (.Number "0") op
                          (string_to_variable current))]
                      = em0 ++ (emU ++ [mkTemp (b ++ "_" ++ toString ctr1)
                        (create_binary_expression (.Number "0") op
                          (string_to_variable current))]) from by
                      rw [List.append_assoc]]
                    refine chainOk_append _ _ _ hsec.1 ?_
                    refine chainOk_append _ _ _ hU.1 (chainOk_single _ _ ?_)
                    intro s hs
                    rw [stmtRefs_mkTemp, exprRefs_create_binary, varRefs_zero,
                      varRefs_string_to_variable] at hs
                    simp only [List.nil_append] at hs
                    rcases hU.2 s hs with (hx | hx) | hx
                    · exact Or.inl (Or.inl hx)
                    · exact Or.inl (Or.inr hx)
                    · exact Or.inr hx
                  · intro s hs
                    rw [exprRefs_create_variable, show
                      varRefs (FlatVariable.String (op0 ++ " " ++ (b ++ "_" ++ toString ctr1)))
                        = refTokens (op0 ++ " " ++ (b ++ "_" ++ toString ctr1)).data from rfl,
                      refTokens_opstring] at hs
                    rcases List.mem_append.mp hs with hx | hx
                    · rcases hsec.2.1 s (strTokens_mem (by simp) s hx) with hy | hy
                      · exact Or.inl hy
                      · exact Or.inr (by
                          rw [defTokens_append, defTokens_append]
                          exact List.mem_append_left _ (List.mem_append_left _ hy))
                    · exact Or.inr (mem_defTokens_last (em0 ++ emU)
                        (mkTemp (b ++ "_" ++ toString ctr1)
                          (create_binary_expression (.Number "0") op
                            (string_to_variable current)))
                        (by rw [stmtDefTokens_mkTemp]
                            exact refTokens_sub_nameTokens _ hx))
                · exact Except.noConfusion h
  · -- process_variable
    intro n b c f x c2 em h
    simp only [stepFns] at h
    exact pv_loopF_refs prev.process_identifier_chain prev.process_expression_section
      h3 h1 n.children b c f (TokenIn · n) x c2 em
      (fun s c' hc' hx => tokenIn_child n hc' hx) h
  · -- process_identifier_chain
    intro n b c f x c2 em h
    simp only [stepFns] at h
    split at h
    · exact Except.noConfusion h
    · -- a single identifier part
      rename_i single hchain
      have hmem : single ∈ n.children := List.mem_of_mem_filter (by rw [hchain]; simp)
      split at h
      · have hr := process_nested_call_refs single b c x c2 em h
        exact ⟨chainOk_mono _ _ _ (fun s hx => tokenIn_child n hmem hx) hr.1,
          fun s hs => (hr.2 s hs).imp (fun hx => tokenIn_child n hmem hx) id⟩
      · split at h
        · split at h
          · exact Except.noConfusion h
          · rename_i processed_call ctr1 em1 hpc
            simp only [Except.ok.injEq, Prod.mk.injEq] at h
            obtain ⟨rfl, -, rfl⟩ := h
            have hr := h5 single b c f processed_call ctr1 em1 hpc
            have hrn : ∀ s ∈ refTokens processed_call.data,
                TokenIn s n ∨ s ∈ defTokens em1 :=
              fun s hs => (hr.2 s hs).imp (fun hx => tokenIn_child n hmem hx) id
            constructor
            · refine chainOk_append _ _ _
                (chainOk_mono _ _ _ (fun s hx => tokenIn_child n hmem hx) hr.1)
                (chainOk_single _ _ ?_)
              intro s hs
              rw [stmtRefs_mkTemp, exprRefs_create_variable, varRefs_identifier] at hs
              exact hrn s hs
            · intro s hs
              rw [exprRefs_create_variable, varRefs_identifier] at hs
              exact Or.inr (mem_defTokens_last em1 _
                (by rw [stmtDefTokens_mkTemp]; exact refTokens_sub_nameTokens _ hs))
        · simp only [Except.ok.injEq, Prod.mk.injEq] at h
          obtain ⟨rfl, -, rfl⟩ := h
          refine ⟨trivial, fun s hs => Or.inl (tokenIn_text n ?_)⟩
          rw [exprRefs_create_variable, varRefs_identifier] at hs
          exact hs
    · -- several identifier parts
      split at h
      · simp only [Except.ok.injEq, Prod.mk.injEq] at h
        obtain ⟨rfl, -, rfl⟩ := h
        refine ⟨trivial, fun s hs => Or.inl (tokenIn_text n ?_)⟩
        rw [exprRefs_create_variable, varRefs_identifier] at hs
        exact hs
      · rename_i call_index hidx
        split at h
        · exact Except.noConfusion h
        · rename_i target htgt
          have htmem : target ∈ n.children :=
            List.mem_of_mem_filter (getIdx_mem htgt)
          split at h
          · exact Except.noConfusion h
          · rename_i processed_call ctr2 em2 hpc
            have hr := h5 target b (c + 1) f processed_call ctr2 em2 hpc
            have hchain2 : ChainOk (TokenIn · n) em2 :=
              chainOk_mono _ _ _ (fun s hx => tokenIn_child n htmem hx) hr.1
            have hce : ∀ s ∈ refTokens (String.intercalate "."
                (((n.children.filter (fun ch => ch.kind = Kind.identifier)).take
                  call_index).map STree.text ++ [processed_call])).data,
                TokenIn s n ∨ s ∈ defTokens em2 := by
              intro s hs
              have hst := refTokens_intercalate "." dot_sep_ne dot_sep_nonname _ s hs
              rw [strTokens_append] at hst
              rcases List.mem_append.mp hst with hx | hx
              · obtain ⟨y, hy, hys⟩ := strTokens_mem_sub hx
                obtain ⟨cp, hcp, rfl⟩ := List.mem_map.mp hy
                have hcpm : cp ∈ n.children :=
                  List.mem_of_mem_filter (List.take_subset _ _ hcp)
                exact Or.inl (tokenIn_child n hcpm (tokenIn_text cp hys))
              · have hpcs : s ∈ refTokens processed_call.data := by
                  simpa [strTokens] using hx
                exact (hr.2 s hpcs).imp (fun hy => tokenIn_child n htmem hy) id
            split at h
            · -- no remaining parts
              simp only [Except.ok.injEq, Prod.mk.injEq] at h
              obtain ⟨rfl, -, rfl⟩ := h
              constructor
              · refine chainOk_append _ _ _ hchain2 (chainOk_single _ _ ?_)
                intro s hs
                rw [stmtRefs_mkTemp, exprRefs_create_variable, varRefs_identifier] at hs
                exact hce s hs
              · intro s hs
                rw [exprRefs_create_variable, varRefs_identifier] at hs
                exact Or.inr (mem_defTokens_last em2 _
                  (by rw [stmtDefTokens_mkTemp]; exact refTokens_sub_nameTokens _ hs))
            · -- remaining parts processed by the suffix loop
              split at h
              · exact Except.noConfusion h
              · rename_i suffix_parts ctr3 em3 hsuf
                simp only [Except.ok.injEq, Prod.mk.injEq] at h
                obtain ⟨rfl, -, rfl⟩ := h
                have hsubr : ∀ s (c' : STree),
                    c' ∈ (n.children.filter
                      (fun ch => ch.kind = Kind.identifier)).drop (call_index + 1) →
                    TokenIn s c' → TokenIn s n := by
                  intro s c' hc' hx
                  exact tokenIn_child n
                    (List.mem_of_mem_filter (List.drop_subset (call_index + 1) _ hc')) hx
                have hsl := suffix_loopF_refs prev.process_identifier_part_with_calls h4
                  _ b ctr2 f
                  (fun s => TokenIn s n ∨ s ∈ defTokens (em2 ++ [mkTemp
                    (b ++ "_" ++ toString c) (create_variable_expression
                      (.Identifier (String.intercalate "."
                        (((n.children.filter (fun ch => ch.kind = Kind.identifier)).take
                          call_index).map STree.text ++ [processed_call]))))]))
                  suffix_parts ctr3 em3
                  (fun s c' hc' hx => Or.inl (hsubr s c' (by exact hc') hx))
                  hsuf
                constructor
                · rw [List.append_assoc]
                  refine chainOk_append _ _ _ hchain2 ?_
                  refine chainOk_append _ _ _ (chainOk_single _ _ ?_) ?_
                  · intro s hs
                    rw [stmtRefs_mkTemp, exprRefs_create_variable, varRefs_identifier] at hs
                    exact hce s hs
                  · refine chainOk_mono _ _ _ ?_ hsl.1
                    intro s hs
                    rcases hs with hx | hx
                    · exact Or.inl (Or.inl hx)
                    · rw [defTokens_append] at hx
                      rcases List.mem_append.mp hx with hy | hy
                      · exact Or.inl (Or.inr hy)
                      · exact Or.inr hy
                · intro s hs
                  rw [exprRefs_create_variable, varRefs_identifier] at hs
                  rw [show ((b ++ "_" ++ toString c) ++ "." ++
                      String.intercalate "." suffix_parts).data
                      = (b ++ "_" ++ toString c).data ++ '.' ::
                        (String.intercalate "." suffix_parts).data from by
                    simp [String.data_append]] at hs
                  rw [refTokens_append_sep dot_not_name] at hs
                  rcases List.mem_append.mp hs with hx | hx
                  · refine Or.inr ?_
                    rw [defTokens_append, defTokens_append]
                    refine List.mem_append_left _ (List.mem_append_right _ ?_)
                    rw [defTokens_cons, stmtDefTokens_mkTemp]
                    exact List.mem_append_left _ (refTokens_sub_nameTokens _ hx)
                  · have hst := refTokens_intercalate "." dot_sep_ne dot_sep_nonname
                      suffix_parts s hx
                    rcases hsl.2 s hst with (hy | hy) | hy
                    · exact Or.inl hy
                    · refine Or.inr ?_
                      rw [defTokens_append]
                      exact List.mem_append_left _ hy
                    · refine Or.inr ?_
                      rw [defTokens_append]
                      exact List.mem_append_right _ hy
  · -- process_identifier_part_with_calls
    intro n b c f x c2 em h
    simp only [stepFns] at h
    split at h
    · exact h5 _ _ _ _ _ _ _ h
    · simp only [Except.ok.injEq, Prod.mk.injEq] at h
      obtain ⟨rfl, -, rfl⟩ := h
      exact ⟨trivial, fun s hs => Or.inl (tokenIn_text n hs)⟩
  · -- process_call_with_arguments
    intro n b c f x c2 em h
    simp only [stepFns] at h
    split at h
    · rename_i callChild hfind
      have hmem : callChild ∈ n.children := List.mem_of_find?_eq_some hfind
      have hr := h6 callChild b c x c2 em h
      exact ⟨chainOk_mono _ _ _ (fun s hx => tokenIn_child n hmem hx) hr.1,
        fun s hs => (hr.2 s hs).imp (fun hx => tokenIn_child n hmem hx) id⟩
    · simp only [Except.ok.injEq, Prod.mk.injEq] at h
      obtain ⟨rfl, -, rfl⟩ := h
      exact ⟨trivial, fun s hs => Or.inl (tokenIn_text n hs)⟩
  · -- process_call_node
    intro n b c x c2 em h
    simp only [stepFns] at h
    split at h
    · exact Except.noConfusion h
    · rename_i call_identifier found args ctr1 em1 hloop
      have hl := call_node_loopF_refs prev.process_identifier_part_with_calls
        prev.process_call_argument h4 h7 n.children b c "" false [] (TokenIn · n)
        call_identifier found args ctr1 em1
        (fun s c' hc' hx => tokenIn_child n hc' hx)
        (by intro s hs
            rw [show refTokens ("" : String).data = [] from rfl] at hs
            exact absurd hs (by simp))
        (by intro s hs; exact absurd hs (by simp [strTokens_nil]))
        hloop
      split at h
      · split at h
        · simp only [Except.ok.injEq, Prod.mk.injEq] at h
          obtain ⟨rfl, -, rfl⟩ := h
          refine ⟨hl.1, fun s hs => ?_⟩
          rw [show (call_identifier ++ "()").data
              = call_identifier.data ++ '(' :: [')'] from by rw [String.data_append]] at hs
          rw [refTokens_append_sep lparen_not_name] at hs
          rcases List.mem_append.mp hs with hx | hx
          · exact hl.2.1 s hx
          · rw [show refTokens [')'] = [] from by decide] at hx
            exact absurd hx (by simp)
        · simp only [Except.ok.injEq, Prod.mk.injEq] at h
          obtain ⟨rfl, -, rfl⟩ := h
          refine ⟨hl.1, fun s hs => ?_⟩
          rw [show (call_identifier ++ "(" ++ String.intercalate ", " args ++ ")").data
              = call_identifier.data ++ '(' ::
                ((String.intercalate ", " args).data ++ [')']) from by
            simp [String.data_append, show ("(" : String).data = ['('] from rfl,
              show (")" : String).data = [')'] from rfl]] at hs
          rw [refTokens_append_sep lparen_not_name,
            refTokens_append_end_sep rparen_not_name] at hs
          rcases List.mem_append.mp hs with hx | hx
          · exact hl.2.1 s hx
          · exact hl.2.2 s (refTokens_intercalate ", " commaspace_ne commaspace_nonname
              args s hx)
      · exact Except.noConfusion h
  · -- process_call_argument
    intro n b c x c2 em h
    simp only [stepFns] at h
    split at h
    · exact Except.noConfusion h
    · rename_i expression_parts ctr1 em1 hcoll
      have hc := collect_sections_listF_refs prev.process_expression_section h1
        n.children b c true (TokenIn · n) expression_parts ctr1 em1
        (fun s c' hc' hx => tokenIn_child n hc' hx) hcoll
      split at h
      · exact Except.noConfusion h
      · rename_i arg_expr
        split at h
        · rename_i id hone
          split at h
          · simp only [Except.ok.injEq, Prod.mk.injEq] at h
            obtain ⟨rfl, -, rfl⟩ := h
            constructor
            · refine chainOk_append _ _ _ hc.1 (chainOk_single _ _ ?_)
              intro s hs
              rw [stmtRefs_mkTemp] at hs
              exact hc.2 arg_expr (by simp) s hs
            · intro s hs
              exact Or.inr (mem_defTokens_last em1 _
                (by rw [stmtDefTokens_mkTemp]; exact refTokens_sub_nameTokens _ hs))
          · simp only [Except.ok.injEq, Prod.mk.injEq] at h
            obtain ⟨rfl, -, rfl⟩ := h
            refine ⟨hc.1, fun s hs => ?_⟩
            refine hc.2 arg_expr (by simp) s (List.mem_append_left _ ?_)
            rw [show varRefs arg_expr.one = refTokens id.data from by rw [hone]; rfl]
            exact hs
        · simp only [Except.ok.injEq, Prod.mk.injEq] at h
          obtain ⟨rfl, -, rfl⟩ := h
          exact ⟨hc.1, fun s hs =>
            hc.2 arg_expr (by simp) s (refTokens_ets_simple arg_expr s hs)⟩
      · split at h
        · exact Except.noConfusion h
        · rename_i flattened ctr2 em2 hpep
          simp only [Except.ok.injEq, Prod.mk.injEq] at h
          obtain ⟨rfl, -, rfl⟩ := h
          have hf := process_expression_parts_refs expression_parts b ctr1
            (fun s => TokenIn s n ∨ s ∈ defTokens em1) flattened ctr2 em2
            (fun p hp s hs => hc.2 p hp s hs) hpep
          constructor
          · rw [List.append_assoc]
            refine chainOk_append _ _ _ hc.1 ?_
            refine chainOk_append _ _ _ hf.1 (chainOk_single _ _ ?_)
            intro s hs
            rw [stmtRefs_mkTemp] at hs
            rcases hf.2 s hs with (hx | hx) | hx
            · exact Or.inl (Or.inl hx)
            · exact Or.inl (Or.inr hx)
            · exact Or.inr hx
          · intro s hs
            exact Or.inr (mem_defTokens_last (em1 ++ em2) _
              (by rw [stmtDefTokens_mkTemp]; exact refTokens_sub_nameTokens _ hs))

theorem bottomFns_refs : FnsRefsOk bottomFns := by
  refine ⟨?_, ?_, ?_, ?_, ?_, ?_, ?_⟩ <;>
    intros <;> exact Except.noConfusion (by assumption)

theorem theFns_refs : ∀ fuel, FnsRefsOk (theFns fuel) := by
  intro fuel
  induction fuel with
  | zero => exact bottomFns_refs
  | succ n ih => exact stepFns_refs _ ih

theorem flatten_expression_refs :
    ∀ (fuel : Nat) (node : STree) (st st1 : FlatStatement) (em : List FlatStatement),
      flatten_expression fuel node st = .ok (st1, em) →
      ChainOk (TokenIn · node) em ∧
        ∀ s ∈ stmtRefs st1, TokenIn s node ∨ s ∈ defTokens em := by
  intro fuel node st st1 em h
  simp only [flatten_expression] at h
  split at h
  · exact Except.noConfusion h
  · rename_i expression_parts ctr1 em1 hcoll
    split at h
    · exact Except.noConfusion h
    · rename_i flattened ctr2 em2 hpep
      simp only [Except.ok.injEq, Prod.mk.injEq] at h
      obtain ⟨rfl, rfl⟩ := h
      have hc := collect_sections_listF_refs ((theFns fuel).process_expression_section)
        ((theFns_refs fuel).1) node.children _ 1 _ (TokenIn · node)
        expression_parts ctr1 em1
        (fun s c' hc' hx => tokenIn_child node hc' hx) hcoll
      have hf := process_expression_parts_refs expression_parts _ ctr1
        (fun s => TokenIn s node ∨ s ∈ defTokens em1) flattened ctr2 em2
        (fun p hp s hs => hc.2 p hp s hs) hpep
      constructor
      · exact chainOk_append _ _ _ hc.1 hf.1
      · intro s hs
        rw [show stmtRefs { st with expression := some flattened } = exprRefs flattened
          from rfl] at hs
        rcases hf.2 s hs with (hx | hx) | hx
        · exact Or.inl hx
        · exact Or.inr (by rw [defTokens_append]; exact List.mem_append_left _ hx)
        · exact Or.inr (by rw [defTokens_append]; exact List.mem_append_right _ hx)

theorem stmt_children_loopF_refs
    (fe : STree → FlatStatement → Except Error (FlatStatement × List FlatStatement))
    (hfe : ∀ n st st1 em, fe n st = .ok (st1, em) →
      ChainOk (TokenIn · n) em ∧ ∀ s ∈ stmtRefs st1, TokenIn s n ∨ s ∈ defTokens em) :
    ∀ (cs : List STree) (st : FlatStatement) (A : String → Prop)
      (st1 : FlatStatement) (em : List FlatStatement),
      (∀ s c', c' ∈ cs → TokenIn s c' → A s) →
      (∀ s ∈ stmtRefs st, A s) →
      stmt_children_loopF fe cs st = .ok (st1, em) →
      ChainOk A em ∧ ∀ s ∈ stmtRefs st1, A s ∨ s ∈ defTokens em := by
  intro cs
  induction cs with
  | nil =>
    intro st A st1 em hsub hst h
    simp only [stmt_children_loopF, Except.ok.injEq, Prod.mk.injEq] at h
    obtain ⟨rfl, rfl⟩ := h
    exact ⟨trivial, fun s hs => Or.inl (hst s hs)⟩
  | cons c rest ih =>
    intro st A st1 em hsub hst h
    simp only [stmt_children_loopF] at h
    split at h
    · refine ih _ A st1 em (fun s c' hc' hx => hsub s c' (by simp [hc']) hx) ?_ h
      intro s hs
      rw [show stmtRefs (flatten_definition c st) = stmtRefs st from rfl] at hs
      exact hst s hs
    · split at h
      · split at h
        · exact Except.noConfusion h
        · rename_i stA em1 hfe1
          split at h
          · exact Except.noConfusion h
          · rename_i stB em2 hrest
            simp only [Except.ok.injEq, Prod.mk.injEq] at h
            obtain ⟨rfl, rfl⟩ := h
            have h1 := hfe c st stA em1 hfe1
            have hAc : ∀ s, TokenIn s c → A s := fun s hx => hsub s c (by simp) hx
            have h2 := ih stA (fun s => A s ∨ s ∈ defTokens em1) _ _
              (fun s c' hc' hx => Or.inl (hsub s c' (by simp [hc']) hx))
              (fun s hs => (h1.2 s hs).imp (hAc s) id) hrest
            refine ⟨chainOk_append _ _ _ (chainOk_mono _ _ _ hAc h1.1) h2.1, ?_⟩
            intro s hs
            rcases h2.2 s hs with (hx | hx) | hx
            · exact Or.inl hx
            · exact Or.inr (by rw [defTokens_append]; exact List.mem_append_left _ hx)
            · exact Or.inr (by rw [defTokens_append]; exact List.mem_append_right _ hx)
      · exact ih st A st1 em (fun s c' hc' hx => hsub s c' (by simp [hc']) hx) hst h

/-- Claim C4: for every statement node the flattener accepts, the emitted
statement list is the compiler-generated temporaries (each a `Constant`
definition holding an expression) followed by the statement itself, last;
and the list respects dependency order: every name a statement's expression
references that does not occur as a token of the source tree — i.e. every
name the flattener made up, a compiler-generated temporary — is the defined
name of a statement appearing strictly earlier in the emitted list.  So a
temporary definition always precedes the (possibly temporary) statement
that references it, and no statement references a temporary defined later. -/
theorem C4_dependency_order (fuel : Nat) (node : STree) (em : List FlatStatement)
    (h : flatten_statement fuel node = .ok em) :
    (∃ temps main, em = temps ++ [main] ∧ temps.all isTempStmt = true) ∧
    ∀ i (hi : i < em.length), ∀ s ∈ stmtRefs (em.get ⟨i, hi⟩),
      ¬ TokenIn s node → s ∈ defTokens (em.take i) := by
  simp only [flatten_statement] at h
  split at h
  · exact Except.noConfusion h
  · rename_i statement em1 hloop
    simp only [Except.ok.injEq] at h
    subst h
    constructor
    · refine ⟨em1, statement, rfl, ?_⟩
      exact stmt_children_loopF_temps _
        (fun n st st1 e hh => flatten_expression_temps fuel n st st1 e hh)
        _ _ _ _ hloop
    · have hl := stmt_children_loopF_refs (flatten_expression fuel)
        (fun n st st1 e hh => flatten_expression_refs fuel n st st1 e hh)
        node.children { definition := none, expression := none } (TokenIn · node)
        statement em1
        (fun s c' hc' hx => tokenIn_child node hc' hx)
        (by intro s hs
            exact absurd hs (by
              rw [show stmtRefs { definition := none, expression := none } = []
                from rfl]
              simp))
        hloop
      have hchain : ChainOk (TokenIn · node) (em1 ++ [statement]) :=
        chainOk_append _ _ _ hl.1 (chainOk_single _ _ (fun s hs => hl.2 s hs))
      intro i hi s hs hTok
      rcases chainOk_get _ _ hchain i hi s hs with hx | hx
      · exact absurd hx hTok
      · exact hx

/-- Witness for C4 at the statement of `x : 0d10 - [0d10 - 0d5];`: the
emitted list is the temporary `x_1` followed by the statement, and the
backward-reference property holds at every position. -/
theorem C4_dependency_order_witness :
    (∃ temps main, ([x1TempStmt, xMainStmt] : List FlatStatement) = temps ++ [main] ∧
      temps.all isTempStmt = true) ∧
    ∀ i (hi : i < ([x1TempStmt, xMainStmt] : List FlatStatement).length),
      ∀ s ∈ stmtRefs (([x1TempStmt, xMainStmt] : List FlatStatement).get ⟨i, hi⟩),
        ¬ TokenIn s bracketStatementNode →
        s ∈ defTokens (([x1TempStmt, xMainStmt] : List FlatStatement).take i) :=
  C4_dependency_order 8 bracketStatementNode [x1TempStmt, xMainStmt] rfl

/-- Claim C5 (counterexample): a tree whose root kind is outside the
recognised set does not produce a hard error — flattening returns the empty
root successfully. -/
theorem C5_counterexample :
    flatten_tree 2 (.node .other "weird" []) = .ok { statement_chains := [] } := rfl

/-- Claim C5 (amended): the flattener silently ignores unrecognised node
kinds instead of erroring: any root that is neither `source_file` nor
`source` flattens to the empty root with no error, at every fuel. -/
theorem C5_unrecognised_root_ok (fuel : Nat) (k : Kind) (t : String)
    (cs : List STree) (h1 : k ≠ .source_file) (h2 : k ≠ .source) :
    flatten_node fuel (.node k t cs) = .ok { statement_chains := [] } := by
  simp [flatten_node, STree.kind, h1, h2]

/-- Witness for C5's amended theorem. -/
theorem C5_unrecognised_root_ok_witness :
    flatten_node 0 (.node .other "" []) = .ok { statement_chains := [] } :=
  C5_unrecognised_root_ok 0 .other "" [] (by decide) (by decide)

/-- Claim C8: for every bytecode and every pair of map base addresses,
`execute_bytecode`'s setup allocates a 64 KiB stack region, writes at eight
bytes below its end one word holding the absolute address of the `main`
offset inside the executable region, and builds the `old` coroutine with all
eight slots zero and the `new` coroutine all-zero except slot 7 (`RSP`),
which holds that word's address; the executable region is the copied code
and control enters at its first byte. -/
theorem C8_executor_setup (b : Bytecode) (exec_base stack_base hello_ptr : Nat) :
    (execute_setup b exec_base stack_base hello_ptr).stack_size = 64 * 1024 ∧
    (execute_setup b exec_base stack_base hello_ptr).stack_word_addr + 8 =
      stack_base + (execute_setup b exec_base stack_base hello_ptr).stack_size ∧
    (execute_setup b exec_base stack_base hello_ptr).stack_word_value =
      exec_base + b.main ∧
    (execute_setup b exec_base stack_base hello_ptr).old.registers =
      List.replicate 8 0 ∧
    (execute_setup b exec_base stack_base hello_ptr).new.registers.length = 8 ∧
    (execute_setup b exec_base stack_base hello_ptr).new.registers.take 7 =
      List.replicate 7 0 ∧
    (execute_setup b exec_base stack_base hello_ptr).new.registers.get? 7 =
      some (execute_setup b exec_base stack_base hello_ptr).stack_word_addr ∧
    (execute_setup b exec_base stack_base hello_ptr).executable_bytes = b.code ∧
    (execute_setup b exec_base stack_base hello_ptr).executable_len =
      b.code.length ∧
    (execute_setup b exec_base stack_base hello_ptr).entry_addr = exec_base := by
  refine ⟨rfl, ?_, rfl, rfl, rfl, rfl, rfl, rfl, rfl, rfl⟩
  show stack_base + (64 * 1024 - 8) + 8 = stack_base + 64 * 1024
  omega

/-- Claim C9: a source-file tree with no statement chains flattens to the
empty root; a prioritised expression with no inner expression is rejected —
`validate_prioritize` reports `EmptyExpression` whenever the prioritize node
has no expression child, and processing `x : [];` end to end fails with
exactly that validation error. -/
theorem C9_empty_programs :
    (∀ (fuel : Nat) (t : String) (cs : List STree),
      (∀ c ∈ cs, c.kind ≠ .statement_chain) →
      flatten_node fuel (.node .source_file t cs) = .ok { statement_chains := [] }) ∧
    (∀ (ve : STree → Except Error Unit) (node : STree),
      (∀ c ∈ node.children, c.kind ≠ .expression) →
      validate_prioritizeF ve node = .error (.ValidationError .EmptyExpression)) ∧
    process_tree 16 emptyPrioritizeTree = .error (.ValidationError .EmptyExpression) := by
  refine ⟨?_, ?_, rfl⟩
  · intro fuel t cs hk
    simp only [flatten_node, STree.kind, STree.children]
    rw [chain_listF_skip (flatten_statement_chain fuel) cs [] hk]
    simp
  · intro ve node hk
    simp only [validate_prioritizeF]
    rw [vprioritize_loopF_skip ve node.children false hk]

/-- Witness for C9, at the empty source file and an empty prioritize node. -/
theorem C9_empty_programs_witness :
    flatten_node 3 (.node .source_file "" []) = .ok { statement_chains := [] } ∧
    validate_prioritizeF (fun _ => .error .outOfFuel) (.node .prioritize "[]" []) =
      .error (.ValidationError .EmptyExpression) ∧
    process_tree 16 emptyPrioritizeTree = .error (.ValidationError .EmptyExpression) :=
  ⟨C9_empty_programs.1 3 "" [] (by simp),
   C9_empty_programs.2.1 (fun _ => .error .outOfFuel) (.node .prioritize "[]" [])
     (by simp [STree.children]),
   C9_empty_programs.2.2⟩

/-- Claim C10: handing `flatten_tree` a tree whose expression node has no
`expression_section` children reaches the `unwrap` in
`process_expression_parts` with an empty parts vector — the Rust process
panics instead of returning a `Result`. -/
theorem C10_panic_on_sectionless_expression :
    flatten_tree 8 sectionlessTree = .error (.panicked unwrapMsg) := rfl

/-- A two-cons character list has length at most two exactly when its tail
of tails is empty. -/
theorem cons_cons_length_le_two {c c2 : Char} {rest : List Char} :
    (c :: c2 :: rest).length ≤ 2 ↔ rest = [] := by
  rw [← List.length_eq_zero (l := rest)]
  simp only [List.length_cons]
  omega

/-- Claim C6 (counterexample): `validate_number_format` accepts the token
`1`, which is neither the bare token `0` nor a radix-prefixed literal — the
validator does not reject every other number token. -/
theorem C6_counterexample :
    validate_number_format ['1'] = .ok () ∧
    ['1'] ≠ ['0'] ∧
    spec_radix_token_valid ['1'] = false := by
  refine ⟨rfl, by decide, rfl⟩

/-- Claim C6 (amended): `validate_number_format` accepts a token exactly when
it is the bare token `0`, or a radix-prefixed literal with a non-empty digit
part valid for its radix (prefix letter case-insensitive), or any token that
does not start with `0` — tokens not starting with `0` are passed through
unchecked. -/
theorem C6_number_validation :
    ∀ l, validate_number_format l = .ok () ↔
      (l = ['0'] ∨ spec_radix_token_valid l = true ∨ starts_withL l ['0'] = false) := by
  intro l
  rcases l with _ | ⟨c, _ | ⟨c2, rest⟩⟩
  · simp [validate_number_format, spec_radix_token_valid, starts_withL]
  · by_cases hc : c = '0'
    · subst hc
      simp [validate_number_format, spec_radix_token_valid, starts_withL]
    · simp [validate_number_format, spec_radix_token_valid, starts_withL, hc]
  · by_cases hc : c = '0'
    · subst hc
      have hlen : 1 < ('0' :: c2 :: rest).length := by
        simp only [List.length_cons]; omega
      by_cases hb : c2 = 'b'
      · subst hb
        rcases Decidable.em (rest = []) with hrest | hrest
        · subst hrest; decide
        · by_cases hall : rest.all (fun c => c == '0' || c == '1') = true <;>
            simp [validate_number_format, validate_binary_number,
              spec_radix_token_valid, starts_withL, cons_cons_length_le_two,
              hrest, hall, List.isEmpty_iff]
      · by_cases hB : c2 = 'B'
        · subst hB
          rcases Decidable.em (rest = []) with hrest | hrest
          · subst hrest; decide
          · by_cases hall : rest.all (fun c => c == '0' || c == '1') = true <;>
              simp [validate_number_format, validate_binary_number,
                spec_radix_token_valid, starts_withL, cons_cons_length_le_two,
                hrest, hall, List.isEmpty_iff]
        · by_cases ho : c2 = 'o'
          · subst ho
            rcases Decidable.em (rest = []) with hrest | hrest
            · subst hrest; decide
            · by_cases hall : rest.all (fun c => c.isDigit && c ≤ '7') = true <;>
                simp [validate_number_format, validate_octal_number,
                  spec_radix_token_valid, starts_withL, cons_cons_length_le_two,
                  hrest, hall, List.isEmpty_iff]
          · by_cases hO : c2 = 'O'
            · subst hO
              rcases Decidable.em (rest = []) with hrest | hrest
              · subst hrest; decide
              · by_cases hall : rest.all (fun c => c.isDigit && c ≤ '7') = true <;>
                  simp [validate_number_format, validate_octal_number,
                    spec_radix_token_valid, starts_withL, cons_cons_length_le_two,
                    hrest, hall, List.isEmpty_iff]
            · by_cases hd : c2 = 'd'
              · subst hd
                rcases Decidable.em (rest = []) with hrest | hrest
                · subst hrest; decide
                · by_cases hall : rest.all Char.isDigit = true <;>
                    simp [validate_number_format, validate_decimal_number,
                      spec_radix_token_valid, starts_withL, cons_cons_length_le_two,
                      hrest, hall, List.isEmpty_iff]
              · by_cases hD : c2 = 'D'
                · subst hD
                  rcases Decidable.em (rest = []) with hrest | hrest
                  · subst hrest; decide
                  · by_cases hall : rest.all Char.isDigit = true <;>
                      simp [validate_number_format, validate_decimal_number,
                        spec_radix_token_valid, starts_withL, cons_cons_length_le_two,
                        hrest, hall, List.isEmpty_iff]
                · by_cases hx : c2 = 'x'
                  · subst hx
                    rcases Decidable.em (rest = []) with hrest | hrest
                    · subst hrest; decide
                    · by_cases hall : rest.all is_ascii_hexdigit = true <;>
                        simp [validate_number_format, validate_hex_number,
                          spec_radix_token_valid, starts_withL, cons_cons_length_le_two,
                          hrest, hall, List.isEmpty_iff]
                  · by_cases hX : c2 = 'X'
                    · subst hX
                      rcases Decidable.em (rest = []) with hrest | hrest
                      · subst hrest; decide
                      · by_cases hall : rest.all is_ascii_hexdigit = true <;>
                          simp [validate_number_format, validate_hex_number,
                            spec_radix_token_valid, starts_withL, cons_cons_length_le_two,
                            hrest, hall, List.isEmpty_iff]
                    · simp [validate_number_format, spec_radix_token_valid,
                        starts_withL, hb, hB, ho, hO, hd, hD, hx, hX, hlen]
    · simp [validate_number_format, spec_radix_token_valid, starts_withL, hc]

/-- A sign character is not a digit in any radix. -/
theorem to_digit_plus (radix : Nat) : to_digit radix '+' = none := rfl

/-- A sign character is not a digit in any radix. -/
theorem to_digit_minus (radix : Nat) : to_digit radix '-' = none := rfl

/-- The digit fold only grows its accumulator (radix at least one). -/
theorem digits_foldl_mono (radix : Nat) (h : 1 ≤ radix) :
    ∀ (ds : List Char) (acc : Nat),
      acc ≤ ds.foldl (fun a c => a * radix + ((to_digit radix c).getD 0)) acc := by
  intro ds
  induction ds with
  | nil => intro acc; exact Nat.le_refl acc
  | cons c cs ih =>
    intro acc
    refine Nat.le_trans ?_ (ih (acc * radix + ((to_digit radix c).getD 0)))
    calc acc = acc * 1 := (Nat.mul_one acc).symm
    _ ≤ acc * radix := Nat.mul_le_mul_left acc h
    _ ≤ acc * radix + ((to_digit radix c).getD 0) := Nat.le_add_right _ _

/-- The checked positive fold of `from_str_radix` succeeds and computes the
digit fold whenever every character is a digit of the radix and the final
value fits in an `i64`. -/
theorem from_str_radix_digits_pos_ok (radix : Nat) (h : 1 ≤ radix) :
    ∀ (ds : List Char) (acc : Nat),
      (∀ c ∈ ds, (to_digit radix c).isSome) →
      ds.foldl (fun a c => a * radix + ((to_digit radix c).getD 0)) acc ≤ i64_max →
      from_str_radix_digits_pos radix acc ds =
        some (ds.foldl (fun a c => a * radix + ((to_digit radix c).getD 0)) acc) := by
  intro ds
  induction ds with
  | nil => intro acc _ _; rfl
  | cons c cs ih =>
    intro acc hval hb
    obtain ⟨d, hd⟩ := Option.isSome_iff_exists.mp (hval c (List.mem_cons_self c cs))
    have hfold : (c :: cs).foldl (fun a c => a * radix + ((to_digit radix c).getD 0)) acc =
        cs.foldl (fun a c => a * radix + ((to_digit radix c).getD 0)) (acc * radix + d) := by
      simp [List.foldl_cons, hd]
    rw [hfold] at hb
    have hacc1 : acc * radix + d ≤ i64_max :=
      Nat.le_trans (digits_foldl_mono radix h cs (acc * radix + d)) hb
    simp only [from_str_radix_digits_pos, hd, if_pos hacc1]
    rw [ih (acc * radix + d) (fun x hx => hval x (List.mem_cons_of_mem c hx)) hb, hfold]

/-- The checked positive fold fails whenever some character is not a digit of
the radix. -/
theorem from_str_radix_digits_pos_none (radix : Nat) :
    ∀ (ds : List Char) (acc : Nat),
      (∃ c ∈ ds, to_digit radix c = none) →
      from_str_radix_digits_pos radix acc ds = none := by
  intro ds
  induction ds with
  | nil =>
    intro acc hex
    obtain ⟨c, hc, -⟩ := hex
    exact absurd hc (List.not_mem_nil c)
  | cons c cs ih =>
    intro acc hex
    cases h : to_digit radix c with
    | none => simp [from_str_radix_digits_pos, h]
    | some d =>
      obtain ⟨c1, hc1, hnone⟩ := hex
      rcases List.mem_cons.mp hc1 with rfl | hmem
      · exact absurd h (by rw [hnone]; exact Option.noConfusion)
      · simp only [from_str_radix_digits_pos, h]
        split
        · exact ih _ ⟨c1, hmem, hnone⟩
        · rfl

/-- Model of `from_str_radix` on an all-digit string computes the digit value when it
fits in an `i64`. -/
theorem from_str_radix_ok (radix : Nat) (h : 1 ≤ radix) (ds : List Char)
    (hne : ds ≠ []) (hval : ∀ c ∈ ds, (to_digit radix c).isSome)
    (hb : digitsVal radix ds ≤ i64_max) :
    from_str_radix radix ds = some (Int.ofNat (digitsVal radix ds)) := by
  cases ds with
  | nil => exact absurd rfl hne
  | cons c cs =>
    have hcv := hval c (List.mem_cons_self c cs)
    have hplus : c ≠ '+' := by
      intro hh; rw [hh, to_digit_plus] at hcv; exact Bool.noConfusion hcv
    have hminus : c ≠ '-' := by
      intro hh; rw [hh, to_digit_minus] at hcv; exact Bool.noConfusion hcv
    simp only [from_str_radix, if_neg hplus, if_neg hminus]
    rw [from_str_radix_digits_pos_ok radix h (c :: cs) 0 hval hb]
    rfl

/-- Model of `from_str_radix` fails on a sign-free string containing a non-digit. -/
theorem from_str_radix_err (radix : Nat) (ds : List Char)
    (h1 : ds.head? ≠ some '+') (h2 : ds.head? ≠ some '-')
    (hex : ∃ c ∈ ds, to_digit radix c = none) :
    from_str_radix radix ds = none := by
  cases ds with
  | nil => rfl
  | cons c cs =>
    have hp : c ≠ '+' := fun hh => h1 (by rw [hh]; rfl)
    have hm : c ≠ '-' := fun hh => h2 (by rw [hh]; rfl)
    simp only [from_str_radix, if_neg hp, if_neg hm]
    rw [from_str_radix_digits_pos_none radix (c :: cs) 0 hex]
    rfl

/-- Claim C7 (counterexample): the number token `0d9223372036854775808` is
well formed — non-empty decimal digits after the `0d` prefix — yet
`parse_number` returns an error, because the value exceeds `i64::MAX`;
decoding is not total on well-formed tokens. -/
theorem C7_counterexample :
    ("9223372036854775808".data.all (fun c => (to_digit 10 c).isSome) = true) ∧
    "9223372036854775808".data ≠ [] ∧
    parse_number (.Decimal ('0' :: 'd' :: "9223372036854775808".data)) =
      .error "Invalid decimal number" := by
  refine ⟨by decide, by decide, rfl⟩

/-- Claim C7 (amended): `parse_number` maps `Zero` to `0`; for each
prefixed variant it ignores the two prefix characters and, whenever the
digit part is non-empty, every character is a digit of the variant's radix,
and the value fits in an `i64`, returns exactly the digit part's value in
that radix (base 2 for `Binary`, 8 for `Octal`, 10 for `Decimal`, 16 for
`Hex`); a sign-free digit part containing a character invalid in the radix
yields the variant's error. -/
theorem C7_number_decoding :
    (parse_number .Zero = .ok 0) ∧
    (∀ p1 p2 ds, ds ≠ [] → (∀ c ∈ ds, (to_digit 2 c).isSome) →
      digitsVal 2 ds ≤ i64_max →
      parse_number (.Binary (p1 :: p2 :: ds)) = .ok (Int.ofNat (digitsVal 2 ds))) ∧
    (∀ p1 p2 ds, ds ≠ [] → (∀ c ∈ ds, (to_digit 8 c).isSome) →
      digitsVal 8 ds ≤ i64_max →
      parse_number (.Octal (p1 :: p2 :: ds)) = .ok (Int.ofNat (digitsVal 8 ds))) ∧
    (∀ p1 p2 ds, ds ≠ [] → (∀ c ∈ ds, (to_digit 10 c).isSome) →
      digitsVal 10 ds ≤ i64_max →
      parse_number (.Decimal (p1 :: p2 :: ds)) = .ok (Int.ofNat (digitsVal 10 ds))) ∧
    (∀ p1 p2 ds, ds ≠ [] → (∀ c ∈ ds, (to_digit 16 c).isSome) →
      digitsVal 16 ds ≤ i64_max →
      parse_number (.Hex (p1 :: p2 :: ds)) = .ok (Int.ofNat (digitsVal 16 ds))) ∧
    (∀ p1 p2 ds, ds.head? ≠ some '+' → ds.head? ≠ some '-' →
      (∃ c ∈ ds, to_digit 2 c = none) →
      parse_number (.Binary (p1 :: p2 :: ds)) = .error "Invalid binary number") ∧
    (∀ p1 p2 ds, ds.head? ≠ some '+' → ds.head? ≠ some '-' →
      (∃ c ∈ ds, to_digit 8 c = none) →
      parse_number (.Octal (p1 :: p2 :: ds)) = .error "Invalid octal number") ∧
    (∀ p1 p2 ds, ds.head? ≠ some '+' → ds.head? ≠ some '-' →
      (∃ c ∈ ds, to_digit 10 c = none) →
      parse_number (.Decimal (p1 :: p2 :: ds)) = .error "Invalid decimal number") ∧
    (∀ p1 p2 ds, ds.head? ≠ some '+' → ds.head? ≠ some '-' →
      (∃ c ∈ ds, to_digit 16 c = none) →
      parse_number (.Hex (p1 :: p2 :: ds)) = .error "Invalid hex number") := by
  refine ⟨rfl, ?_, ?_, ?_, ?_, ?_, ?_, ?_, ?_⟩
  all_goals intro p1 p2 ds hh1 hh2
  all_goals
    first
    | (intro hb
       simp only [parse_number, List.drop_succ_cons, List.drop_zero]
       rw [from_str_radix_ok _ (by omega) ds hh1 hh2 hb])
    | (intro hex
       simp only [parse_number, List.drop_succ_cons, List.drop_zero]
       rw [from_str_radix_err _ ds hh1 hh2 hex])

/-- Witness for C7 at the binary token `0b101` and the bad hex token
`0xG`. -/
theorem C7_number_decoding_witness :
    parse_number (.Binary ['0', 'b', '1', '0', '1']) = .ok 5 ∧
    parse_number (.Hex ['0', 'x', 'G']) = .error "Invalid hex number" :=
  ⟨C7_number_decoding.2.1 '0' 'b' ['1', '0', '1'] (by decide) (by decide) (by decide),
   C7_number_decoding.2.2.2.2.2.2.2.2 '0' 'x' ['G'] (by decide) (by decide)
     ⟨'G', by decide, by decide⟩⟩

end Mage



